import Mathlib

/-!
# geomatch: domain matching against routing rules

A shallow embedding of `geosite.go` (package `geomatch`) and theorems about it.

Modelling conventions.

* A Go `string` is a finite byte sequence.  It is modelled as `Str = List Char`,
  one list element per byte.  Every operation used by the source (`len`, slicing,
  indexing, `==`, `strings.HasPrefix`, `strings.Index`, `strings.Contains`) is
  parametric in the element type; the only bytes the source names are `.`, `:`
  and `@`.  `strings.ToUpper` is not parametric and is taken from the environment.
* A Go slice is a `List`; the `nil` slice is `[]`.  Every `Match` method of the
  source starts from `var condition []Condition` and only ever appends to it, so
  its result is `nil` exactly when it has no element, and the test `cond != nil`
  in `DomainMatcher.Match` is the test that `cond` is not empty.
* A `List` has no capacity.  The value-level `Condition.addChildren` and
  `DomainMatcher.Match` are therefore exact when no template has spare capacity
  in its `children`, which holds for every template `newCondition` makes and so
  for every matcher `Build` returns.  The section "A memory model of `Match`"
  embeds the same code over backing arrays, where `append` can write in place;
  the refinement and frame theorems on matchers that are not the result of
  `Build` are stated there.
* A run-time panic (index out of range) is the result `none`.
* A Go `(value, error)` pair is an `Except Err value`.
* Library code outside the repository (`regexp`, `ioutil.ReadFile`,
  `proto.Unmarshal`, `strings.ToUpper`) is a field of `Env`.
-/

set_option autoImplicit false

namespace Geomatch

/-- Go `string`: a sequence of bytes. -/
abbrev Str := List Char

/-! ## Library functions of package `strings` -/

/-- Embeds `strings.HasPrefix(s, prefix)`. -/
def HasPrefix (s p : Str) : Bool := p.isPrefixOf s

/-- Position of the first occurrence of `sep` in `s`, if there is one. -/
def indexOf (sep : Str) : Str → Option Nat
  | [] => if HasPrefix [] sep then some 0 else none
  | c :: t =>
    if HasPrefix (c :: t) sep then some 0
    else match indexOf sep t with
      | some n => some (n + 1)
      | none => none

/-- Embeds `strings.Index(s, substr)`: index of the first occurrence, or `-1`. -/
def Index (s sep : Str) : Int :=
  match indexOf sep s with
  | some n => (n : Int)
  | none => -1

/-- Embeds `strings.Contains(s, substr)`, which is `Index(s, substr) >= 0`. -/
def Contains (s sub : Str) : Bool := decide (0 ≤ Index s sub)

/-! ## Conditions -/

/-- Embeds `type Condition struct { prefix, payload string; children []Condition }`.
The field `prefix` is spelled `pfx` here. -/
inductive Condition where
  | mk (pfx : Str) (payload : Str) (children : List Condition)

namespace Condition

/-- Field `prefix`. -/
def pfx : Condition → Str
  | mk p _ _ => p

/-- Field `payload`. -/
def payload : Condition → Str
  | mk _ p _ => p

/-- Field `children`. -/
def children : Condition → List Condition
  | mk _ _ cs => cs

/-- Embeds `func (c *Condition) addChildren(conditions []Condition)`, on a copy of the
receiver: the value of `*c` after the call.  This is `append` on values: it is
exact when `c.children` has no spare capacity, as for a nil slice; with spare
capacity `append` writes into the backing array the copy shares with the
template, which `goAppend` of the memory model shows. -/
def addChildren (c : Condition) (conditions : List Condition) : Condition :=
  mk c.pfx c.payload (c.children ++ conditions)

end Condition

/-- Embeds `func newCondition(prefix, payload string) Condition`. -/
def newCondition (pfx payload : Str) : Condition := Condition.mk pfx payload []

/-! ## Matchers -/

/-- Embeds `*regexp.Regexp` as far as the source uses it: `String()` returns the
source text `expr`, `MatchString` is the compiled search predicate. -/
structure Regexp where
  expr : Str
  MatchString : Str → Bool

mutual
/-- The interface `Matcher`; one constructor per implementing type of the
source (`var _ Matcher = (*DomainMatcher)(nil)` and the four that follow). -/
inductive Matcher where
  | ofDomain (m : DomainMatcher)
  | ofFull (m : Str)
  | ofSubDomain (m : Str)
  | ofRegex (m : Regexp)
  | ofKeyword (m : Str)
/-- Embeds `type DomainMatcher struct { matchers []Matcher; matcherCondIdx []int;
conditions []Condition }`. -/
inductive DomainMatcher where
  | mk (matchers : List Matcher) (matcherCondIdx : List Int) (conditions : List Condition)
end

namespace DomainMatcher

/-- Field `matchers`. -/
def matchers : DomainMatcher → List Matcher
  | mk ms _ _ => ms

/-- Field `matcherCondIdx`. -/
def matcherCondIdx : DomainMatcher → List Int
  | mk _ idx _ => idx

/-- Field `conditions`. -/
def conditions : DomainMatcher → List Condition
  | mk _ _ cs => cs

end DomainMatcher

/-- Embeds `func NewKeywordMatcher(keyword string) *KeywordMatcher`. -/
def NewKeywordMatcher (keyword : Str) : Matcher := Matcher.ofKeyword keyword

/-- Embeds `func NewFullMatcher(content string) *FullMatcher`. -/
def NewFullMatcher (content : Str) : Matcher := Matcher.ofFull content

/-- Embeds `func NewSubDomainMatcher(subdomain string) *SubDomainMatcher`. -/
def NewSubDomainMatcher (subdomain : Str) : Matcher := Matcher.ofSubDomain subdomain

/-- Embeds `func (m *KeywordMatcher) Match(domain string) []Condition`. -/
def KeywordMatcher.Match (m : Str) (domain : Str) : List Condition :=
  let keyword := m
  if Contains domain keyword then [newCondition "keyword".toList keyword] else []

/-- Embeds `func (m *FullMatcher) Match(domain string) []Condition`. -/
def FullMatcher.Match (m : Str) (domain : Str) : List Condition :=
  let s := m
  if s = domain then [newCondition "full".toList s] else []

/-- Embeds `func (m *RegexMatcher) Match(domain string) []Condition`. -/
def RegexMatcher.Match (m : Regexp) (domain : Str) : List Condition :=
  if m.MatchString domain then [newCondition "regexp".toList m.expr] else []

/-- Embeds `func (m *SubDomainMatcher) Match(domain string) []Condition`.
`diff` is a Go `int`; the slices `domain[diff:]`, `domain[:diff]` and the byte
`domain[diff-1]` are only evaluated when `diff >= 0`, and the byte only when
`domain[:diff]` is not empty (`||` short-circuits), so nothing here can panic. -/
def SubDomainMatcher.Match (m : Str) (domain : Str) : List Condition :=
  let subdomain := m
  let diff : Int := (domain.length : Int) - (subdomain.length : Int)
  if diff < 0 then []
  else if domain.drop diff.toNat = subdomain ∧
      (domain.take diff.toNat = [] ∨ domain[diff.toNat - 1]? = some '.') then
    [newCondition "domain".toList subdomain]
  else []

/-- The statement `if l > 0 && domain[l-1] == '.' { domain = domain[:l-1] }`
that opens `DomainMatcher.Match`: the value of `domain` after it. -/
def stripDot (domain : Str) : Str :=
  let l := domain.length
  if 0 < l ∧ domain[l - 1]? = some '.' then domain.take (l - 1) else domain

/-- Embeds `m.conditions[j]` for a Go `int` index `j`; `none` is the panic. -/
def condAt (conditions : List Condition) (j : Int) : Option Condition :=
  if j < 0 then none else conditions[j.toNat]?

mutual
/-- Dynamic dispatch of `matcher.Match(domain)` on an interface value. -/
def Matcher.Match : Matcher → Str → Option (List Condition)
  | .ofDomain m, domain => m.Match domain
  | .ofFull m, domain => some (FullMatcher.Match m domain)
  | .ofSubDomain m, domain => some (SubDomainMatcher.Match m domain)
  | .ofRegex m, domain => some (RegexMatcher.Match m domain)
  | .ofKeyword m, domain => some (KeywordMatcher.Match m domain)
/-- Embeds `func (m *DomainMatcher) Match(domain string) []Condition` on values:
exact for matchers whose templates have no spare capacity in `children` (every
matcher `Build` returns); `DomainMatcherM.Match` is the same code over memory. -/
def DomainMatcher.Match : DomainMatcher → Str → Option (List Condition)
  | .mk matchers matcherCondIdx conditions, domain =>
    DomainMatcher.matchLoop matchers matcherCondIdx conditions (stripDot domain) 0 []
/-- The loop `for i, matcher := range m.matchers` of `DomainMatcher.Match`: the
remaining matchers, the two other fields, the normalized domain, the loop index
`i` and the slice `conditions` accumulated so far. -/
def DomainMatcher.matchLoop :
    List Matcher → List Int → List Condition → Str → Nat → List Condition →
      Option (List Condition)
  | [], _, _, _, _, acc => some acc
  | matcher :: rest, matcherCondIdx, conditions, domain, i, acc =>
    match matcher.Match domain with
    | none => none
    | some cond =>
      if ¬ cond.isEmpty then
        match matcherCondIdx[i]? with
        | none => none
        | some j =>
          match condAt conditions j with
          | none => none
          | some condition =>
            let condition :=
              if condition.pfx = "geosite".toList then condition.addChildren cond
              else condition
            DomainMatcher.matchLoop rest matcherCondIdx conditions domain (i + 1)
              (acc ++ [condition])
      else DomainMatcher.matchLoop rest matcherCondIdx conditions domain (i + 1) acc
end

/-! ## The dataset (package `v2ray.com/core/app/router`) -/

/-- Embeds `type Domain_Type int32`, the generated protobuf enum.  It is an open enum:
a decoded record can carry a number that names no constant. -/
abbrev Domain_Type := Int

/-- Embeds `Domain_Plain Domain_Type = 0`. -/
def Domain_Plain : Domain_Type := 0

/-- Embeds `Domain_Regex Domain_Type = 1`. -/
def Domain_Regex : Domain_Type := 1

/-- Embeds `Domain_Domain Domain_Type = 2`. -/
def Domain_Domain : Domain_Type := 2

/-- Embeds `Domain_Full Domain_Type = 3`. -/
def Domain_Full : Domain_Type := 3

/-- Embeds `type Domain_Attribute struct`, of which the source reads `GetKey()` only. -/
structure Domain_Attribute where
  Key : Str
  deriving DecidableEq

/-- Embeds `type Domain struct { Type Domain_Type; Value string; Attribute []*Domain_Attribute }`.
The field `Type` is spelled `Type_` here. -/
structure Domain where
  Type_ : Domain_Type
  Value : Str
  Attribute : List Domain_Attribute
  deriving DecidableEq

/-- Embeds `type GeoSite struct { CountryCode string; Domain []*Domain }`. -/
structure GeoSite where
  CountryCode : Str
  Domain : List Domain
  deriving DecidableEq

/-- Embeds `type GeoSiteList struct { Entry []*GeoSite }`. -/
structure GeoSiteList where
  Entry : List GeoSite
  deriving DecidableEq

/-! ## Errors and the environment -/

/-- The errors `Build` can return.  The three made by this package carry the
string that is formatted into their message; the other three are the errors of
`ioutil.ReadFile`, `proto.Unmarshal` and `regexp.Compile`. -/
inductive Err where
  /-- Embeds `errors.Errorf("invalid Condition format: %s", cond)`. -/
  | invalidCondition (cond : Str)
  /-- Embeds `errors.Errorf("invalid geosite content: geosite:%s", payload)`. -/
  | invalidGeosite (payload : Str)
  /-- Embeds `errors.Errorf("domain list for geosite:%s not found", payload)`. -/
  | notFound (payload : Str)
  | readFile (file : Str)
  | unmarshal
  | regexpCompile (pattern : Str)
  deriving DecidableEq

/-- What the source takes from outside the repository. -/
structure Env where
  /-- Embeds `strings.ToUpper`. -/
  ToUpper : Str → Str
  /-- Embeds `regexp.Compile(pattern)`: the search predicate of the compiled
  expression, or `none` when the pattern does not compile. -/
  Compile : Str → Option (Str → Bool)
  /-- Embeds `ioutil.ReadFile(file)`: the bytes of the file, or `none` on an error. -/
  ReadFile : Str → Option Str
  /-- Embeds `proto.Unmarshal(data, geoList)`: the decoded list, or `none` on an error. -/
  Unmarshal : Str → Option GeoSiteList

/-- Embeds `func NewRegexMatcher(pattern string) (*RegexMatcher, error)`. -/
def NewRegexMatcher (env : Env) (pattern : Str) : Except Err Matcher :=
  match env.Compile pattern with
  | none => .error (.regexpCompile pattern)
  | some r => .ok (Matcher.ofRegex ⟨pattern, r⟩)

/-! ## The builder -/

/-- Embeds `type DomainMatcherBuilder struct { file string; conditions []string }`. -/
structure DomainMatcherBuilder where
  file : Str
  conditions : List Str
  deriving DecidableEq

/-- Embeds `func NewDomainMatcherBuilder() *DomainMatcherBuilder`. -/
def NewDomainMatcherBuilder : DomainMatcherBuilder := ⟨[], []⟩

/-- Embeds `func (b *DomainMatcherBuilder) From(file string) *DomainMatcherBuilder`. -/
def DomainMatcherBuilder.From (b : DomainMatcherBuilder) (file : Str) :
    DomainMatcherBuilder :=
  { b with file := file }

/-- Embeds `func (b *DomainMatcherBuilder) AddConditions(conditions ...string)`. -/
def DomainMatcherBuilder.AddConditions (b : DomainMatcherBuilder) (conditions : List Str) :
    DomainMatcherBuilder :=
  { b with conditions := b.conditions ++ conditions }

/-- The local `validConditionPrefix` of `buildConditions`. -/
def validConditionPrefix : List Str :=
  ["keyword".toList, "regexp".toList, "full".toList, "domain".toList, "geosite".toList]

/-- The inner loop `for _, prefix := range validConditionPrefix` of
`buildConditions` for one rule string: the condition appended at the first
prefix with `strings.HasPrefix(cond, prefix+":")`, or `none` when the loop ends
with `valid == false`. -/
def parseCondition (cond : Str) : List Str → Option Condition
  | [] => none
  | p :: rest =>
    if HasPrefix cond (p ++ [':']) then some (newCondition p (cond.drop (p.length + 1)))
    else parseCondition cond rest

/-- The outer loop `for _, cond := range b.conditions` of `buildConditions`,
with the slice `conditions` accumulated so far. -/
def buildConditionsLoop : List Str → List Condition → Except Err (List Condition)
  | [], acc => .ok acc
  | cond :: rest, acc =>
    match parseCondition cond validConditionPrefix with
    | some c => buildConditionsLoop rest (acc ++ [c])
    | none => .error (.invalidCondition cond)

/-- Embeds `func (b *DomainMatcherBuilder) buildConditions() ([]Condition, error)`. -/
def DomainMatcherBuilder.buildConditions (b : DomainMatcherBuilder) :
    Except Err (List Condition) :=
  buildConditionsLoop b.conditions []

/-- Embeds `func extractAttr(payload string) (string, string, error)`. -/
def extractAttr (payload : Str) : Except Err (Str × Str) :=
  let idx := Index payload "@".toList
  if idx = (payload.length : Int) - 1 then .error (.invalidGeosite payload)
  else if idx = -1 then .ok (payload, [])
  else .ok (payload.take idx.toNat, payload.drop (idx.toNat + 1))

/-- The loop `for _, attr := range domain.GetAttribute()` of `extractDomainList`:
the final value of `matched`. -/
def attrMatched (expectedAttr : Str) : List Domain_Attribute → Bool
  | [] => false
  | attr :: rest => if expectedAttr = attr.Key then true else attrMatched expectedAttr rest

/-- The loop `for _, domain := range entry.GetDomain()` of `extractDomainList`,
with the slice `domains` accumulated so far. -/
def filterDomains (expectedAttr : Str) : List Domain → List Domain → List Domain
  | [], acc => acc
  | domain :: rest, acc =>
    if attrMatched expectedAttr domain.Attribute then
      filterDomains expectedAttr rest (acc ++ [domain])
    else filterDomains expectedAttr rest acc

/-- The loop `for _, entry := range geoSiteList.GetEntry()` of
`extractDomainList`, and the `return nil, errors.Errorf(...)` after it. -/
def extractDomainListLoop (payload countryCode expectedAttr : Str) :
    List GeoSite → Except Err (List Domain)
  | [] => .error (.notFound payload)
  | entry :: rest =>
    if countryCode = entry.CountryCode then
      if expectedAttr ≠ [] then .ok (filterDomains expectedAttr entry.Domain [])
      else .ok entry.Domain
    else extractDomainListLoop payload countryCode expectedAttr rest

/-- Embeds `func extractDomainList(payload string, geoSiteList *v2ray.GeoSiteList)
([]*v2ray.Domain, error)`. -/
def extractDomainList (env : Env) (payload : Str) (geoSiteList : GeoSiteList) :
    Except Err (List Domain) :=
  match extractAttr payload with
  | .error err => .error err
  | .ok (countryCode, expectedAttr) =>
    let countryCode := env.ToUpper countryCode
    extractDomainListLoop payload countryCode expectedAttr geoSiteList.Entry

/-- The map `mapToV2RayDomainType` of `Build`, read at `key`; a key that is not
in a Go map reads as the zero value, which is `Domain_Plain`. -/
def mapToV2RayDomainType (key : Str) : Domain_Type :=
  if key = "keyword".toList then Domain_Plain
  else if key = "regexp".toList then Domain_Regex
  else if key = "full".toList then Domain_Full
  else if key = "domain".toList then Domain_Domain
  else 0

/-- The loop `for _, domain := range domains` of `Build` for the condition of
index `i`, with `matchers` and `matcherCondIdx` as accumulated so far.  The
index is appended before the `switch`, which has no `default` case. -/
def buildMatchers (env : Env) (i : Int) :
    List Domain → List Matcher → List Int → Except Err (List Matcher × List Int)
  | [], matchers, matcherCondIdx => .ok (matchers, matcherCondIdx)
  | domain :: rest, matchers, matcherCondIdx =>
    let matcherCondIdx := matcherCondIdx ++ [i]
    if domain.Type_ = Domain_Plain then
      buildMatchers env i rest (matchers ++ [NewKeywordMatcher domain.Value]) matcherCondIdx
    else if domain.Type_ = Domain_Full then
      buildMatchers env i rest (matchers ++ [NewFullMatcher domain.Value]) matcherCondIdx
    else if domain.Type_ = Domain_Domain then
      buildMatchers env i rest (matchers ++ [NewSubDomainMatcher domain.Value]) matcherCondIdx
    else if domain.Type_ = Domain_Regex then
      match NewRegexMatcher env domain.Value with
      | .error err => .error err
      | .ok matcher => buildMatchers env i rest (matchers ++ [matcher]) matcherCondIdx
    else buildMatchers env i rest matchers matcherCondIdx

/-- The first `switch cond.prefix` of the loop body of `Build`: the value of
`domains` after it. -/
def expandCondition (env : Env) (geoList : GeoSiteList) (cond : Condition) :
    Except Err (List Domain) :=
  if cond.pfx = "geosite".toList then
    match extractDomainList env cond.payload geoList with
    | .error err => .error err
    | .ok extracted => .ok ([] ++ extracted)
  else .ok ([] ++ [⟨mapToV2RayDomainType cond.pfx, cond.payload, []⟩])

/-- The loop `for i, cond := range conditions` of `Build`, from index `i` on. -/
def buildLoop (env : Env) (geoList : GeoSiteList) :
    List Condition → Int → List Matcher → List Int → Except Err (List Matcher × List Int)
  | [], _, matchers, matcherCondIdx => .ok (matchers, matcherCondIdx)
  | cond :: rest, i, matchers, matcherCondIdx =>
    match expandCondition env geoList cond with
    | .error err => .error err
    | .ok domains =>
      match buildMatchers env i domains matchers matcherCondIdx with
      | .error err => .error err
      | .ok (matchers, matcherCondIdx) =>
        buildLoop env geoList rest (i + 1) matchers matcherCondIdx

/-- Embeds `func (b *DomainMatcherBuilder) Build() (*DomainMatcher, error)`. -/
def DomainMatcherBuilder.Build (env : Env) (b : DomainMatcherBuilder) :
    Except Err DomainMatcher :=
  match b.buildConditions with
  | .error err => .error err
  | .ok conditions =>
    match env.ReadFile b.file with
    | none => .error (.readFile b.file)
    | some data =>
      match env.Unmarshal data with
      | none => .error .unmarshal
      | some geoList =>
        match buildLoop env geoList conditions 0 [] [] with
        | .error err => .error err
        | .ok (matchers, matcherCondIdx) =>
          .ok (DomainMatcher.mk matchers matcherCondIdx conditions)

/-! ## Reference semantics of a query (specification §4.2)

These definitions follow the words of the specification, not the code: the
query is normalized, the matcher records are walked in stored order, and every
record whose predicate fires contributes one entry. -/

/-- Specification, step 1: strip one trailing dot. -/
def specNormalize (d : Str) : Str :=
  if d.getLast? = some '.' then d.dropLast else d

/-- Specification, step 2: the predicate of a matcher; it fires when the matcher
returns a non-empty result, and then yields the sub-conditions it produced. -/
def specHit (matcher : Matcher) (d : Str) : Option (List Condition) :=
  match matcher.Match d with
  | some (c :: cs) => some (c :: cs)
  | _ => none

/-- Specification, step 4: the entry for a hit.  A template of group kind
(prefix `geosite`) is copied with the sub-conditions attached as children; any
other template is used unchanged. -/
def specEntry (template : Condition) (sub : List Condition) : Condition :=
  if template.pfx = "geosite".toList then
    Condition.mk template.pfx template.payload (template.children ++ sub)
  else template

/-- The matcher records: each matcher paired with its stored index. -/
def specRecords (m : DomainMatcher) : List (Matcher × Int) :=
  m.matchers.zip m.matcherCondIdx

/-- Specification, steps 2 to 5, for one record: nothing when the matcher does
not fire, otherwise the owning index with the entry built from its template. -/
def specEmit (conditions : List Condition) (d : Str) (r : Matcher × Int) :
    Option (Int × Condition) :=
  (specHit r.1 d).bind fun sub =>
    (condAt conditions r.2).map fun template => (r.2, specEntry template sub)

/-- Specification, steps 1 to 5: the entries of a query, each with the index of
the rule it belongs to, in matcher-iteration order. -/
def specMatchIdx (m : DomainMatcher) (d : Str) : List (Int × Condition) :=
  (specRecords m).filterMap (specEmit m.conditions (specNormalize d))

/-- Specification, step 6: the sequence returned by a query. -/
def specMatch (m : DomainMatcher) (d : Str) : List Condition :=
  (specMatchIdx m d).map Prod.snd

/-! ## Reference expansion of a rule (specification §4.3, step 4) -/

/-- The matcher variant for an expanded domain record; `none` for a regular
expression that does not compile and for a type number that names no variant. -/
def specMatcherOf (env : Env) (domain : Domain) : Option Matcher :=
  if domain.Type_ = Domain_Plain then some (Matcher.ofKeyword domain.Value)
  else if domain.Type_ = Domain_Full then some (Matcher.ofFull domain.Value)
  else if domain.Type_ = Domain_Domain then some (Matcher.ofSubDomain domain.Value)
  else if domain.Type_ = Domain_Regex then
    (env.Compile domain.Value).map fun r => Matcher.ofRegex ⟨domain.Value, r⟩
  else none

/-- The matchers of a list of expanded rules: rule after rule, and within a rule
record after record. -/
def specMatchers (env : Env) (recs : List (List Domain)) : List Matcher :=
  (recs.map fun domains => domains.filterMap (specMatcherOf env)).flatten

/-- The owning indices of a list of expanded rules, the first rule having index
`i`: one copy of the rule's index for each of its records. -/
def specOwners : Int → List (List Domain) → List Int
  | _, [] => []
  | i, domains :: rest => List.replicate domains.length i ++ specOwners (i + 1) rest

/-! ## Sample data -/

/-- A small dataset with two groups. -/
def sampleGeo : GeoSiteList :=
  ⟨[⟨"CN".toList, [⟨Domain_Domain, "baidu.com".toList, []⟩]⟩,
    ⟨"GOOGLE".toList,
      [⟨Domain_Domain, "google.com".toList, []⟩,
       ⟨Domain_Full, "www.google.com".toList, []⟩,
       ⟨Domain_Plain, "goog".toList, [⟨"ads".toList⟩]⟩]⟩]⟩

/-- An environment whose file always decodes to `sampleGeo`, whose upper-casing
is the ASCII one and in which no regular expression compiles. -/
def sampleEnv : Env where
  ToUpper := fun s => s.map Char.toUpper
  Compile := fun _ => none
  ReadFile := fun _ => some []
  Unmarshal := fun _ => some sampleGeo

/-- The matcher built from the rules `geosite:google` and `full:x` over
`sampleGeo`. -/
def sampleMatcher : DomainMatcher :=
  DomainMatcher.mk
    [Matcher.ofSubDomain "google.com".toList, Matcher.ofFull "www.google.com".toList,
      Matcher.ofKeyword "goog".toList, Matcher.ofFull "x".toList]
    [0, 0, 0, 1]
    [newCondition "geosite".toList "google".toList, newCondition "full".toList "x".toList]

/-! ## Serialization -/

mutual
/-- Embeds `func (c Condition) String() string`. -/
def Condition.String : Condition → Str
  | .mk pfx payload children =>
    Condition.stringLoop children (pfx ++ ":".toList ++ payload)
/-- The loop `for _, cond := range c.children { s += "/" + cond.String() }` of
`String`: the remaining children and the value of `s` so far. -/
def Condition.stringLoop : List Condition → Str → Str
  | [], s => s
  | cond :: rest, s => Condition.stringLoop rest (s ++ ("/".toList ++ cond.String))
end

/-! ## Reference semantics of the primitive rules (specification §4.1) -/

/-- Specification: the predicate of a primitive rule on a normalized domain.
A keyword rule holds when its payload is a substring, a full rule when it is
equal, a domain rule when it is a suffix at a label boundary. -/
def specRuleHolds (c : Condition) (d : Str) : Bool :=
  (decide (c.pfx = "keyword".toList) && decide (c.payload <:+: d)) ||
    (decide (c.pfx = "full".toList) && decide (c.payload = d)) ||
    (decide (c.pfx = "domain".toList) &&
      (decide (d = c.payload) || decide (('.' :: c.payload) <:+ d)))

/-- Specification: the matcher variant of a primitive rule, with the payload of
the rule as its stored value. -/
def specRuleMatcher (c : Condition) : Matcher :=
  if c.pfx = "keyword".toList then Matcher.ofKeyword c.payload
  else if c.pfx = "full".toList then Matcher.ofFull c.payload
  else Matcher.ofSubDomain c.payload

/-- The parsed form of a rule of kind keyword, full or domain. -/
def IsPrimitive (c : Condition) : Prop :=
  ∃ k payload, c = Condition.mk k payload [] ∧
    (k = "keyword".toList ∨ k = "full".toList ∨ k = "domain".toList)

/-! ## A dataset with a type number that names no variant -/

/-- A dataset whose group `X` holds a record of type number `4` followed by a
record of type `Domain`. -/
def openEnumGeo : GeoSiteList :=
  ⟨[⟨"X".toList, [⟨4, "foo".toList, []⟩, ⟨Domain_Domain, "a.com".toList, []⟩]⟩]⟩

/-- An environment whose file decodes to `openEnumGeo`. -/
def openEnumEnv : Env where
  ToUpper := fun s => s.map Char.toUpper
  Compile := fun _ => none
  ReadFile := fun _ => some []
  Unmarshal := fun _ => some openEnumGeo

/-! ## A memory model of `Match`

`DomainMatcher.Match` above is a function of values.  To state what a call
leaves untouched, the same code is embedded once more over an explicit memory
in which slices of conditions share backing arrays, the way Go slices do.

* The memory `Mem` is the list of the backing arrays allocated so far; the
  address of an array is its position, and an array has as many cells as its
  capacity.
* A slice `CondSlice` is the address of its backing array (`none` for a nil
  slice), a length and a capacity.  The code builds slices with `append` only,
  so a slice starts at the first cell of its array.
* `goAppend` is the built-in `append`: it writes in place when the capacity
  suffices and otherwise moves the elements to a new array.  How much spare
  capacity a new array gets is the choice of the Go runtime, the parameter
  `grow` (old capacity and needed length to spare capacity).
* The slices `matchers` and `matcherCondIdx` are kept as values: no statement of
  `Match` assigns to them, appends to them or writes one of their elements. -/

/-- A Go slice of conditions: backing array, length, capacity. -/
structure CondSlice where
  arr : Option Nat
  len : Nat
  cap : Nat
  deriving DecidableEq

/-- A `Condition` struct as it lies in memory: two strings and a slice header. -/
structure CondCell where
  pfx : Str
  payload : Str
  children : CondSlice
  deriving DecidableEq

/-- The memory: the backing arrays, by address. -/
abbrev Mem := List (List CondCell)

/-- The nil slice. -/
def nilSlice : CondSlice := ⟨none, 0, 0⟩

/-- The zero value of `Condition`, which fills the spare cells of a new array. -/
def zeroCell : CondCell := ⟨[], [], nilSlice⟩

/-- The backing array of a slice. -/
def Mem.array (h : Mem) (s : CondSlice) : List CondCell :=
  match s.arr with
  | none => []
  | some a => (h[a]?).getD []

/-- The elements `s[0], ..., s[len(s)-1]` of a slice. -/
def Mem.cells (h : Mem) (s : CondSlice) : List CondCell :=
  (h.array s).take s.len

/-- The built-in `append(s, xs...)`: the returned slice and the memory after. -/
def goAppend (grow : Nat → Nat → Nat) (h : Mem) (s : CondSlice) (xs : List CondCell) :
    CondSlice × Mem :=
  if s.len + xs.length ≤ s.cap then
    match s.arr with
    | none => (s, h)
    | some a =>
      (⟨some a, s.len + xs.length, s.cap⟩,
        h.set a ((h.array s).take s.len ++ xs ++ (h.array s).drop (s.len + xs.length)))
  else
    (⟨some h.length, s.len + xs.length, s.len + xs.length + grow s.cap (s.len + xs.length)⟩,
      h ++ [h.cells s ++ xs ++
        List.replicate (grow s.cap (s.len + xs.length)) zeroCell])

/-- The cell of a condition without children, as `newCondition` makes it. -/
def leafCell (c : Condition) : CondCell := ⟨c.pfx, c.payload, nilSlice⟩

/-- The body shared by the four `Match` methods of the primitive matchers:
`var condition []Condition`, then `condition = append(condition, newCondition(...))`
when the predicate holds, then `return condition`.  `r` is the value the method
returns (no condition, or one without children). -/
def allocResult (grow : Nat → Nat → Nat) (h : Mem) (r : List Condition) : CondSlice × Mem :=
  goAppend grow h nilSlice (r.map leafCell)

mutual
/-- The interface `Matcher` over the memory model. -/
inductive MatcherM where
  | ofDomain (m : DomainMatcherM)
  | ofFull (m : Str)
  | ofSubDomain (m : Str)
  | ofRegex (m : Regexp)
  | ofKeyword (m : Str)
/-- The struct `DomainMatcher` over the memory model: `conditions` is a slice
into the memory. -/
inductive DomainMatcherM where
  | mk (matchers : List MatcherM) (matcherCondIdx : List Int) (conditions : CondSlice)
end

/-- Embeds `m.conditions[j]` over the memory model, for a Go `int` index `j`;
`none` is the panic. -/
def cellAt (h : Mem) (conditions : CondSlice) (j : Int) : Option CondCell :=
  if j < 0 then none else (h.cells conditions)[j.toNat]?

mutual
/-- Dynamic dispatch of `matcher.Match(domain)` over the memory model. -/
def MatcherM.Match (grow : Nat → Nat → Nat) : MatcherM → Str → Mem → Option (CondSlice × Mem)
  | .ofDomain m, domain, h => m.Match grow domain h
  | .ofFull m, domain, h => some (allocResult grow h (FullMatcher.Match m domain))
  | .ofSubDomain m, domain, h => some (allocResult grow h (SubDomainMatcher.Match m domain))
  | .ofRegex m, domain, h => some (allocResult grow h (RegexMatcher.Match m domain))
  | .ofKeyword m, domain, h => some (allocResult grow h (KeywordMatcher.Match m domain))
/-- Embeds `func (m *DomainMatcher) Match(domain string) []Condition` over the
memory model: the returned slice and the memory after the call. -/
def DomainMatcherM.Match (grow : Nat → Nat → Nat) :
    DomainMatcherM → Str → Mem → Option (CondSlice × Mem)
  | .mk matchers matcherCondIdx conditions, domain, h =>
    DomainMatcherM.matchLoop grow matchers matcherCondIdx conditions (stripDot domain) 0
      nilSlice h
/-- The loop of `DomainMatcher.Match` over the memory model.  `condition` is a
copy of the template struct; `addChildren` assigns `append(c.children, cond...)`
to the field `children` of that copy. -/
def DomainMatcherM.matchLoop (grow : Nat → Nat → Nat) :
    List MatcherM → List Int → CondSlice → Str → Nat → CondSlice → Mem →
      Option (CondSlice × Mem)
  | [], _, _, _, _, acc, h => some (acc, h)
  | matcher :: rest, matcherCondIdx, conditions, domain, i, acc, h =>
    match matcher.Match grow domain h with
    | none => none
    | some (cond, h1) =>
      if cond.arr.isSome then
        match matcherCondIdx[i]? with
        | none => none
        | some j =>
          match cellAt h1 conditions j with
          | none => none
          | some condition =>
            let r :=
              if condition.pfx = "geosite".toList then
                let a := goAppend grow h1 condition.children (h1.cells cond)
                (({ condition with children := a.1 } : CondCell), a.2)
              else (condition, h1)
            let b := goAppend grow r.2 acc [r.1]
            DomainMatcherM.matchLoop grow rest matcherCondIdx conditions domain (i + 1)
              b.1 b.2
      else
        DomainMatcherM.matchLoop grow rest matcherCondIdx conditions domain (i + 1) acc h1
end

/-- A run of queries one after the other, each on the memory the one before
left; the results are dropped. -/
def runQueries (grow : Nat → Nat → Nat) (m : DomainMatcherM) : List Str → Mem → Option Mem
  | [], h => some h
  | q :: qs, h =>
    match m.Match grow q h with
    | none => none
    | some r => runQueries grow m qs r.2

/-- The condition a cell stands for, read from the memory to the depth `n` below
the cell. -/
def Mem.read : Nat → Mem → CondCell → Condition
  | 0, _, c => Condition.mk c.pfx c.payload []
  | n + 1, h, c => Condition.mk c.pfx c.payload ((h.cells c.children).map (Mem.read n h))

/-- The primitive matcher a matcher of the memory model stands for; a nested
`DomainMatcher` stands for none. -/
def leafPure : MatcherM → Option Matcher
  | .ofDomain _ => none
  | .ofFull m => some (Matcher.ofFull m)
  | .ofSubDomain m => some (Matcher.ofSubDomain m)
  | .ofRegex m => some (Matcher.ofRegex m)
  | .ofKeyword m => some (Matcher.ofKeyword m)

/-- A slice whose elements are the same in every memory that extends `h`: it
has no element, or its backing array is allocated in `h`. -/
def Mem.Holds (h : Mem) (s : CondSlice) : Prop :=
  s.len = 0 ∨ ∃ a, s.arr = some a ∧ a < h.length

/-- The state of the slice `conditions` that `Match` accumulates, in a call
that started on the memory `h0` and has reached the memory `h`: its backing
array was allocated during the call, none of its entries has that array for
its children, and the children of its entries have no children. -/
def AccOk (h0 h : Mem) (acc : CondSlice) : Prop :=
  (h.cells acc).length = acc.len ∧
    (acc.arr = none → acc.cap = 0) ∧
    (∀ A, acc.arr = some A → h0.length ≤ A ∧ A < h.length) ∧
    ∀ e ∈ h.cells acc,
      (e.children.len = 0 ∨
        ∃ B, e.children.arr = some B ∧ B < h.length ∧ acc.arr ≠ some B) ∧
      ∀ c ∈ h.cells e.children, c.children.len = 0

/-- The invariant of the loop of `Match` over the memory model: the memory `h0`
of the start of the call is a prefix of the current memory, and the
accumulated slice reads as the accumulated value `accP`. -/
def LoopInv (h0 h : Mem) (acc : CondSlice) (accP : List Condition) : Prop :=
  h0 <+: h ∧ AccOk h0 h acc ∧ (h.cells acc).map (Mem.read 1 h) = accP

/-! ## Sample memory -/

/-- A growth policy that doubles the needed length. -/
def sampleGrow : Nat → Nat → Nat := fun _ n => n

/-- A memory holding one array: the two templates of `sampleMatcher`. -/
def sampleMem : Mem :=
  [[⟨"geosite".toList, "google".toList, nilSlice⟩, ⟨"full".toList, "x".toList, nilSlice⟩]]

/-- The slice of the templates in `sampleMem`. -/
def sampleConds : CondSlice := ⟨some 0, 2, 2⟩

/-- The matchers of `sampleMatcher` over the memory model. -/
def sampleMatchersM : List MatcherM :=
  [MatcherM.ofSubDomain "google.com".toList, MatcherM.ofFull "www.google.com".toList,
    MatcherM.ofKeyword "goog".toList, MatcherM.ofFull "x".toList]

/-- A memory whose only template, `geosite:g`, has an empty `children` slice of
capacity one; no function of the package makes such a template. -/
def spareMem : Mem :=
  [[⟨"geosite".toList, "g".toList, ⟨some 1, 0, 1⟩⟩], [zeroCell]]

/-! ## Theorems -/

theorem getElem?_pred_length_append (pre S : Str) (h : pre ≠ []) :
    (pre ++ S)[pre.length - 1]? = pre.getLast? := by
  have hl : 0 < pre.length := List.length_pos.mpr h
  rw [List.getElem?_append_left (by omega), List.getLast?_eq_getElem?]

theorem subDomain_fires_iff (S d : Str) :
    SubDomainMatcher.Match S d ≠ [] ↔
      ∃ pre, d = pre ++ S ∧ (pre = [] ∨ pre.getLast? = some '.') := by
  unfold SubDomainMatcher.Match
  simp only []
  by_cases hlt : (d.length : Int) - (S.length : Int) < 0
  · simp only [hlt, if_true, ne_eq, not_true_eq_false, false_iff]
    rintro ⟨pre, rfl, -⟩
    simp at hlt
    omega
  · simp only [hlt, if_false]
    have hn : ((d.length : Int) - (S.length : Int)).toNat = d.length - S.length := by omega
    rw [hn]
    constructor
    · intro h
      split at h
      · rename_i hc
        obtain ⟨hdrop, hpre⟩ := hc
        refine ⟨d.take (d.length - S.length), ?_, ?_⟩
        · conv_lhs => rw [← List.take_append_drop (d.length - S.length) d]
          rw [hdrop]
        · rcases hpre with hp | hp
          · exact Or.inl hp
          · by_cases hz : d.take (d.length - S.length) = []
            · exact Or.inl hz
            · right
              have hpos : 0 < d.length - S.length := by
                rcases Nat.eq_zero_or_pos (d.length - S.length) with h0 | h0
                · rw [h0] at hz; simp at hz
                · exact h0
              rw [List.getLast?_eq_getElem?, List.length_take,
                Nat.min_eq_left (Nat.sub_le _ _), List.getElem?_take_of_lt (by omega)]
              exact hp
      · exact absurd rfl h
    · rintro ⟨pre, rfl, hp⟩
      have hl : (pre ++ S).length - S.length = pre.length := by simp
      rw [hl]
      simp only [List.drop_left, List.take_left, true_and]
      rcases hp with hp | hp
      · simp [hp]
      · have hne : pre ≠ [] := by rintro rfl; simp at hp
        rw [getElem?_pred_length_append pre S hne, if_pos (Or.inr hp)]
        simp

theorem labelBoundary_iff_index (S d : Str) :
    (∃ pre, d = pre ++ S ∧ (pre = [] ∨ pre.getLast? = some '.')) ↔
      (S <:+ d ∧ (d = S ∨
        (S.length < d.length ∧ d[d.length - S.length - 1]? = some '.'))) := by
  constructor
  · rintro ⟨pre, rfl, hp⟩
    refine ⟨List.suffix_append pre S, ?_⟩
    rcases hp with rfl | hp
    · exact Or.inl rfl
    · have hne : pre ≠ [] := by rintro rfl; simp at hp
      have hl : 0 < pre.length := List.length_pos.mpr hne
      right
      refine ⟨by simp; omega, ?_⟩
      have : (pre ++ S).length - S.length - 1 = pre.length - 1 := by simp
      rw [this, getElem?_pred_length_append pre S hne]
      exact hp
  · rintro ⟨⟨pre, rfl⟩, h⟩
    refine ⟨pre, rfl, ?_⟩
    rcases h with h | ⟨hlen, h⟩
    · left
      have := congrArg List.length h
      simp at this
      exact this
    · right
      have hne : pre ≠ [] := by rintro rfl; simp at hlen
      have : (pre ++ S).length - S.length - 1 = pre.length - 1 := by simp
      rw [this, getElem?_pred_length_append pre S hne] at h
      exact h

theorem labelBoundary_iff_dotSuffix (S d : Str) :
    (∃ pre, d = pre ++ S ∧ (pre = [] ∨ pre.getLast? = some '.')) ↔
      (d = S ∨ ('.' :: S) <:+ d) := by
  constructor
  · rintro ⟨pre, rfl, hp⟩
    rcases hp with rfl | hp
    · exact Or.inl rfl
    · right
      obtain ⟨t, rfl⟩ : ∃ t, pre = t ++ ['.'] := by
        rcases List.eq_nil_or_concat pre with rfl | ⟨t, c, rfl⟩
        · simp at hp
        · simp at hp
          exact ⟨t, by rw [hp, List.concat_eq_append]⟩
      exact ⟨t, by simp⟩
  · rintro (rfl | ⟨t, rfl⟩)
    · exact ⟨[], rfl, Or.inl rfl⟩
    · exact ⟨t ++ ['.'], by simp, Or.inr (by simp)⟩

theorem SubDomainMatcher.match_eq_of_nonempty (S d : Str)
    (h : SubDomainMatcher.Match S d ≠ []) :
    SubDomainMatcher.Match S d = [newCondition "domain".toList S] := by
  unfold SubDomainMatcher.Match at h ⊢
  simp only [] at h ⊢
  split at h
  · exact absurd rfl h
  · rename_i h1
    split at h
    · rename_i h2
      rw [if_neg h1, if_pos h2]
    · exact absurd rfl h

/-- C1: `SubDomainMatcher(S).Match(d)` is non-empty iff `d` ends with `S` and either
`S` is the whole of `d` or the byte of `d` just before that suffix is `.`;
equivalently, iff `d == S` or `d` ends with `"." + S`.  The result is empty or
the single condition `domain:S`. -/
theorem SubDomainMatcher.match_nonempty_iff (S d : Str) :
    (SubDomainMatcher.Match S d ≠ [] ↔
      (S <:+ d ∧ (d = S ∨
        (S.length < d.length ∧ d[d.length - S.length - 1]? = some '.')))) ∧
    (SubDomainMatcher.Match S d ≠ [] ↔ (d = S ∨ ('.' :: S) <:+ d)) ∧
    (SubDomainMatcher.Match S d = [] ∨
      SubDomainMatcher.Match S d = [newCondition "domain".toList S]) := by
  refine ⟨(subDomain_fires_iff S d).trans (labelBoundary_iff_index S d),
    (subDomain_fires_iff S d).trans (labelBoundary_iff_dotSuffix S d), ?_⟩
  by_cases h : SubDomainMatcher.Match S d = []
  · exact Or.inl h
  · exact Or.inr (SubDomainMatcher.match_eq_of_nonempty S d h)

/-! ### The trailing dot -/

theorem stripDot_eq_specNormalize (d : Str) : stripDot d = specNormalize d := by
  unfold stripDot specNormalize
  simp only []
  rcases List.eq_nil_or_concat d with rfl | ⟨t, c, rfl⟩
  · simp
  · have h1 : (t ++ [c])[(t ++ [c]).length - 1]? = some c := by simp
    have h2 : List.take ((t ++ [c]).length - 1) (t ++ [c]) = t := by simp
    have h3 : 0 < (t ++ [c]).length := by simp
    rw [List.concat_eq_append, h1, h2, List.getLast?_append, List.dropLast_concat]
    simp [h3]

theorem specNormalize_append_dot (d : Str) : specNormalize (d ++ ['.']) = d := by
  unfold specNormalize
  simp

theorem specNormalize_of_not_dot (d : Str) (h : d.getLast? ≠ some '.') :
    specNormalize d = d := by
  unfold specNormalize
  rw [if_neg h]

/-! ### One `domain:` rule -/

theorem parseCondition_domain (S : Str) :
    parseCondition ("domain:".toList ++ S) validConditionPrefix =
      some (newCondition "domain".toList S) := by
  simp [parseCondition, validConditionPrefix, HasPrefix, List.isPrefixOf]

theorem build_single_domain (env : Env) (b : DomainMatcherBuilder) (S : Str)
    (m : DomainMatcher) (hb : b.conditions = ["domain:".toList ++ S])
    (h : b.Build env = .ok m) :
    m = DomainMatcher.mk [Matcher.ofSubDomain S] [0] [newCondition "domain".toList S] := by
  unfold DomainMatcherBuilder.Build DomainMatcherBuilder.buildConditions at h
  rw [hb] at h
  simp only [buildConditionsLoop, parseCondition_domain] at h
  cases hr : env.ReadFile b.file with
  | none => simp [hr] at h
  | some data =>
    cases hu : env.Unmarshal data with
    | none => simp [hr, hu] at h
    | some geo =>
      simp [hr, hu, buildLoop, expandCondition, newCondition, Condition.pfx,
        Condition.payload, mapToV2RayDomainType, buildMatchers, Domain_Plain,
        Domain_Full, Domain_Domain, Domain_Regex, NewSubDomainMatcher] at h
      exact h.symm

theorem match_single_subDomain (S X : Str) :
    (DomainMatcher.mk [Matcher.ofSubDomain S] [0] [newCondition "domain".toList S]).Match X =
      some (SubDomainMatcher.Match S (specNormalize X)) := by
  rw [DomainMatcher.Match, stripDot_eq_specNormalize, DomainMatcher.matchLoop, Matcher.Match]
  simp only []
  have hsub := (SubDomainMatcher.match_eq_of_nonempty S (specNormalize X))
  by_cases he : SubDomainMatcher.Match S (specNormalize X) = []
  · simp [he, DomainMatcher.matchLoop]
  · rw [hsub he]
    simp [DomainMatcher.matchLoop, condAt, newCondition, Condition.pfx]

theorem cons_i_ne_append_dot : ∀ S : Str, 'i' :: S ≠ S ++ ['.']
  | [] => by decide
  | c :: t => by
    intro h
    simp only [List.cons_append, List.cons.injEq] at h
    obtain ⟨rfl, h⟩ := h
    exact cons_i_ne_append_dot t h

theorem subDomain_not_i (S : Str) :
    SubDomainMatcher.Match S (specNormalize ('i' :: S)) = [] := by
  by_contra hne
  obtain ⟨pre, hpre, hb⟩ := (subDomain_fires_iff S _).mp hne
  by_cases hdot : ('i' :: S).getLast? = some '.'
  · have hn : specNormalize ('i' :: S) = ('i' :: S).dropLast := by
      unfold specNormalize; rw [if_pos hdot]
    rw [hn] at hpre
    have hlen := congrArg List.length hpre
    simp only [List.length_dropLast, List.length_cons, List.length_append,
      Nat.add_sub_cancel] at hlen
    have hnil : pre = [] := List.eq_nil_of_length_eq_zero (by omega)
    subst hnil
    have hlast : ('i' :: S) = ('i' :: S).dropLast ++ ['.'] := by
      have := List.dropLast_append_getLast? '.' hdot
      exact this.symm
    rw [hpre] at hlast
    exact cons_i_ne_append_dot S (by simpa using hlast)
  · rw [specNormalize_of_not_dot _ hdot] at hpre
    have hlen := congrArg List.length hpre
    simp at hlen
    match pre, hlen with
    | [x], _ =>
      simp at hpre
      subst hpre
      simp at hb
    | [], hl => simp at hl
    | _ :: _ :: _, hl => simp at hl; omega

/-- C2: a `DomainMatcher` built from the single rule `"domain:" + S` returns an
empty result for the query `"i" + S`, whatever `S` is (also when `S` ends with a
dot, so that the query is dot-normalized first). -/
theorem build_domain_rule_rejects_i (env : Env) (b : DomainMatcherBuilder) (S : Str)
    (m : DomainMatcher) (hb : b.conditions = ["domain:".toList ++ S])
    (h : b.Build env = .ok m) :
    m.Match ('i' :: S) = some [] := by
  rw [build_single_domain env b S m hb h, match_single_subDomain, subDomain_not_i]

/-- Witness of C2: the rule `domain:baidu.com` over the sample dataset and the
query `ibaidu.com`. -/
theorem build_domain_rule_rejects_i_witness :
    (DomainMatcherBuilder.mk [] ["domain:baidu.com".toList]).conditions =
        ["domain:".toList ++ "baidu.com".toList] ∧
      (DomainMatcherBuilder.mk [] ["domain:baidu.com".toList]).Build sampleEnv =
        .ok (DomainMatcher.mk [Matcher.ofSubDomain "baidu.com".toList] [0]
          [newCondition "domain".toList "baidu.com".toList]) ∧
      (DomainMatcher.mk [Matcher.ofSubDomain "baidu.com".toList] [0]
          [newCondition "domain".toList "baidu.com".toList]).Match "ibaidu.com".toList =
        some [] :=
  ⟨by decide, rfl,
    build_domain_rule_rejects_i sampleEnv ⟨[], ["domain:baidu.com".toList]⟩
      "baidu.com".toList _ (by decide) rfl⟩

/-- C3: for every `DomainMatcher` and every domain `d` that does not end with
`.`, `Match(d + ".")` returns the same sequence of conditions as `Match(d)`. -/
theorem DomainMatcher.match_trailing_dot (m : DomainMatcher) (d : Str)
    (h : d.getLast? ≠ some '.') :
    m.Match (d ++ ['.']) = m.Match d := by
  cases m with
  | mk matchers matcherCondIdx conditions =>
    rw [DomainMatcher.Match, DomainMatcher.Match, stripDot_eq_specNormalize,
      stripDot_eq_specNormalize, specNormalize_append_dot, specNormalize_of_not_dot d h]

/-- Witness of C3: the sample matcher on `www.google.com`. -/
theorem DomainMatcher.match_trailing_dot_witness :
    "www.google.com".toList.getLast? ≠ some '.' ∧
      sampleMatcher.Match ("www.google.com".toList ++ ['.']) =
        sampleMatcher.Match "www.google.com".toList :=
  ⟨by decide, DomainMatcher.match_trailing_dot sampleMatcher "www.google.com".toList
    (by decide)⟩

/-- C6, counterexample: for the rule `domain:baidu.com` the query `baidu.com.`
has a non-empty result, although it is not `baidu.com` and does not end with
`.baidu.com`. -/
theorem build_domain_rule_counterexample :
    (DomainMatcherBuilder.mk [] ["domain:baidu.com".toList]).Build sampleEnv =
        .ok (DomainMatcher.mk [Matcher.ofSubDomain "baidu.com".toList] [0]
          [newCondition "domain".toList "baidu.com".toList]) ∧
      (DomainMatcher.mk [Matcher.ofSubDomain "baidu.com".toList] [0]
          [newCondition "domain".toList "baidu.com".toList]).Match "baidu.com.".toList =
        some [newCondition "domain".toList "baidu.com".toList] ∧
      ¬ ("baidu.com.".toList = "baidu.com".toList ∨
          ('.' :: "baidu.com".toList) <:+ "baidu.com.".toList) :=
  ⟨rfl, rfl, by decide⟩

/-- C6, amended: for a `DomainMatcher` built from the single rule `"domain:" + S`
and every query `X`, `Match(X)` returns, and its result is non-empty iff `X' == S`
or `X'` ends with `"." + S`, where `X'` is `X` with one trailing dot removed. -/
theorem build_domain_rule_match_iff (env : Env) (b : DomainMatcherBuilder) (S X : Str)
    (m : DomainMatcher) (hb : b.conditions = ["domain:".toList ++ S])
    (h : b.Build env = .ok m) :
    ∃ r, m.Match X = some r ∧
      (r ≠ [] ↔ (specNormalize X = S ∨ ('.' :: S) <:+ specNormalize X)) := by
  rw [build_single_domain env b S m hb h, match_single_subDomain]
  exact ⟨_, rfl, (subDomain_fires_iff S _).trans (labelBoundary_iff_dotSuffix S _)⟩

/-- Witness of C6 as amended: the rule `domain:baidu.com` and the query
`www.baidu.com.`. -/
theorem build_domain_rule_match_iff_witness :
    (DomainMatcherBuilder.mk [] ["domain:baidu.com".toList]).conditions =
        ["domain:".toList ++ "baidu.com".toList] ∧
      (DomainMatcherBuilder.mk [] ["domain:baidu.com".toList]).Build sampleEnv =
        .ok (DomainMatcher.mk [Matcher.ofSubDomain "baidu.com".toList] [0]
          [newCondition "domain".toList "baidu.com".toList]) ∧
      ∃ r, (DomainMatcher.mk [Matcher.ofSubDomain "baidu.com".toList] [0]
          [newCondition "domain".toList "baidu.com".toList]).Match
            "www.baidu.com.".toList = some r ∧
        (r ≠ [] ↔ (specNormalize "www.baidu.com.".toList = "baidu.com".toList ∨
          ('.' :: "baidu.com".toList) <:+ specNormalize "www.baidu.com.".toList)) :=
  ⟨by decide, rfl,
    build_domain_rule_match_iff sampleEnv ⟨[], ["domain:baidu.com".toList]⟩
      "baidu.com".toList "www.baidu.com.".toList _ (by decide) rfl⟩

/-! ### The evaluation loop against the reference semantics -/

theorem condAt_isSome (conditions : List Condition) (j : Int)
    (h : 0 ≤ j ∧ j < conditions.length) :
    ∃ t, condAt conditions j = some t := by
  unfold condAt
  rw [if_neg (by omega)]
  have hlt : j.toNat < conditions.length := by omega
  exact ⟨conditions[j.toNat], List.getElem?_eq_getElem hlt⟩

theorem specEmit_of_miss (conditions : List Condition) (d : Str) (r : Matcher × Int)
    (h : specHit r.1 d = none) : specEmit conditions d r = none := by
  unfold specEmit
  rw [h]
  rfl

theorem specEmit_of_hit (conditions : List Condition) (d : Str) (r : Matcher × Int)
    (sub : List Condition) (t : Condition) (h : specHit r.1 d = some sub)
    (ht : condAt conditions r.2 = some t) :
    specEmit conditions d r = some (r.2, specEntry t sub) := by
  unfold specEmit
  rw [h, ht]
  rfl

theorem specEntry_eq_addChildren (t : Condition) (sub : List Condition) :
    (if t.pfx = "geosite".toList then t.addChildren sub else t) = specEntry t sub := by
  unfold specEntry Condition.addChildren
  rfl

theorem matchLoop_eq_spec (idx : List Int) (conds : List Condition) (d : Str)
    (hidx : ∀ j ∈ idx, 0 ≤ j ∧ j < conds.length) :
    ∀ (rest : List Matcher) (i : Nat) (acc : List Condition),
      rest.length ≤ idx.length - i →
      (∀ mt ∈ rest, (mt.Match d).isSome) →
      DomainMatcher.matchLoop rest idx conds d i acc =
        some (acc ++ ((rest.zip (idx.drop i)).filterMap (specEmit conds d)).map Prod.snd)
  | [], i, acc, _, _ => by simp [DomainMatcher.matchLoop]
  | mt :: rest, i, acc, hlen, hsub => by
    have hi : i < idx.length := by simp at hlen; omega
    have hrest : rest.length ≤ idx.length - (i + 1) := by simp at hlen; omega
    have hsub' : ∀ x ∈ rest, (x.Match d).isSome := fun x hx =>
      hsub x (List.mem_cons_of_mem _ hx)
    have hdrop : idx.drop i = idx[i] :: idx.drop (i + 1) := List.drop_eq_getElem_cons hi
    obtain ⟨t, ht⟩ := condAt_isSome conds idx[i] (hidx _ (List.getElem_mem hi))
    obtain ⟨cond, hcond⟩ := Option.isSome_iff_exists.mp (hsub mt (List.mem_cons_self _ _))
    rw [DomainMatcher.matchLoop, hcond, hdrop, List.zip_cons_cons, List.filterMap_cons]
    simp only []
    cases cond with
    | nil =>
      have hmiss : specHit mt d = none := by unfold specHit; rw [hcond]
      rw [specEmit_of_miss conds d (mt, idx[i]) hmiss]
      simp only [List.isEmpty_nil, not_true_eq_false, if_false]
      exact matchLoop_eq_spec idx conds d hidx rest (i + 1) acc hrest hsub'
    | cons c cs =>
      have hhit : specHit mt d = some (c :: cs) := by unfold specHit; rw [hcond]
      rw [specEmit_of_hit conds d (mt, idx[i]) (c :: cs) t hhit ht]
      simp only [List.isEmpty_cons, Bool.false_eq_true, not_false_eq_true, if_true,
        List.getElem?_eq_getElem hi, ht, specEntry_eq_addChildren]
      rw [matchLoop_eq_spec idx conds d hidx rest (i + 1) _ hrest hsub']
      simp

theorem countP_filterMap_specEmit (conds : List Condition) (d : Str) (j : Int) :
    ∀ L : List (Matcher × Int), (∀ r ∈ L, 0 ≤ r.2 ∧ r.2 < conds.length) →
      (L.filterMap (specEmit conds d)).countP (fun e => decide (e.1 = j)) =
        L.countP (fun r => (specHit r.1 d).isSome && decide (r.2 = j))
  | [], _ => rfl
  | r :: L, h => by
    have ih := countP_filterMap_specEmit conds d j L
      (fun x hx => h x (List.mem_cons_of_mem _ hx))
    obtain ⟨t, ht⟩ := condAt_isSome conds r.2 (h r (List.mem_cons_self _ _))
    cases hh : specHit r.1 d with
    | none =>
      rw [List.filterMap_cons, specEmit_of_miss conds d r hh, List.countP_cons, ih, hh]
      simp
    | some sub =>
      rw [List.filterMap_cons, specEmit_of_hit conds d r sub t hh ht, List.countP_cons,
        List.countP_cons, ih, hh]
      simp

theorem filterMap_specEmit_eq_nil (conds : List Condition) (d : Str) :
    ∀ L : List (Matcher × Int), (∀ r ∈ L, 0 ≤ r.2 ∧ r.2 < conds.length) →
      (L.filterMap (specEmit conds d) = [] ↔ ∀ r ∈ L, specHit r.1 d = none)
  | [], _ => by simp
  | r :: L, h => by
    have ih := filterMap_specEmit_eq_nil conds d L
      (fun x hx => h x (List.mem_cons_of_mem _ hx))
    obtain ⟨t, ht⟩ := condAt_isSome conds r.2 (h r (List.mem_cons_self _ _))
    cases hh : specHit r.1 d with
    | none =>
      rw [List.filterMap_cons, specEmit_of_miss conds d r hh, ih]
      simp [hh]
    | some sub =>
      rw [List.filterMap_cons, specEmit_of_hit conds d r sub t hh ht]
      simp [hh]

theorem snd_mem_of_mem_zip (ms : List Matcher) (idx : List Int) (r : Matcher × Int)
    (h : r ∈ ms.zip idx) : r.2 ∈ idx :=
  (List.of_mem_zip h).2

theorem domainMatcher_match_spec (m : DomainMatcher) (d : Str)
    (hlen : m.matchers.length ≤ m.matcherCondIdx.length)
    (hidx : ∀ j ∈ m.matcherCondIdx, 0 ≤ j ∧ j < m.conditions.length)
    (hsub : ∀ mt ∈ m.matchers, (mt.Match (specNormalize d)).isSome) :
    m.Match d = some (specMatch m d) := by
  cases m with
  | mk matchers matcherCondIdx conditions =>
    simp only [DomainMatcher.matchers, DomainMatcher.matcherCondIdx,
      DomainMatcher.conditions] at hlen hidx hsub
    rw [DomainMatcher.Match, stripDot_eq_specNormalize,
      matchLoop_eq_spec matcherCondIdx conditions _ hidx matchers 0 [] (by simpa using hlen)
        hsub]
    simp [specMatch, specMatchIdx, specRecords, DomainMatcher.matchers,
      DomainMatcher.matcherCondIdx, DomainMatcher.conditions]

/-! ### Parsing rule strings -/

theorem hasPrefix_colon_iff (cond p : Str) :
    HasPrefix cond (p ++ [':']) = true ↔ ∃ payload, cond = p ++ ':' :: payload := by
  unfold HasPrefix
  rw [List.isPrefixOf_iff_prefix]
  constructor
  · rintro ⟨t, rfl⟩
    exact ⟨t, by simp⟩
  · rintro ⟨t, rfl⟩
    exact ⟨t, by simp⟩

theorem parseCondition_sound (cond : Str) (c : Condition) :
    ∀ ps : List Str, parseCondition cond ps = some c →
      ∃ p ∈ ps, ∃ payload, cond = p ++ ':' :: payload ∧ c = Condition.mk p payload []
  | [], h => by simp [parseCondition] at h
  | p :: ps, h => by
    unfold parseCondition at h
    split at h
    · rename_i hp
      obtain ⟨payload, rfl⟩ := (hasPrefix_colon_iff cond p).mp hp
      refine ⟨p, List.mem_cons_self _ _, payload, rfl, ?_⟩
      simp only [Option.some.injEq] at h
      rw [← h]
      simp [newCondition]
    · obtain ⟨q, hq, payload, h1, h2⟩ := parseCondition_sound cond c ps h
      exact ⟨q, List.mem_cons_of_mem _ hq, payload, h1, h2⟩

theorem parseCondition_complete (p payload : Str) (hp : p ∈ validConditionPrefix) :
    parseCondition (p ++ ':' :: payload) validConditionPrefix =
      some (Condition.mk p payload []) := by
  simp only [validConditionPrefix, List.mem_cons, List.mem_singleton, List.not_mem_nil,
    or_false] at hp
  rcases hp with rfl | rfl | rfl | rfl | rfl <;>
    simp [parseCondition, validConditionPrefix, HasPrefix, List.isPrefixOf, newCondition]

theorem parseCondition_iff (cond : Str) (c : Condition) :
    parseCondition cond validConditionPrefix = some c ↔
      ∃ p ∈ validConditionPrefix, ∃ payload,
        cond = p ++ ':' :: payload ∧ c = Condition.mk p payload [] := by
  constructor
  · exact parseCondition_sound cond c validConditionPrefix
  · rintro ⟨p, hp, payload, rfl, rfl⟩
    exact parseCondition_complete p payload hp

theorem parseCondition_eq_none_iff (cond : Str) :
    parseCondition cond validConditionPrefix = none ↔
      ¬ ∃ p ∈ validConditionPrefix, (p ++ [':']) <+: cond := by
  constructor
  · rintro h ⟨p, hp, t, rfl⟩
    have := parseCondition_complete p t hp
    simp only [List.append_assoc, List.singleton_append] at h
    rw [h] at this
    exact Option.noConfusion this
  · intro h
    cases hc : parseCondition cond validConditionPrefix with
    | none => rfl
    | some c =>
      obtain ⟨p, hp, payload, rfl, -⟩ := (parseCondition_iff cond c).mp hc
      exact absurd ⟨p, hp, payload, by simp⟩ h

theorem forall₂_exists_of_mem {α β : Type} (R : α → β → Prop) :
    ∀ (l₁ : List α) (l₂ : List β), List.Forall₂ R l₁ l₂ → ∀ a ∈ l₁, ∃ b, R a b
  | _, _, List.Forall₂.nil, a, ha => by simp at ha
  | _, _, List.Forall₂.cons h t, a, ha => by
    rcases List.mem_cons.mp ha with rfl | ha
    · exact ⟨_, h⟩
    · exact forall₂_exists_of_mem R _ _ t a ha

theorem buildConditionsLoop_ok_iff :
    ∀ (rules : List Str) (acc cs : List Condition),
      buildConditionsLoop rules acc = .ok cs ↔
        ∃ cs', cs = acc ++ cs' ∧
          List.Forall₂ (fun s c => parseCondition s validConditionPrefix = some c) rules cs'
  | [], acc, cs => by
    simp only [buildConditionsLoop, Except.ok.injEq, List.forall₂_nil_left_iff]
    constructor
    · rintro rfl
      exact ⟨[], by simp, rfl⟩
    · rintro ⟨cs', rfl, rfl⟩
      simp
  | s :: rules, acc, cs => by
    unfold buildConditionsLoop
    cases hp : parseCondition s validConditionPrefix with
    | none =>
      constructor
      · intro h
        cases h
      · rintro ⟨cs', -, h⟩
        cases h with
        | cons h1 _ =>
          rw [hp] at h1
          exact Option.noConfusion h1
    | some c =>
      simp only []
      rw [buildConditionsLoop_ok_iff rules (acc ++ [c]) cs]
      constructor
      · rintro ⟨cs', rfl, h⟩
        exact ⟨c :: cs', by simp, List.Forall₂.cons hp h⟩
      · rintro ⟨cs', rfl, h⟩
        cases h with
        | cons h1 h2 =>
          rw [hp] at h1
          cases h1
          exact ⟨_, by simp, h2⟩

theorem buildConditionsLoop_error_iff :
    ∀ (rules : List Str) (acc : List Condition) (e : Err),
      buildConditionsLoop rules acc = .error e ↔
        ∃ pre s post, rules = pre ++ s :: post ∧
          (∀ x ∈ pre, parseCondition x validConditionPrefix ≠ none) ∧
          parseCondition s validConditionPrefix = none ∧ e = .invalidCondition s
  | [], acc, e => by
    simp [buildConditionsLoop]
  | r :: rules, acc, e => by
    unfold buildConditionsLoop
    cases hp : parseCondition r validConditionPrefix with
    | none =>
      simp only [Except.error.injEq]
      constructor
      · rintro rfl
        exact ⟨[], r, rules, rfl, by simp, hp, rfl⟩
      · rintro ⟨pre, s, post, hr, hpre, hs, rfl⟩
        cases pre with
        | nil =>
          simp only [List.nil_append, List.cons.injEq] at hr
          rw [hr.1]
        | cons x pre =>
          simp only [List.cons_append, List.cons.injEq] at hr
          exact absurd hp (by rw [hr.1]; exact hpre x (List.mem_cons_self _ _))
    | some c =>
      simp only []
      rw [buildConditionsLoop_error_iff rules (acc ++ [c]) e]
      constructor
      · rintro ⟨pre, s, post, rfl, hpre, hs, rfl⟩
        refine ⟨r :: pre, s, post, rfl, ?_, hs, rfl⟩
        intro x hx
        rcases List.mem_cons.mp hx with rfl | hx
        · rw [hp]; exact Option.noConfusion
        · exact hpre x hx
      · rintro ⟨pre, s, post, hr, hpre, hs, rfl⟩
        cases pre with
        | nil =>
          simp only [List.nil_append, List.cons.injEq] at hr
          rw [← hr.1, hp] at hs
          exact Option.noConfusion hs
        | cons x pre =>
          simp only [List.cons_append, List.cons.injEq] at hr
          exact ⟨pre, s, post, hr.2, fun y hy => hpre y (List.mem_cons_of_mem _ hy), hs, rfl⟩

/-- C7, counterexample: the rule string `group:cn` begins with the prefix
`group:` named by the claim and is rejected, while `geosite:cn`, which begins
with none of the five prefixes of the claim, is accepted. -/
theorem buildConditions_group_counterexample :
    "group:".toList <+: "group:cn".toList ∧
      (DomainMatcherBuilder.mk [] ["group:cn".toList]).buildConditions =
        .error (.invalidCondition "group:cn".toList) ∧
      (¬ ∃ p ∈ ["keyword:".toList, "full:".toList, "domain:".toList, "regexp:".toList,
          "group:".toList], p <+: "geosite:cn".toList) ∧
      (DomainMatcherBuilder.mk [] ["geosite:cn".toList]).buildConditions =
        .ok [Condition.mk "geosite".toList "cn".toList []] :=
  ⟨by decide, rfl, by decide, rfl⟩

/-- C7, amended: `buildConditions` accepts a rule string iff it begins with one
of `keyword:`, `regexp:`, `full:`, `domain:`, `geosite:`; an accepted string
yields the condition whose kind is that prefix, whose payload is everything
after the colon and whose children are empty; the output has one condition per
rule string, in input order; and if some rule string is not accepted the parse
fails with the error naming the first such string and returns no conditions. -/
theorem DomainMatcherBuilder.buildConditions_spec (b : DomainMatcherBuilder) :
    (∀ s c, parseCondition s validConditionPrefix = some c ↔
      ∃ p ∈ ["keyword".toList, "regexp".toList, "full".toList, "domain".toList,
          "geosite".toList],
        ∃ payload, s = p ++ ':' :: payload ∧ c = Condition.mk p payload []) ∧
      (∀ cs, b.buildConditions = .ok cs ↔
        List.Forall₂ (fun s c => parseCondition s validConditionPrefix = some c)
          b.conditions cs) ∧
      ((∃ cs, b.buildConditions = .ok cs) ↔
        ∀ s ∈ b.conditions, ∃ p ∈ ["keyword".toList, "regexp".toList, "full".toList,
          "domain".toList, "geosite".toList], (p ++ [':']) <+: s) ∧
      (∀ e, b.buildConditions = .error e ↔
        ∃ pre s post, b.conditions = pre ++ s :: post ∧
          (∀ x ∈ pre, ∃ p ∈ ["keyword".toList, "regexp".toList, "full".toList,
            "domain".toList, "geosite".toList], (p ++ [':']) <+: x) ∧
          (¬ ∃ p ∈ ["keyword".toList, "regexp".toList, "full".toList,
            "domain".toList, "geosite".toList], (p ++ [':']) <+: s) ∧
          e = .invalidCondition s) := by
  have hok : ∀ cs, b.buildConditions = .ok cs ↔
      List.Forall₂ (fun s c => parseCondition s validConditionPrefix = some c)
        b.conditions cs := by
    intro cs
    unfold DomainMatcherBuilder.buildConditions
    rw [buildConditionsLoop_ok_iff]
    simp
  have hsome : ∀ x : Str, parseCondition x validConditionPrefix ≠ none ↔
      ∃ p ∈ validConditionPrefix, (p ++ [':']) <+: x := by
    intro x
    rw [Ne, parseCondition_eq_none_iff, not_not]
  refine ⟨fun s c => parseCondition_iff s c, hok, ?_, ?_⟩
  · constructor
    · rintro ⟨cs, hcs⟩ s hs
      obtain ⟨c, hc⟩ := forall₂_exists_of_mem _ _ _ ((hok cs).mp hcs) s hs
      exact (hsome s).mp (by rw [hc]; exact Option.noConfusion)
    · intro h
      cases hb : b.buildConditions with
      | ok cs => exact ⟨cs, rfl⟩
      | error e =>
        unfold DomainMatcherBuilder.buildConditions at hb
        obtain ⟨pre, s, post, hr, -, hs, -⟩ := (buildConditionsLoop_error_iff _ _ _).mp hb
        have := (hsome s).mpr (h s (by rw [hr]; simp))
        exact absurd hs this
  · intro e
    unfold DomainMatcherBuilder.buildConditions
    rw [buildConditionsLoop_error_iff]
    constructor
    · rintro ⟨pre, s, post, hr, hpre, hs, he⟩
      exact ⟨pre, s, post, hr, fun x hx => (hsome x).mp (hpre x hx),
        (parseCondition_eq_none_iff s).mp hs, he⟩
    · rintro ⟨pre, s, post, hr, hpre, hs, he⟩
      exact ⟨pre, s, post, hr, fun x hx => (hsome x).mpr (hpre x hx),
        (parseCondition_eq_none_iff s).mpr hs, he⟩

/-! ### Splitting a group payload -/

theorem indexOf_at_none :
    ∀ s : Str, '@' ∉ s → indexOf ['@'] s = none
  | [], _ => by simp [indexOf, HasPrefix, List.isPrefixOf]
  | c :: t, h => by
    have hc : c ≠ '@' := fun e => h (by rw [e]; exact List.mem_cons_self _ _)
    have ht : '@' ∉ t := fun e => h (List.mem_cons_of_mem _ e)
    have hc' : ¬ ('@' = c) := fun e => hc e.symm
    simp [indexOf, HasPrefix, List.isPrefixOf, hc', indexOf_at_none t ht]

theorem indexOf_at_some :
    ∀ (pre post : Str), '@' ∉ pre → indexOf ['@'] (pre ++ '@' :: post) = some pre.length
  | [], post, _ => by simp [indexOf, HasPrefix, List.isPrefixOf]
  | c :: t, post, h => by
    have hc : ¬ ('@' = c) := fun e => h (by rw [← e]; exact List.mem_cons_self _ _)
    have ht : '@' ∉ t := fun e => h (List.mem_cons_of_mem _ e)
    simp [indexOf, HasPrefix, List.isPrefixOf, hc, indexOf_at_some t post ht]

theorem exists_first_at : ∀ s : Str, '@' ∈ s →
    ∃ pre post, s = pre ++ '@' :: post ∧ '@' ∉ pre
  | [], h => by simp at h
  | c :: t, h => by
    by_cases hc : c = '@'
    · exact ⟨[], t, by rw [hc]; rfl, by simp⟩
    · have ht : '@' ∈ t := by
        rcases List.mem_cons.mp h with e | e
        · exact absurd e.symm hc
        · exact e
      obtain ⟨pre, post, rfl, hpre⟩ := exists_first_at t ht
      refine ⟨c :: pre, post, rfl, ?_⟩
      intro hm
      rcases List.mem_cons.mp hm with e | e
      · exact hc e.symm
      · exact hpre e

theorem extractAttr_no_at (p : Str) (h : '@' ∉ p) :
    extractAttr p = if p = [] then .error (.invalidGeosite p) else .ok (p, []) := by
  unfold extractAttr Index
  have hi : indexOf "@".toList p = none := indexOf_at_none p h
  simp only [hi]
  by_cases hp : p = []
  · subst hp
    simp
  · have hl : 0 < p.length := List.length_pos.mpr hp
    rw [if_neg (by omega), if_neg hp]
    simp

theorem extractAttr_split (pre post : Str) (h : '@' ∉ pre) :
    extractAttr (pre ++ '@' :: post) =
      if post = [] then .error (.invalidGeosite (pre ++ '@' :: post))
      else .ok (pre, post) := by
  unfold extractAttr Index
  have hi : indexOf "@".toList (pre ++ '@' :: post) = some pre.length :=
    indexOf_at_some pre post h
  simp only [hi]
  by_cases hp : post = []
  · subst hp
    simp
  · have hl : 0 < post.length := List.length_pos.mpr hp
    rw [if_neg (by simp; omega), if_neg (by omega), if_neg hp]
    simp

/-- C8, counterexample: the payload `a@b@` ends in `@` and `extractAttr` accepts
it, with the attribute `b@`. -/
theorem extractAttr_counterexample :
    "a@b@".toList.getLast? = some '@' ∧
      extractAttr "a@b@".toList = .ok ("a".toList, "b@".toList) :=
  ⟨by decide, rfl⟩

/-- C8, amended: for every non-empty payload `p`, `extractAttr(p)` returns an
error iff the first `@` of `p` is its last byte, that is iff `p` ends in `@` and
has no other `@` (the attribute after the first `@` is empty); every other
non-empty payload is accepted, among them the payloads with no `@` at all. -/
theorem extractAttr_error_iff (p : Str) (hp : p ≠ []) :
    ((∃ e, extractAttr p = .error e) ↔ ∃ pre, p = pre ++ ['@'] ∧ '@' ∉ pre) ∧
      ((∃ e, extractAttr p = .error e) → extractAttr p = .error (.invalidGeosite p)) ∧
      ('@' ∉ p → extractAttr p = .ok (p, [])) := by
  have hno : '@' ∉ p → extractAttr p = .ok (p, []) := fun h => by
    rw [extractAttr_no_at p h, if_neg hp]
  by_cases hat : '@' ∈ p
  · obtain ⟨pre, post, rfl, hpre⟩ := exists_first_at p hat
    rw [extractAttr_split pre post hpre]
    by_cases hpost : post = []
    · subst hpost
      refine ⟨⟨fun _ => ⟨pre, rfl, hpre⟩, fun _ => ⟨.invalidGeosite (pre ++ ['@']), ?_⟩⟩,
        fun _ => ?_, fun h => absurd hat h⟩
      · simp
      · simp
    · rw [if_neg hpost]
      refine ⟨⟨?_, ?_⟩, ?_, fun h => absurd hat h⟩
      · rintro ⟨e, he⟩
        cases he
      · rintro ⟨pre', h, hpre'⟩
        exfalso
        have hmem : '@' ∈ pre' ++ ['@'] := by simp
        rw [← h] at hmem
        have h2 : pre ++ '@' :: post = pre ++ ['@'] ++ post := by simp
        rw [h2] at h
        rcases List.eq_nil_or_concat post with hn | ⟨t, c, rfl⟩
        · exact hpost hn
        · rw [List.concat_eq_append, ← List.append_assoc] at h
          have hh := List.append_inj' h rfl
          have : '@' ∈ pre' := by rw [← hh.1]; simp
          exact hpre' this
      · rintro ⟨e, he⟩
        cases he
  · rw [hno hat]
    refine ⟨⟨?_, ?_⟩, ?_, fun _ => rfl⟩
    · rintro ⟨e, he⟩
      cases he
    · rintro ⟨pre, rfl, -⟩
      exact absurd (by simp) hat
    · rintro ⟨e, he⟩
      cases he

/-- Witness of C8 as amended: the payload `google@`. -/
theorem extractAttr_error_iff_witness :
    "google@".toList ≠ [] ∧
      ((∃ e, extractAttr "google@".toList = .error e) ↔
        ∃ pre, "google@".toList = pre ++ ['@'] ∧ '@' ∉ pre) ∧
      extractAttr "google@".toList = .error (.invalidGeosite "google@".toList) :=
  ⟨by decide, (extractAttr_error_iff "google@".toList (by decide)).1, rfl⟩

/-- C9: when `extractAttr(p)` succeeds with `(identifier, attr)`: if `p`
contains no `@` the result is `(p, "")`; otherwise `identifier` contains no `@`
and `identifier + "@" + attr == p`, so `p` is split at its first `@`. -/
theorem extractAttr_ok_split (p identifier attr : Str)
    (h : extractAttr p = .ok (identifier, attr)) :
    ('@' ∉ p → identifier = p ∧ attr = []) ∧
      ('@' ∈ p → '@' ∉ identifier ∧ identifier ++ '@' :: attr = p) := by
  by_cases hat : '@' ∈ p
  · obtain ⟨pre, post, rfl, hpre⟩ := exists_first_at p hat
    rw [extractAttr_split pre post hpre] at h
    split at h
    · cases h
    · simp only [Except.ok.injEq, Prod.mk.injEq] at h
      obtain ⟨rfl, rfl⟩ := h
      exact ⟨fun hn => absurd hat hn, fun _ => ⟨hpre, rfl⟩⟩
  · rw [extractAttr_no_at p hat] at h
    split at h
    · cases h
    · simp only [Except.ok.injEq, Prod.mk.injEq] at h
      obtain ⟨rfl, rfl⟩ := h
      exact ⟨fun _ => ⟨rfl, rfl⟩, fun hn => absurd hn hat⟩

/-- Witness of C9: the payload `google@ads` splits into `google` and `ads`. -/
theorem extractAttr_ok_split_witness :
    extractAttr "google@ads".toList = .ok ("google".toList, "ads".toList) ∧
      ('@' ∈ "google@ads".toList →
        '@' ∉ "google".toList ∧ "google".toList ++ '@' :: "ads".toList = "google@ads".toList) :=
  ⟨rfl, (extractAttr_ok_split "google@ads".toList "google".toList "ads".toList rfl).2⟩

/-! ### Looking a group up -/

theorem extractDomainListLoop_no_attr (payload countryCode : Str) :
    ∀ entries : List GeoSite,
      extractDomainListLoop payload countryCode [] entries =
        match entries.find? (fun e => decide (countryCode = e.CountryCode)) with
        | some e => .ok e.Domain
        | none => .error (.notFound payload)
  | [] => rfl
  | e :: rest => by
    unfold extractDomainListLoop
    by_cases h : countryCode = e.CountryCode
    · simp [h]
    · rw [if_neg h, extractDomainListLoop_no_attr payload countryCode rest,
        List.find?_cons_of_neg _ (by simpa using h)]

theorem extractDomainList_no_attr (env : Env) (geo : GeoSiteList) (p : Str)
    (hp : p ≠ []) (hat : '@' ∉ p) :
    extractDomainList env p geo =
      match geo.Entry.find? (fun e => decide (env.ToUpper p = e.CountryCode)) with
      | some e => .ok e.Domain
      | none => .error (.notFound p) := by
  unfold extractDomainList
  rw [extractAttr_no_at p hat, if_neg hp]
  exact extractDomainListLoop_no_attr p (env.ToUpper p) geo.Entry

/-- C10: for a non-empty group payload `p` without `@`, `extractDomainList`
returns the domain records of the first dataset entry whose country code equals
the upper-cased `p`, and the not-found error when there is no such entry; it
succeeds iff some entry has that country code.  A second such payload `q` with
the same upper-casing has the same outcome: the same records, or not found. -/
theorem extractDomainList_lookup (env : Env) (geo : GeoSiteList) (p q : Str)
    (hp : p ≠ []) (hat : '@' ∉ p) (hq : q ≠ []) (hqat : '@' ∉ q)
    (hcase : env.ToUpper q = env.ToUpper p) :
    (extractDomainList env p geo =
      match geo.Entry.find? (fun e => decide (env.ToUpper p = e.CountryCode)) with
      | some e => .ok e.Domain
      | none => .error (.notFound p)) ∧
      ((∃ ds, extractDomainList env p geo = .ok ds) ↔
        ∃ e ∈ geo.Entry, e.CountryCode = env.ToUpper p) ∧
      ((¬ ∃ e ∈ geo.Entry, e.CountryCode = env.ToUpper p) →
        extractDomainList env p geo = .error (.notFound p)) ∧
      (∀ ds, extractDomainList env q geo = .ok ds ↔ extractDomainList env p geo = .ok ds) ∧
      (extractDomainList env q geo = .error (.notFound q) ↔
        extractDomainList env p geo = .error (.notFound p)) := by
  have h1 := extractDomainList_no_attr env geo p hp hat
  have h2 := extractDomainList_no_attr env geo q hq hqat
  rw [hcase] at h2
  refine ⟨h1, ?_, ?_, ?_, ?_⟩
  · rw [h1]
    cases hf : geo.Entry.find? (fun e => decide (env.ToUpper p = e.CountryCode)) with
    | none =>
      constructor
      · rintro ⟨ds, h⟩
        cases h
      · rintro ⟨e, he, hc⟩
        have := List.find?_eq_none.mp hf e he
        simp [hc] at this
    | some e =>
      simp only [Except.ok.injEq, exists_eq', true_iff]
      have hm := List.mem_of_find?_eq_some hf
      have hc := List.find?_some hf
      exact ⟨e, hm, (of_decide_eq_true hc).symm⟩
  · intro hno
    rw [h1]
    cases hf : geo.Entry.find? (fun e => decide (env.ToUpper p = e.CountryCode)) with
    | none => rfl
    | some e =>
      exfalso
      have hm := List.mem_of_find?_eq_some hf
      have hc := List.find?_some hf
      exact hno ⟨e, hm, (of_decide_eq_true hc).symm⟩
  · intro ds
    rw [h1, h2]
    cases geo.Entry.find? (fun e => decide (env.ToUpper p = e.CountryCode)) with
    | none =>
      constructor <;> (intro h; cases h)
    | some e => exact Iff.rfl
  · rw [h1, h2]
    cases geo.Entry.find? (fun e => decide (env.ToUpper p = e.CountryCode)) with
    | none => exact ⟨fun _ => rfl, fun _ => rfl⟩
    | some e =>
      constructor <;> (intro h; cases h)

/-- Witness of C10: the payloads `google` and `Google` over the sample dataset. -/
theorem extractDomainList_lookup_witness :
    "google".toList ≠ [] ∧ '@' ∉ "google".toList ∧ "Google".toList ≠ [] ∧
      '@' ∉ "Google".toList ∧
      sampleEnv.ToUpper "Google".toList = sampleEnv.ToUpper "google".toList ∧
      extractDomainList sampleEnv "google".toList sampleGeo =
        .ok [⟨Domain_Domain, "google.com".toList, []⟩,
          ⟨Domain_Full, "www.google.com".toList, []⟩,
          ⟨Domain_Plain, "goog".toList, [⟨"ads".toList⟩]⟩] ∧
      (extractDomainList sampleEnv "Google".toList sampleGeo =
          .ok [⟨Domain_Domain, "google.com".toList, []⟩,
            ⟨Domain_Full, "www.google.com".toList, []⟩,
            ⟨Domain_Plain, "goog".toList, [⟨"ads".toList⟩]⟩] ↔
        extractDomainList sampleEnv "google".toList sampleGeo =
          .ok [⟨Domain_Domain, "google.com".toList, []⟩,
            ⟨Domain_Full, "www.google.com".toList, []⟩,
            ⟨Domain_Plain, "goog".toList, [⟨"ads".toList⟩]⟩]) :=
  ⟨by decide, by decide, by decide, by decide, by decide, rfl,
    (extractDomainList_lookup sampleEnv sampleGeo "google".toList "Google".toList
      (by decide) (by decide) (by decide) (by decide) (by decide)).2.2.2.1 _⟩

/-! ### The order of the matcher records -/

theorem buildMatchers_ok (env : Env) (i : Int) :
    ∀ (domains : List Domain) (ms : List Matcher) (idx : List Int)
      (r : List Matcher × List Int),
      buildMatchers env i domains ms idx = .ok r →
        r = (ms ++ domains.filterMap (specMatcherOf env),
          idx ++ List.replicate domains.length i)
  | [], ms, idx, r, h => by
    simp only [buildMatchers, Except.ok.injEq] at h
    simp [← h]
  | dom :: rest, ms, idx, r, h => by
    unfold buildMatchers at h
    simp only [] at h
    by_cases h0 : dom.Type_ = Domain_Plain
    · rw [if_pos h0] at h
      rw [buildMatchers_ok env i rest _ _ r h]
      have hs : specMatcherOf env dom = some (Matcher.ofKeyword dom.Value) := by
        unfold specMatcherOf; rw [if_pos h0]
      simp [hs, NewKeywordMatcher, List.replicate_succ]
    · rw [if_neg h0] at h
      by_cases h1 : dom.Type_ = Domain_Full
      · rw [if_pos h1] at h
        rw [buildMatchers_ok env i rest _ _ r h]
        have hs : specMatcherOf env dom = some (Matcher.ofFull dom.Value) := by
          unfold specMatcherOf; rw [if_neg h0, if_pos h1]
        simp [hs, NewFullMatcher, List.replicate_succ]
      · rw [if_neg h1] at h
        by_cases h2 : dom.Type_ = Domain_Domain
        · rw [if_pos h2] at h
          rw [buildMatchers_ok env i rest _ _ r h]
          have hs : specMatcherOf env dom = some (Matcher.ofSubDomain dom.Value) := by
            unfold specMatcherOf; rw [if_neg h0, if_neg h1, if_pos h2]
          simp [hs, NewSubDomainMatcher, List.replicate_succ]
        · rw [if_neg h2] at h
          by_cases h3 : dom.Type_ = Domain_Regex
          · rw [if_pos h3] at h
            unfold NewRegexMatcher at h
            cases hc : env.Compile dom.Value with
            | none => rw [hc] at h; cases h
            | some f =>
              rw [hc] at h
              simp only [] at h
              rw [buildMatchers_ok env i rest _ _ r h]
              have hs : specMatcherOf env dom =
                  some (Matcher.ofRegex ⟨dom.Value, f⟩) := by
                unfold specMatcherOf; rw [if_neg h0, if_neg h1, if_neg h2, if_pos h3, hc]; rfl
              simp [hs, List.replicate_succ]
          · rw [if_neg h3] at h
            rw [buildMatchers_ok env i rest _ _ r h]
            have hs : specMatcherOf env dom = none := by
              unfold specMatcherOf; rw [if_neg h0, if_neg h1, if_neg h2, if_neg h3]
            simp [hs, List.replicate_succ]

theorem buildLoop_ok (env : Env) (geo : GeoSiteList) :
    ∀ (conds : List Condition) (i : Int) (ms : List Matcher) (idx : List Int)
      (r : List Matcher × List Int),
      buildLoop env geo conds i ms idx = .ok r →
        ∃ recs, List.Forall₂ (fun c ds => expandCondition env geo c = .ok ds) conds recs ∧
          r = (ms ++ specMatchers env recs, idx ++ specOwners i recs)
  | [], i, ms, idx, r, h => by
    simp only [buildLoop, Except.ok.injEq] at h
    exact ⟨[], List.Forall₂.nil, by simp [← h, specMatchers, specOwners]⟩
  | c :: conds, i, ms, idx, r, h => by
    unfold buildLoop at h
    cases he : expandCondition env geo c with
    | error e => rw [he] at h; cases h
    | ok domains =>
      rw [he] at h
      simp only [] at h
      cases hb : buildMatchers env i domains ms idx with
      | error e => rw [hb] at h; cases h
      | ok r1 =>
        rw [hb] at h
        obtain ⟨ms1, idx1⟩ := r1
        simp only [] at h
        have h1 := buildMatchers_ok env i domains ms idx _ hb
        simp only [Prod.mk.injEq] at h1
        obtain ⟨rfl, rfl⟩ := h1
        obtain ⟨recs, hrecs, rfl⟩ := buildLoop_ok env geo conds (i + 1) _ _ r h
        exact ⟨domains :: recs, List.Forall₂.cons he hrecs,
          by simp [specMatchers, specOwners]⟩

theorem specOwners_bounds : ∀ (recs : List (List Domain)) (i : Int),
    ∀ j ∈ specOwners i recs, i ≤ j ∧ j < i + recs.length
  | [], _, j, h => by simp [specOwners] at h
  | ds :: recs, i, j, h => by
    simp only [specOwners, List.mem_append] at h
    rcases h with h | h
    · have := List.eq_of_mem_replicate h
      subst this
      simp only [List.length_cons, Nat.cast_add, Nat.cast_one]
      omega
    · have := specOwners_bounds recs (i + 1) j h
      simp only [List.length_cons, Nat.cast_add, Nat.cast_one]
      omega

theorem specOwners_pairwise : ∀ (recs : List (List Domain)) (i : Int),
    (specOwners i recs).Pairwise (· ≤ ·)
  | [], _ => by simp [specOwners]
  | ds :: recs, i => by
    rw [specOwners, List.pairwise_append]
    refine ⟨?_, specOwners_pairwise recs (i + 1), ?_⟩
    · rw [List.pairwise_replicate]
      exact Or.inr (le_refl i)
    · intro a ha b hb
      have := List.eq_of_mem_replicate ha
      subst this
      have := (specOwners_bounds recs (a + 1) b hb).1
      omega

theorem specOwners_length (env : Env) : ∀ (recs : List (List Domain)) (i : Int),
    (specMatchers env recs).length ≤ (specOwners i recs).length
  | [], _ => by simp [specMatchers, specOwners]
  | ds :: recs, i => by
    have ih := specOwners_length env recs (i + 1)
    have hf := List.length_filterMap_le (specMatcherOf env) ds
    simp only [specMatchers, List.map_cons, List.flatten_cons, List.length_append,
      specOwners, List.length_replicate] at ih ⊢
    omega

theorem specMatcherOf_match_isSome (env : Env) (dom : Domain) (mt : Matcher) (d : Str)
    (h : specMatcherOf env dom = some mt) : (mt.Match d).isSome := by
  unfold specMatcherOf at h
  split at h
  · cases h; simp [Matcher.Match]
  · split at h
    · cases h; simp [Matcher.Match]
    · split at h
      · cases h; simp [Matcher.Match]
      · split at h
        · cases hc : env.Compile dom.Value with
          | none => rw [hc] at h; cases h
          | some f => rw [hc] at h; cases h; simp [Matcher.Match]
        · cases h

theorem specMatchers_match_isSome (env : Env) (d : Str) (recs : List (List Domain)) :
    ∀ mt ∈ specMatchers env recs, (mt.Match d).isSome := by
  intro mt hmt
  unfold specMatchers at hmt
  obtain ⟨l, hl, hm⟩ := List.mem_flatten.mp hmt
  obtain ⟨ds, -, rfl⟩ := List.mem_map.mp hl
  obtain ⟨dom, -, hdom⟩ := List.mem_filterMap.mp hm
  exact specMatcherOf_match_isSome env dom mt d hdom

theorem map_fst_filterMap_specEmit_sublist (conds : List Condition) (d : Str) :
    ∀ L : List (Matcher × Int),
      ((L.filterMap (specEmit conds d)).map Prod.fst).Sublist (L.map Prod.snd)
  | [] => by simp
  | r :: L => by
    have ih := map_fst_filterMap_specEmit_sublist conds d L
    rw [List.filterMap_cons]
    cases he : specEmit conds d r with
    | none => exact List.Sublist.cons _ ih
    | some e =>
      have hfst : e.1 = r.2 := by
        unfold specEmit at he
        cases hh : specHit r.1 d with
        | none => rw [hh] at he; cases he
        | some sub =>
          cases hc : condAt conds r.2 with
          | none => rw [hh, hc] at he; cases he
          | some t => rw [hh, hc] at he; cases he; rfl
      simp only [List.map_cons, hfst]
      exact List.Sublist.cons₂ _ ih

theorem map_snd_zip_sublist {α β : Type} : ∀ (l₁ : List α) (l₂ : List β),
    ((l₁.zip l₂).map Prod.snd).Sublist l₂
  | [], l₂ => by simp
  | _ :: _, [] => by simp
  | a :: l₁, b :: l₂ => by
    simp only [List.zip_cons_cons, List.map_cons]
    exact List.Sublist.cons₂ _ (map_snd_zip_sublist l₁ l₂)

theorem specMatchIdx_owners_sublist (m : DomainMatcher) (d : Str) :
    ((specMatchIdx m d).map Prod.fst).Sublist m.matcherCondIdx :=
  (map_fst_filterMap_specEmit_sublist m.conditions (specNormalize d) (specRecords m)).trans
    (map_snd_zip_sublist m.matchers m.matcherCondIdx)

theorem filterDomains_eq (expectedAttr : Str) :
    ∀ (domains acc : List Domain),
      filterDomains expectedAttr domains acc =
        acc ++ domains.filter (fun dom => attrMatched expectedAttr dom.Attribute)
  | [], acc => by simp [filterDomains]
  | dom :: rest, acc => by
    unfold filterDomains
    by_cases h : attrMatched expectedAttr dom.Attribute = true
    · rw [if_pos h, filterDomains_eq expectedAttr rest]
      simp [List.filter_cons, h]
    · rw [if_neg h, filterDomains_eq expectedAttr rest]
      simp [List.filter_cons, h]

theorem extractDomainListLoop_sublist (payload countryCode expectedAttr : Str) :
    ∀ (entries : List GeoSite) (ds : List Domain),
      extractDomainListLoop payload countryCode expectedAttr entries = .ok ds →
        ∃ e ∈ entries, e.CountryCode = countryCode ∧ ds.Sublist e.Domain
  | [], ds, h => by simp [extractDomainListLoop] at h
  | e :: rest, ds, h => by
    unfold extractDomainListLoop at h
    by_cases hc : countryCode = e.CountryCode
    · rw [if_pos hc] at h
      refine ⟨e, List.mem_cons_self _ _, hc.symm, ?_⟩
      by_cases ha : expectedAttr ≠ []
      · rw [if_pos ha, filterDomains_eq] at h
        cases h
        simp
      · rw [if_neg ha] at h
        cases h
        exact List.Sublist.refl _
    · rw [if_neg hc] at h
      obtain ⟨e', he', h1, h2⟩ :=
        extractDomainListLoop_sublist payload countryCode expectedAttr rest ds h
      exact ⟨e', List.mem_cons_of_mem _ he', h1, h2⟩

theorem expandCondition_geosite_sublist (env : Env) (geo : GeoSiteList) (c : Condition)
    (ds : List Domain) (hc : c.pfx = "geosite".toList)
    (h : expandCondition env geo c = .ok ds) :
    extractDomainList env c.payload geo = .ok ds ∧ ∃ e ∈ geo.Entry, ds.Sublist e.Domain := by
  unfold expandCondition at h
  rw [if_pos hc] at h
  cases hx : extractDomainList env c.payload geo with
  | error e => rw [hx] at h; cases h
  | ok ds' =>
    rw [hx] at h
    simp only [List.nil_append, Except.ok.injEq] at h
    subst h
    refine ⟨rfl, ?_⟩
    unfold extractDomainList at hx
    cases ha : extractAttr c.payload with
    | error e => rw [ha] at hx; cases hx
    | ok r =>
      obtain ⟨cc, attr⟩ := r
      rw [ha] at hx
      obtain ⟨e, he, -, hsub⟩ := extractDomainListLoop_sublist _ _ _ _ _ hx
      exact ⟨e, he, hsub⟩

theorem forall₂_length_eq {α β : Type} (R : α → β → Prop) :
    ∀ (l₁ : List α) (l₂ : List β), List.Forall₂ R l₁ l₂ → l₁.length = l₂.length
  | _, _, List.Forall₂.nil => rfl
  | _, _, List.Forall₂.cons _ t => by
    simp [forall₂_length_eq R _ _ t]

/-- C5: in a `DomainMatcher` produced by a successful `Build`, the matchers are
those of the expanded rules, rule after rule and within a rule in the order of
its records; the records of a group rule are those `extractDomainList` returns,
a subsequence in dataset order of the group's records; the list of owning
indices holds each rule's index once per record and is non-decreasing.  Hence
every query returns, and the owning indices of its entries, taken in the order
of the entries, are a non-decreasing subsequence of the stored indices. -/
theorem DomainMatcherBuilder.build_order (env : Env) (b : DomainMatcherBuilder)
    (m : DomainMatcher) (h : b.Build env = .ok m) :
    ∃ (geo : GeoSiteList) (recs : List (List Domain)),
      (env.ReadFile b.file).bind env.Unmarshal = some geo ∧
      b.buildConditions = .ok m.conditions ∧
      List.Forall₂ (fun c ds => expandCondition env geo c = .ok ds) m.conditions recs ∧
      (∀ c ds, c.pfx = "geosite".toList → expandCondition env geo c = .ok ds →
        extractDomainList env c.payload geo = .ok ds ∧
          ∃ e ∈ geo.Entry, ds.Sublist e.Domain) ∧
      m.matchers = specMatchers env recs ∧
      m.matcherCondIdx = specOwners 0 recs ∧
      m.matcherCondIdx.Pairwise (· ≤ ·) ∧
      ∀ d, m.Match d = some (specMatch m d) ∧
        ((specMatchIdx m d).map Prod.fst).Sublist m.matcherCondIdx ∧
        ((specMatchIdx m d).map Prod.fst).Pairwise (· ≤ ·) := by
  unfold DomainMatcherBuilder.Build at h
  cases hc : b.buildConditions with
  | error e => rw [hc] at h; cases h
  | ok conds =>
    cases hr : env.ReadFile b.file with
    | none => rw [hc, hr] at h; cases h
    | some data =>
      cases hu : env.Unmarshal data with
      | none => rw [hc, hr] at h; simp only [hu] at h; cases h
      | some geo =>
        cases hl : buildLoop env geo conds 0 [] [] with
        | error e => rw [hc, hr] at h; simp only [hu, hl] at h; cases h
        | ok r =>
          obtain ⟨ms, idx⟩ := r
          rw [hc, hr] at h
          simp only [hu, hl, Except.ok.injEq] at h
          subst h
          obtain ⟨recs, hrecs, hres⟩ := buildLoop_ok env geo conds 0 [] [] _ hl
          simp only [List.nil_append, Prod.mk.injEq] at hres
          obtain ⟨rfl, rfl⟩ := hres
          have hsorted := specOwners_pairwise recs 0
          have hlenrc : conds.length = recs.length := forall₂_length_eq _ _ _ hrecs
          refine ⟨geo, recs, by simp [hr, hu], rfl, hrecs,
            fun c ds hcp hex => expandCondition_geosite_sublist env geo c ds hcp hex,
            rfl, rfl, hsorted, fun d => ?_⟩
          have hsub := specMatchIdx_owners_sublist
            (DomainMatcher.mk (specMatchers env recs) (specOwners 0 recs) conds) d
          refine ⟨?_, hsub, hsorted.sublist hsub⟩
          apply domainMatcher_match_spec
          · exact specOwners_length env recs 0
          · intro j hj
            have := specOwners_bounds recs 0 j hj
            simp only [DomainMatcher.conditions]
            omega
          · exact specMatchers_match_isSome env _ recs

/-- Witness of C5: the rules `geosite:google` and `full:x` over the sample
dataset build the sample matcher, whose owning indices are `0, 0, 0, 1`. -/
theorem DomainMatcherBuilder.build_order_witness :
    (DomainMatcherBuilder.mk [] ["geosite:google".toList, "full:x".toList]).Build sampleEnv =
        .ok sampleMatcher ∧
      sampleMatcher.matcherCondIdx = [0, 0, 0, 1] ∧
      ∃ (geo : GeoSiteList) (recs : List (List Domain)),
        (sampleEnv.ReadFile []).bind sampleEnv.Unmarshal = some geo ∧
        (DomainMatcherBuilder.mk [] ["geosite:google".toList,
          "full:x".toList]).buildConditions = .ok sampleMatcher.conditions ∧
        List.Forall₂ (fun c ds => expandCondition sampleEnv geo c = .ok ds)
          sampleMatcher.conditions recs ∧
        (∀ c ds, c.pfx = "geosite".toList → expandCondition sampleEnv geo c = .ok ds →
          extractDomainList sampleEnv c.payload geo = .ok ds ∧
            ∃ e ∈ geo.Entry, ds.Sublist e.Domain) ∧
        sampleMatcher.matchers = specMatchers sampleEnv recs ∧
        sampleMatcher.matcherCondIdx = specOwners 0 recs ∧
        sampleMatcher.matcherCondIdx.Pairwise (· ≤ ·) ∧
        ∀ d, sampleMatcher.Match d = some (specMatch sampleMatcher d) ∧
          ((specMatchIdx sampleMatcher d).map Prod.fst).Sublist
            sampleMatcher.matcherCondIdx ∧
          ((specMatchIdx sampleMatcher d).map Prod.fst).Pairwise (· ≤ ·) :=
  ⟨rfl, rfl,
    DomainMatcherBuilder.build_order sampleEnv
      ⟨[], ["geosite:google".toList, "full:x".toList]⟩ sampleMatcher rfl⟩

/-! ### The keyword and full matchers -/

theorem hasPrefix_iff (s p : Str) : HasPrefix s p = true ↔ p <+: s := by
  unfold HasPrefix
  exact List.isPrefixOf_iff_prefix

theorem indexOf_isSome_iff (sep : Str) : ∀ s : Str, (indexOf sep s).isSome ↔ sep <:+: s
  | [] => by
    unfold indexOf
    by_cases h : HasPrefix [] sep = true
    · rw [if_pos h]
      simp only [Option.isSome_some, true_iff]
      exact ((hasPrefix_iff _ _).mp h).isInfix
    · rw [if_neg h]
      simp only [Option.isSome_none, Bool.false_eq_true, false_iff]
      intro hin
      have hnil : sep = [] := List.eq_nil_of_infix_nil hin
      subst hnil
      exact h (by simp [HasPrefix])
  | c :: t => by
    unfold indexOf
    by_cases h : HasPrefix (c :: t) sep = true
    · rw [if_pos h]
      simp only [Option.isSome_some, true_iff]
      exact ((hasPrefix_iff _ _).mp h).isInfix
    · rw [if_neg h]
      have ih := indexOf_isSome_iff sep t
      have hp : ¬ sep <+: c :: t := fun hp => h ((hasPrefix_iff _ _).mpr hp)
      rw [List.infix_cons_iff]
      cases hi : indexOf sep t with
      | none =>
        rw [hi] at ih
        simp only [Option.isSome_none, Bool.false_eq_true, false_iff] at ih ⊢
        rintro (h1 | h1)
        · exact hp h1
        · exact ih h1
      | some n =>
        rw [hi] at ih
        simp only [Option.isSome_some, true_iff] at ih ⊢
        exact Or.inr ih

theorem contains_iff_occurs (s sub : Str) : Contains s sub = true ↔ sub <:+: s := by
  unfold Contains Index
  rw [← indexOf_isSome_iff]
  cases indexOf sub s with
  | none => simp
  | some n => simp

/-- C15: `KeywordMatcher(K).Match(d)` is non-empty iff `K` occurs in `d` as a
contiguous run of bytes, compared byte for byte; it is then the single
condition `keyword:K` without children, and empty otherwise. -/
theorem KeywordMatcher.match_occurs_iff (K d : Str) :
    (KeywordMatcher.Match K d ≠ [] ↔ K <:+: d) ∧
      (KeywordMatcher.Match K d ≠ [] ↔ ∃ pre post, d = pre ++ K ++ post) ∧
      (KeywordMatcher.Match K d = [] ∨
        KeywordMatcher.Match K d = [Condition.mk "keyword".toList K []]) := by
  have h1 : KeywordMatcher.Match K d ≠ [] ↔ K <:+: d := by
    unfold KeywordMatcher.Match
    simp only []
    rw [← contains_iff_occurs]
    by_cases h : Contains d K = true
    · simp [h]
    · simp [h]
  refine ⟨h1, h1.trans ?_, ?_⟩
  · constructor
    · rintro ⟨pre, post, h⟩
      exact ⟨pre, post, h.symm⟩
    · rintro ⟨pre, post, h⟩
      exact ⟨pre, post, h.symm⟩
  · unfold KeywordMatcher.Match
    simp only []
    by_cases h : Contains d K = true
    · exact Or.inr (by rw [if_pos h]; rfl)
    · exact Or.inl (by rw [if_neg h])

/-- C16: `FullMatcher(V).Match(d)` is non-empty iff `d == V`, byte for byte; it is
then the single condition `full:V` without children, and empty otherwise. -/
theorem FullMatcher.match_equal_iff (V d : Str) :
    (FullMatcher.Match V d ≠ [] ↔ d = V) ∧
      (FullMatcher.Match V d = [] ∨
        FullMatcher.Match V d = [Condition.mk "full".toList V []]) := by
  unfold FullMatcher.Match
  simp only []
  by_cases h : V = d
  · subst h
    simp [newCondition]
  · have h' : ¬ d = V := fun e => h e.symm
    simp [h, h']

/-! ### Serialization -/

theorem stringLoop_eq (cs : List Condition) : ∀ s : Str,
    Condition.stringLoop cs s = s ++ (cs.map fun ch => '/' :: ch.String).flatten := by
  induction cs with
  | nil => intro s; simp [Condition.stringLoop]
  | cons c rest ih =>
    intro s
    rw [Condition.stringLoop, ih]
    simp

theorem string_eq (c : Condition) :
    c.String = c.pfx ++ ':' :: c.payload ++
      (c.children.map fun ch => '/' :: ch.String).flatten := by
  cases c with
  | mk pfx payload children =>
    rw [Condition.String, stringLoop_eq]
    simp [Condition.pfx, Condition.payload, Condition.children]

/-- C17: `c.String()` is `prefix + ":" + payload` followed, for each child in
order, by `"/" + child.String()`; a childless condition serializes as
`prefix:payload`, and a condition with one childless child as
`prefix:payload/childPrefix:childPayload`.  `String` is a total function: the
recursion is structural on the condition tree. -/
theorem Condition.string_spec (c : Condition) :
    c.String = c.pfx ++ ':' :: c.payload ++
        (c.children.map fun ch => '/' :: ch.String).flatten ∧
      (∀ k p : Str, (Condition.mk k p []).String = k ++ ':' :: p) ∧
      (∀ gk gp ck cp : Str, (Condition.mk gk gp [Condition.mk ck cp []]).String =
        gk ++ ':' :: gp ++ '/' :: (ck ++ ':' :: cp)) := by
  refine ⟨string_eq c, fun k p => ?_, fun gk gp ck cp => ?_⟩
  · rw [string_eq]
    simp [Condition.pfx, Condition.payload, Condition.children]
  · rw [string_eq]
    simp only [Condition.pfx, Condition.payload, Condition.children, List.map_cons,
      List.map_nil]
    rw [string_eq]
    simp [Condition.pfx, Condition.payload, Condition.children]

/-- C20: for every rule string `s` accepted by `buildConditions`, the `String()`
of the condition parsed from `s` is `s`; so a successful `buildConditions`
followed by `String()` on each condition gives back the rule strings. -/
theorem parse_string_roundtrip (s : Str) (c : Condition)
    (h : parseCondition s validConditionPrefix = some c) :
    c.String = s ∧
      ∀ (b : DomainMatcherBuilder) (cs : List Condition),
        b.buildConditions = .ok cs → cs.map Condition.String = b.conditions := by
  have hone : ∀ (s : Str) (c : Condition),
      parseCondition s validConditionPrefix = some c → c.String = s := by
    intro s c h
    obtain ⟨p, -, payload, rfl, rfl⟩ := (parseCondition_iff s c).mp h
    rw [string_eq]
    simp [Condition.pfx, Condition.payload, Condition.children]
  refine ⟨hone s c h, fun b cs hb => ?_⟩
  unfold DomainMatcherBuilder.buildConditions at hb
  obtain ⟨cs', rfl, hf⟩ := (buildConditionsLoop_ok_iff _ _ _).mp hb
  clear hb
  generalize b.conditions = rules at hf
  induction hf with
  | nil => rfl
  | cons h1 _ ih => rw [List.map_cons, hone _ _ h1, ih]

/-- Witness of C20: the rule string `geosite:google@ads`. -/
theorem parse_string_roundtrip_witness :
    parseCondition "geosite:google@ads".toList validConditionPrefix =
        some (Condition.mk "geosite".toList "google@ads".toList []) ∧
      (Condition.mk "geosite".toList "google@ads".toList []).String =
        "geosite:google@ads".toList :=
  ⟨rfl, (parse_string_roundtrip "geosite:google@ads".toList
    (Condition.mk "geosite".toList "google@ads".toList []) rfl).1⟩

/-! ### Filtering a group by a tag -/

theorem attrMatched_iff (expectedAttr : Str) :
    ∀ attrs : List Domain_Attribute,
      attrMatched expectedAttr attrs = true ↔ ∃ a ∈ attrs, a.Key = expectedAttr
  | [] => by simp [attrMatched]
  | a :: rest => by
    unfold attrMatched
    by_cases h : expectedAttr = a.Key
    · rw [if_pos h]
      simp only [true_iff]
      exact ⟨a, List.mem_cons_self _ _, h.symm⟩
    · rw [if_neg h, attrMatched_iff expectedAttr rest]
      constructor
      · rintro ⟨x, hx, hk⟩
        exact ⟨x, List.mem_cons_of_mem _ hx, hk⟩
      · rintro ⟨x, hx, hk⟩
        rcases List.mem_cons.mp hx with rfl | hx
        · exact absurd hk.symm h
        · exact ⟨x, hx, hk⟩

theorem extractDomainListLoop_attr (payload countryCode expectedAttr : Str)
    (hattr : expectedAttr ≠ []) :
    ∀ entries : List GeoSite,
      extractDomainListLoop payload countryCode expectedAttr entries =
        match entries.find? (fun e => decide (countryCode = e.CountryCode)) with
        | some e => .ok (e.Domain.filter
            fun dom => decide (∃ a ∈ dom.Attribute, a.Key = expectedAttr))
        | none => .error (.notFound payload)
  | [] => rfl
  | e :: rest => by
    unfold extractDomainListLoop
    by_cases h : countryCode = e.CountryCode
    · rw [if_pos h, if_pos hattr, filterDomains_eq, List.find?_cons_of_pos _ (by simpa using h)]
      simp only [List.nil_append]
      congr 1
      apply List.filter_congr
      intro dom _
      rw [Bool.eq_iff_iff, attrMatched_iff]
      simp
    · rw [if_neg h, extractDomainListLoop_attr payload countryCode expectedAttr hattr rest,
        List.find?_cons_of_neg _ (by simpa using h)]

theorem find?_isSome_of_mem (env : Env) (geo : GeoSiteList) (id : Str)
    (h : ∃ e ∈ geo.Entry, e.CountryCode = env.ToUpper id) :
    ∃ e, geo.Entry.find? (fun e => decide (env.ToUpper id = e.CountryCode)) = some e := by
  obtain ⟨e, he, hc⟩ := h
  cases hf : geo.Entry.find? (fun e => decide (env.ToUpper id = e.CountryCode)) with
  | some e' => exact ⟨e', rfl⟩
  | none =>
    have := List.find?_eq_none.mp hf e he
    simp [hc] at this

theorem build_single_geosite_empty (env : Env) (geo : GeoSiteList) (payload data : Str)
    (b : DomainMatcherBuilder)
    (hx : extractDomainList env payload geo = .ok [])
    (hb : b.conditions = ["geosite".toList ++ ':' :: payload])
    (hr : env.ReadFile b.file = some data) (hu : env.Unmarshal data = some geo) :
    b.Build env = .ok (DomainMatcher.mk [] [] [Condition.mk "geosite".toList payload []]) := by
  unfold DomainMatcherBuilder.Build DomainMatcherBuilder.buildConditions
  rw [hb]
  have hp := parseCondition_complete "geosite".toList payload (by simp [validConditionPrefix])
  simp only [buildConditionsLoop, hp, hr, hu, List.nil_append, buildLoop, expandCondition,
    Condition.pfx, Condition.payload, if_true, hx, buildMatchers]

/-- C11: when the dataset has the group named by `identifier` and `attr` is not
empty, `extractDomainList` on `identifier@attr` succeeds and returns, in dataset
order, exactly those domain records of the group (the first entry with that
country code) that carry an attribute whose key equals `attr`.  When no record
carries it the result is the empty list, and the rule then builds into a
matcher with no matchers, whose every query returns the empty result. -/
theorem extractDomainList_attr (env : Env) (geo : GeoSiteList) (identifier attr : Str)
    (hid : '@' ∉ identifier) (hattr : attr ≠ [])
    (hgroup : ∃ e ∈ geo.Entry, e.CountryCode = env.ToUpper identifier) :
    ∃ e, geo.Entry.find? (fun e => decide (env.ToUpper identifier = e.CountryCode)) = some e ∧
      extractDomainList env (identifier ++ '@' :: attr) geo =
        .ok (e.Domain.filter fun dom => decide (∃ a ∈ dom.Attribute, a.Key = attr)) ∧
      ((∀ dom ∈ e.Domain, ∀ a ∈ dom.Attribute, a.Key ≠ attr) →
        extractDomainList env (identifier ++ '@' :: attr) geo = .ok [] ∧
        ∀ (b : DomainMatcherBuilder) (data : Str),
          b.conditions = ["geosite".toList ++ ':' :: (identifier ++ '@' :: attr)] →
          env.ReadFile b.file = some data → env.Unmarshal data = some geo →
          ∃ m, b.Build env = .ok m ∧ m.matchers = [] ∧ ∀ q, m.Match q = some []) := by
  obtain ⟨e, he⟩ := find?_isSome_of_mem env geo identifier hgroup
  have hx : extractDomainList env (identifier ++ '@' :: attr) geo =
      .ok (e.Domain.filter fun dom => decide (∃ a ∈ dom.Attribute, a.Key = attr)) := by
    unfold extractDomainList
    rw [extractAttr_split identifier attr hid, if_neg hattr]
    simp only []
    rw [extractDomainListLoop_attr _ _ _ hattr, he]
  refine ⟨e, he, hx, fun hnone => ?_⟩
  have hnil : (e.Domain.filter fun dom => decide (∃ a ∈ dom.Attribute, a.Key = attr)) = [] := by
    rw [List.filter_eq_nil_iff]
    intro dom hdom
    simp only [decide_eq_true_eq, not_exists, not_and]
    exact fun a ha => hnone dom hdom a ha
  rw [hnil] at hx
  refine ⟨hx, fun b data hb hr hu => ?_⟩
  refine ⟨_, build_single_geosite_empty env geo _ data b hx hb hr hu, rfl, fun q => ?_⟩
  rw [DomainMatcher.Match, DomainMatcher.matchLoop]

/-- Witness of C11: the payload `google@ads` over the sample dataset selects the
one record tagged `ads`, and the payload `cn@ads` selects no record. -/
theorem extractDomainList_attr_witness :
    '@' ∉ "google".toList ∧ "ads".toList ≠ [] ∧
      (∃ e ∈ sampleGeo.Entry, e.CountryCode = sampleEnv.ToUpper "google".toList) ∧
      extractDomainList sampleEnv "google@ads".toList sampleGeo =
        .ok [⟨Domain_Plain, "goog".toList, [⟨"ads".toList⟩]⟩] ∧
      extractDomainList sampleEnv "cn@ads".toList sampleGeo = .ok [] ∧
      ∃ e, sampleGeo.Entry.find?
          (fun e => decide (sampleEnv.ToUpper "google".toList = e.CountryCode)) = some e ∧
        extractDomainList sampleEnv ("google".toList ++ '@' :: "ads".toList) sampleGeo =
          .ok (e.Domain.filter fun dom => decide (∃ a ∈ dom.Attribute, a.Key = "ads".toList)) ∧
        ((∀ dom ∈ e.Domain, ∀ a ∈ dom.Attribute, a.Key ≠ "ads".toList) →
          extractDomainList sampleEnv ("google".toList ++ '@' :: "ads".toList) sampleGeo =
            .ok [] ∧
          ∀ (b : DomainMatcherBuilder) (data : Str),
            b.conditions =
              ["geosite".toList ++ ':' :: ("google".toList ++ '@' :: "ads".toList)] →
            sampleEnv.ReadFile b.file = some data → sampleEnv.Unmarshal data = some sampleGeo →
            ∃ m, b.Build sampleEnv = .ok m ∧ m.matchers = [] ∧ ∀ q, m.Match q = some []) :=
  ⟨by decide, by decide, by decide, rfl, rfl,
    extractDomainList_attr sampleEnv sampleGeo "google".toList "ads".toList
      (by decide) (by decide) (by decide)⟩

/-! ### When `Build` succeeds -/

theorem buildMatchers_isOk_iff (env : Env) (i : Int) :
    ∀ (domains : List Domain) (ms : List Matcher) (idx : List Int),
      (∃ r, buildMatchers env i domains ms idx = .ok r) ↔
        ∀ d ∈ domains, d.Type_ = Domain_Regex → (env.Compile d.Value).isSome
  | [], ms, idx => by simp [buildMatchers]
  | dom :: rest, ms, idx => by
    unfold buildMatchers
    simp only [List.forall_mem_cons]
    by_cases h0 : dom.Type_ = Domain_Plain
    · rw [if_pos h0, buildMatchers_isOk_iff env i rest]
      have : dom.Type_ ≠ Domain_Regex := by rw [h0]; decide
      simp [this]
    · rw [if_neg h0]
      by_cases h1 : dom.Type_ = Domain_Full
      · rw [if_pos h1, buildMatchers_isOk_iff env i rest]
        have : dom.Type_ ≠ Domain_Regex := by rw [h1]; decide
        simp [this]
      · rw [if_neg h1]
        by_cases h2 : dom.Type_ = Domain_Domain
        · rw [if_pos h2, buildMatchers_isOk_iff env i rest]
          have : dom.Type_ ≠ Domain_Regex := by rw [h2]; decide
          simp [this]
        · rw [if_neg h2]
          by_cases h3 : dom.Type_ = Domain_Regex
          · rw [if_pos h3]
            unfold NewRegexMatcher
            cases hc : env.Compile dom.Value with
            | none =>
              simp only [Option.isSome_none, Bool.false_eq_true, imp_false]
              constructor
              · rintro ⟨r, hr⟩
                cases hr
              · rintro ⟨hn, -⟩
                exact absurd h3 hn
            | some f =>
              simp only []
              rw [buildMatchers_isOk_iff env i rest]
              simp
          · rw [if_neg h3, buildMatchers_isOk_iff env i rest]
            simp [h3]

theorem buildLoop_isOk_iff (env : Env) (geo : GeoSiteList) :
    ∀ (conds : List Condition) (i : Int) (ms : List Matcher) (idx : List Int),
      (∃ r, buildLoop env geo conds i ms idx = .ok r) ↔
        ∀ c ∈ conds, ∃ ds, expandCondition env geo c = .ok ds ∧
          ∀ d ∈ ds, d.Type_ = Domain_Regex → (env.Compile d.Value).isSome
  | [], i, ms, idx => by simp [buildLoop]
  | c :: conds, i, ms, idx => by
    unfold buildLoop
    simp only [List.forall_mem_cons]
    cases he : expandCondition env geo c with
    | error e =>
      constructor
      · rintro ⟨r, hr⟩
        cases hr
      · rintro ⟨⟨ds, hds, -⟩, -⟩
        cases hds
    | ok domains =>
      simp only []
      cases hb : buildMatchers env i domains ms idx with
      | error e =>
        have hno : ¬ ∃ r, buildMatchers env i domains ms idx = .ok r := by
          rintro ⟨r, hr⟩
          rw [hb] at hr
          cases hr
        rw [buildMatchers_isOk_iff] at hno
        constructor
        · rintro ⟨r, hr⟩
          cases hr
        · rintro ⟨⟨ds, hds, hre⟩, -⟩
          cases hds
          exact absurd hre hno
      | ok r1 =>
        obtain ⟨ms1, idx1⟩ := r1
        simp only []
        rw [buildLoop_isOk_iff env geo conds (i + 1) ms1 idx1]
        have hyes := (buildMatchers_isOk_iff env i domains ms idx).mp ⟨_, hb⟩
        constructor
        · intro h
          exact ⟨⟨domains, rfl, hyes⟩, h⟩
        · rintro ⟨-, h⟩
          exact h

theorem extractDomainListLoop_isOk_iff (payload countryCode expectedAttr : Str) :
    ∀ entries : List GeoSite,
      (∃ ds, extractDomainListLoop payload countryCode expectedAttr entries = .ok ds) ↔
        ∃ e ∈ entries, e.CountryCode = countryCode
  | [] => by simp [extractDomainListLoop]
  | e :: rest => by
    unfold extractDomainListLoop
    by_cases hc : countryCode = e.CountryCode
    · rw [if_pos hc]
      constructor
      · intro _
        exact ⟨e, List.mem_cons_self _ _, hc.symm⟩
      · intro _
        by_cases ha : expectedAttr ≠ []
        · rw [if_pos ha]; exact ⟨_, rfl⟩
        · rw [if_neg ha]; exact ⟨_, rfl⟩
    · rw [if_neg hc, extractDomainListLoop_isOk_iff payload countryCode expectedAttr rest]
      constructor
      · rintro ⟨x, hx, hk⟩
        exact ⟨x, List.mem_cons_of_mem _ hx, hk⟩
      · rintro ⟨x, hx, hk⟩
        rcases List.mem_cons.mp hx with rfl | hx
        · exact absurd hk.symm hc
        · exact ⟨x, hx, hk⟩

theorem extractDomainList_isOk_iff (env : Env) (geo : GeoSiteList) (payload : Str) :
    (∃ ds, extractDomainList env payload geo = .ok ds) ↔
      ∃ identifier attr, extractAttr payload = .ok (identifier, attr) ∧
        ∃ e ∈ geo.Entry, e.CountryCode = env.ToUpper identifier := by
  unfold extractDomainList
  cases ha : extractAttr payload with
  | error e =>
    constructor
    · rintro ⟨ds, h⟩
      cases h
    · rintro ⟨identifier, attr, h, -⟩
      cases h
  | ok r =>
    obtain ⟨cc, attr⟩ := r
    simp only []
    rw [extractDomainListLoop_isOk_iff]
    constructor
    · intro h
      exact ⟨cc, attr, rfl, h⟩
    · rintro ⟨identifier, attr', h, hx⟩
      cases h
      exact hx

theorem expandCondition_geosite (env : Env) (geo : GeoSiteList) (payload : Str) :
    expandCondition env geo (Condition.mk "geosite".toList payload []) =
      extractDomainList env payload geo := by
  unfold expandCondition
  simp only [Condition.pfx, Condition.payload, if_true, List.nil_append]
  cases extractDomainList env payload geo <;> rfl

theorem expandCondition_other (env : Env) (geo : GeoSiteList) (p payload : Str)
    (hp : p ≠ "geosite".toList) :
    expandCondition env geo (Condition.mk p payload []) =
      .ok [⟨mapToV2RayDomainType p, payload, []⟩] := by
  unfold expandCondition
  simp only [Condition.pfx, Condition.payload, if_neg hp, List.nil_append]

theorem forall₂_mem_right {α β : Type} (R : α → β → Prop) :
    ∀ (l₁ : List α) (l₂ : List β), List.Forall₂ R l₁ l₂ → ∀ b ∈ l₂, ∃ a ∈ l₁, R a b
  | _, _, List.Forall₂.nil, b, hb => by simp at hb
  | _, _, List.Forall₂.cons h t, b, hb => by
    rcases List.mem_cons.mp hb with rfl | hb
    · exact ⟨_, List.mem_cons_self _ _, h⟩
    · obtain ⟨a, ha, hr⟩ := forall₂_mem_right R _ _ t b hb
      exact ⟨a, List.mem_cons_of_mem _ ha, hr⟩

theorem forall₂_mem_left {α β : Type} (R : α → β → Prop) :
    ∀ (l₁ : List α) (l₂ : List β), List.Forall₂ R l₁ l₂ → ∀ a ∈ l₁, ∃ b ∈ l₂, R a b
  | _, _, List.Forall₂.nil, a, ha => by simp at ha
  | _, _, List.Forall₂.cons h t, a, ha => by
    rcases List.mem_cons.mp ha with rfl | ha
    · exact ⟨_, List.mem_cons_self _ _, h⟩
    · obtain ⟨b, hb, hr⟩ := forall₂_mem_left R _ _ t a ha
      exact ⟨b, List.mem_cons_of_mem _ hb, hr⟩

/-- The conditions under which the expansion of one parsed rule and the
construction of its matchers succeed. -/
theorem ruleOk_iff (env : Env) (geo : GeoSiteList) (p payload : Str)
    (hp : p ∈ validConditionPrefix) :
    (∃ ds, expandCondition env geo (Condition.mk p payload []) = .ok ds ∧
        ∀ d ∈ ds, d.Type_ = Domain_Regex → (env.Compile d.Value).isSome) ↔
      (p = "geosite".toList →
        (∃ identifier attr, extractAttr payload = .ok (identifier, attr) ∧
          ∃ e ∈ geo.Entry, e.CountryCode = env.ToUpper identifier) ∧
        ∀ ds, extractDomainList env payload geo = .ok ds →
          ∀ d ∈ ds, d.Type_ = Domain_Regex → (env.Compile d.Value).isSome) ∧
      (p = "regexp".toList → (env.Compile payload).isSome) := by
  by_cases hg : p = "geosite".toList
  · subst hg
    rw [expandCondition_geosite, ← extractDomainList_isOk_iff]
    have hne : "geosite".toList ≠ "regexp".toList := by decide
    simp only [true_implies, hne, false_implies, and_true]
    constructor
    · rintro ⟨ds, hds, hre⟩
      refine ⟨⟨ds, hds⟩, fun ds' hds' => ?_⟩
      rw [hds] at hds'
      cases hds'
      exact hre
    · rintro ⟨⟨ds, hds⟩, hre⟩
      exact ⟨ds, hds, hre ds hds⟩
  · rw [expandCondition_other env geo p payload hg]
    simp only [hg, false_implies, true_and]
    constructor
    · rintro ⟨ds, hds, hre⟩ hr
      cases hds
      subst hr
      exact hre _ (List.mem_singleton_self _) rfl
    · intro h
      refine ⟨_, rfl, fun d hd hre => ?_⟩
      rw [List.mem_singleton] at hd
      subst hd
      simp only [validConditionPrefix, List.mem_cons, List.mem_singleton, List.not_mem_nil,
        or_false] at hp
      rcases hp with rfl | rfl | rfl | rfl | rfl
      · exact absurd hre
          (show ¬ mapToV2RayDomainType "keyword".toList = Domain_Regex by decide)
      · exact h rfl
      · exact absurd hre
          (show ¬ mapToV2RayDomainType "full".toList = Domain_Regex by decide)
      · exact absurd hre
          (show ¬ mapToV2RayDomainType "domain".toList = Domain_Regex by decide)
      · exact absurd rfl hg

theorem forall₂_of_forall_exists {α β : Type} (R : α → β → Prop) :
    ∀ l₁ : List α, (∀ a ∈ l₁, ∃ b, R a b) → ∃ l₂, List.Forall₂ R l₁ l₂
  | [], _ => ⟨[], List.Forall₂.nil⟩
  | a :: l₁, h => by
    obtain ⟨b, hb⟩ := h a (List.mem_cons_self _ _)
    obtain ⟨l₂, hl⟩ := forall₂_of_forall_exists R l₁ (fun x hx => h x (List.mem_cons_of_mem _ hx))
    exact ⟨b :: l₂, List.Forall₂.cons hb hl⟩

theorem build_isOk_iff_conds (env : Env) (b : DomainMatcherBuilder) (data : Str)
    (geo : GeoSiteList) (hr : env.ReadFile b.file = some data)
    (hu : env.Unmarshal data = some geo) :
    (∃ m, b.Build env = .ok m) ↔
      ∃ conds, List.Forall₂ (fun s c => parseCondition s validConditionPrefix = some c)
          b.conditions conds ∧
        ∀ c ∈ conds, ∃ ds, expandCondition env geo c = .ok ds ∧
          ∀ d ∈ ds, d.Type_ = Domain_Regex → (env.Compile d.Value).isSome := by
  unfold DomainMatcherBuilder.Build
  cases hc : b.buildConditions with
  | error e =>
    constructor
    · rintro ⟨m, hm⟩
      cases hm
    · rintro ⟨conds, hf, -⟩
      unfold DomainMatcherBuilder.buildConditions at hc
      have := (buildConditionsLoop_ok_iff b.conditions [] conds).mpr ⟨conds, rfl, hf⟩
      rw [hc] at this
      cases this
  | ok conds =>
    have hf : List.Forall₂ (fun s c => parseCondition s validConditionPrefix = some c)
        b.conditions conds := by
      unfold DomainMatcherBuilder.buildConditions at hc
      obtain ⟨cs', rfl, hf⟩ := (buildConditionsLoop_ok_iff _ _ _).mp hc
      exact hf
    simp only [hr, hu]
    have hloop := buildLoop_isOk_iff env geo conds 0 [] []
    constructor
    · rintro ⟨m, hm⟩
      refine ⟨conds, hf, hloop.mp ?_⟩
      cases hl : buildLoop env geo conds 0 [] [] with
      | error e => rw [hl] at hm; cases hm
      | ok r => exact ⟨r, rfl⟩
    · rintro ⟨conds', hf', hok⟩
      have heq : conds' = conds := by
        unfold DomainMatcherBuilder.buildConditions at hc
        have := (buildConditionsLoop_ok_iff b.conditions [] conds').mpr ⟨conds', rfl, hf'⟩
        rw [hc] at this
        cases this
        rfl
      subst heq
      obtain ⟨r, hl⟩ := hloop.mpr hok
      obtain ⟨ms, idx⟩ := r
      rw [hl]
      exact ⟨_, rfl⟩

/-- C12: when the dataset file is read and decoded, `Build` returns a
`DomainMatcher` iff every rule string begins with a recognized prefix, every
`geosite:` payload is accepted by `extractAttr` and names a group of the
dataset, and every regular expression among the expanded records (the payload
of a `regexp:` rule, or a record of type regex of a group) compiles.  Otherwise
`Build` returns an error and no matcher; so does every rule list that holds
`regexp:*baidu.com` when that pattern does not compile. -/
theorem DomainMatcherBuilder.build_isOk_iff (env : Env) (b : DomainMatcherBuilder)
    (data : Str) (geo : GeoSiteList) (hr : env.ReadFile b.file = some data)
    (hu : env.Unmarshal data = some geo) :
    ((∃ m, b.Build env = .ok m) ↔
      (∀ s ∈ b.conditions, ∃ p ∈ validConditionPrefix, (p ++ [':']) <+: s) ∧
      (∀ payload, "geosite".toList ++ ':' :: payload ∈ b.conditions →
        (∃ identifier attr, extractAttr payload = .ok (identifier, attr) ∧
          ∃ e ∈ geo.Entry, e.CountryCode = env.ToUpper identifier) ∧
        ∀ ds, extractDomainList env payload geo = .ok ds →
          ∀ d ∈ ds, d.Type_ = Domain_Regex → (env.Compile d.Value).isSome) ∧
      (∀ payload, "regexp".toList ++ ':' :: payload ∈ b.conditions →
        (env.Compile payload).isSome)) ∧
    ((∃ m, b.Build env = .ok m) ∨ ∃ e, b.Build env = .error e) ∧
    ("regexp:*baidu.com".toList ∈ b.conditions → env.Compile "*baidu.com".toList = none →
      ∃ e, b.Build env = .error e) := by
  have hmain : (∃ m, b.Build env = .ok m) ↔
      (∀ s ∈ b.conditions, ∃ p ∈ validConditionPrefix, (p ++ [':']) <+: s) ∧
      (∀ payload, "geosite".toList ++ ':' :: payload ∈ b.conditions →
        (∃ identifier attr, extractAttr payload = .ok (identifier, attr) ∧
          ∃ e ∈ geo.Entry, e.CountryCode = env.ToUpper identifier) ∧
        ∀ ds, extractDomainList env payload geo = .ok ds →
          ∀ d ∈ ds, d.Type_ = Domain_Regex → (env.Compile d.Value).isSome) ∧
      (∀ payload, "regexp".toList ++ ':' :: payload ∈ b.conditions →
        (env.Compile payload).isSome) := by
    rw [build_isOk_iff_conds env b data geo hr hu]
    constructor
    · rintro ⟨conds, hf, hok⟩
      have hrule : ∀ p ∈ validConditionPrefix, ∀ payload, p ++ ':' :: payload ∈ b.conditions →
          ∃ ds, expandCondition env geo (Condition.mk p payload []) = .ok ds ∧
            ∀ d ∈ ds, d.Type_ = Domain_Regex → (env.Compile d.Value).isSome := by
        intro p hp payload hmem
        obtain ⟨c, hc, hpc⟩ := forall₂_mem_left _ _ _ hf _ hmem
        rw [parseCondition_complete p payload hp] at hpc
        cases hpc
        exact hok _ hc
      refine ⟨fun s hs => ?_, fun payload hmem => ?_, fun payload hmem => ?_⟩
      · obtain ⟨c, -, hpc⟩ := forall₂_mem_left _ _ _ hf _ hs
        obtain ⟨p, hp, payload, rfl, -⟩ := (parseCondition_iff s c).mp hpc
        exact ⟨p, hp, payload, by simp⟩
      · exact ((ruleOk_iff env geo _ payload (by simp [validConditionPrefix])).mp
          (hrule _ (by simp [validConditionPrefix]) payload hmem)).1 rfl
      · exact ((ruleOk_iff env geo _ payload (by simp [validConditionPrefix])).mp
          (hrule _ (by simp [validConditionPrefix]) payload hmem)).2 rfl
    · rintro ⟨hacc, hgeo, hre⟩
      obtain ⟨conds, hf⟩ := forall₂_of_forall_exists
        (fun s c => parseCondition s validConditionPrefix = some c) b.conditions (by
          intro s hs
          cases hp : parseCondition s validConditionPrefix with
          | some c => exact ⟨c, hp⟩
          | none => exact absurd (hacc s hs) ((parseCondition_eq_none_iff s).mp hp))
      refine ⟨conds, hf, fun c hc => ?_⟩
      obtain ⟨s, hs, hpc⟩ := forall₂_mem_right _ _ _ hf c hc
      obtain ⟨p, hp, payload, rfl, rfl⟩ := (parseCondition_iff s c).mp hpc
      rw [ruleOk_iff env geo p payload hp]
      exact ⟨fun h => by subst h; exact hgeo payload hs,
        fun h => by subst h; exact hre payload hs⟩
  refine ⟨hmain, ?_, fun hmem hnone => ?_⟩
  · cases hb : b.Build env with
    | ok m => exact Or.inl ⟨m, rfl⟩
    | error e => exact Or.inr ⟨e, rfl⟩
  · cases hb : b.Build env with
    | error e => exact ⟨e, rfl⟩
    | ok m =>
      exfalso
      have h3 := (hmain.mp ⟨m, hb⟩).2.2 "*baidu.com".toList hmem
      rw [hnone] at h3
      exact Bool.noConfusion h3

/-- Witness of C12: over the sample dataset, where no pattern compiles, the
rules `domain:baidu.com`, `regexp:*baidu.com` fail the build. -/
theorem DomainMatcherBuilder.build_isOk_iff_witness :
    sampleEnv.ReadFile (DomainMatcherBuilder.mk []
        ["domain:baidu.com".toList, "regexp:*baidu.com".toList]).file = some [] ∧
      sampleEnv.Unmarshal [] = some sampleGeo ∧
      (DomainMatcherBuilder.mk [] ["domain:baidu.com".toList,
        "regexp:*baidu.com".toList]).Build sampleEnv =
          .error (.regexpCompile "*baidu.com".toList) ∧
      ∃ e, (DomainMatcherBuilder.mk [] ["domain:baidu.com".toList,
        "regexp:*baidu.com".toList]).Build sampleEnv = .error e :=
  ⟨rfl, rfl, rfl,
    (DomainMatcherBuilder.build_isOk_iff sampleEnv
      ⟨[], ["domain:baidu.com".toList, "regexp:*baidu.com".toList]⟩ [] sampleGeo rfl rfl).2.2
      (by decide) rfl⟩

/-! ### Primitive rules only -/

theorem build_ok_shape (env : Env) (b : DomainMatcherBuilder) (m : DomainMatcher)
    (h : b.Build env = .ok m) :
    ∃ (geo : GeoSiteList) (recs : List (List Domain)),
      List.Forall₂ (fun s c => parseCondition s validConditionPrefix = some c)
        b.conditions m.conditions ∧
      List.Forall₂ (fun c ds => expandCondition env geo c = .ok ds) m.conditions recs ∧
      m = DomainMatcher.mk (specMatchers env recs) (specOwners 0 recs) m.conditions := by
  unfold DomainMatcherBuilder.Build at h
  cases hc : b.buildConditions with
  | error e => rw [hc] at h; cases h
  | ok conds =>
    cases hr : env.ReadFile b.file with
    | none => rw [hc, hr] at h; cases h
    | some data =>
      cases hu : env.Unmarshal data with
      | none => rw [hc, hr] at h; simp only [hu] at h; cases h
      | some geo =>
        cases hl : buildLoop env geo conds 0 [] [] with
        | error e => rw [hc, hr] at h; simp only [hu, hl] at h; cases h
        | ok r =>
          obtain ⟨ms, idx⟩ := r
          rw [hc, hr] at h
          simp only [hu, hl, Except.ok.injEq] at h
          subst h
          obtain ⟨recs, hrecs, hres⟩ := buildLoop_ok env geo conds 0 [] [] _ hl
          simp only [List.nil_append, Prod.mk.injEq] at hres
          obtain ⟨rfl, rfl⟩ := hres
          unfold DomainMatcherBuilder.buildConditions at hc
          obtain ⟨cs', hcs, hf⟩ := (buildConditionsLoop_ok_iff _ _ _).mp hc
          rw [List.nil_append] at hcs
          subst hcs
          exact ⟨geo, recs, hf, hrecs, rfl⟩

theorem isPrimitive_of_parse (s : Str) (c : Condition)
    (hs : ∃ payload, s = "keyword:".toList ++ payload ∨ s = "full:".toList ++ payload ∨
      s = "domain:".toList ++ payload)
    (hp : parseCondition s validConditionPrefix = some c) : IsPrimitive c := by
  obtain ⟨payload, h | h | h⟩ := hs
  · subst h
    have := parseCondition_complete "keyword".toList payload (by simp [validConditionPrefix])
    rw [show "keyword".toList ++ ':' :: payload = "keyword:".toList ++ payload from rfl,
      hp] at this
    cases this
    exact ⟨_, _, rfl, Or.inl rfl⟩
  · subst h
    have := parseCondition_complete "full".toList payload (by simp [validConditionPrefix])
    rw [show "full".toList ++ ':' :: payload = "full:".toList ++ payload from rfl,
      hp] at this
    cases this
    exact ⟨_, _, rfl, Or.inr (Or.inl rfl)⟩
  · subst h
    have := parseCondition_complete "domain".toList payload (by simp [validConditionPrefix])
    rw [show "domain".toList ++ ':' :: payload = "domain:".toList ++ payload from rfl,
      hp] at this
    cases this
    exact ⟨_, _, rfl, Or.inr (Or.inr rfl)⟩

theorem expand_primitive (env : Env) (geo : GeoSiteList) (c : Condition)
    (hc : IsPrimitive c) (ds : List Domain) (h : expandCondition env geo c = .ok ds) :
    ds.filterMap (specMatcherOf env) = [specRuleMatcher c] ∧ ds.length = 1 := by
  obtain ⟨k, payload, rfl, hk | hk | hk⟩ := hc <;> subst hk
  · rw [expandCondition_other env geo _ payload (by decide)] at h
    cases h
    exact ⟨rfl, rfl⟩
  · rw [expandCondition_other env geo _ payload (by decide)] at h
    cases h
    exact ⟨rfl, rfl⟩
  · rw [expandCondition_other env geo _ payload (by decide)] at h
    cases h
    exact ⟨rfl, rfl⟩

theorem specMatchers_primitive (env : Env) (geo : GeoSiteList) :
    ∀ (conds : List Condition) (recs : List (List Domain)) (i : Nat),
      (∀ c ∈ conds, IsPrimitive c) →
      List.Forall₂ (fun c ds => expandCondition env geo c = .ok ds) conds recs →
        specMatchers env recs = conds.map specRuleMatcher ∧
          specOwners (i : Int) recs = (List.range' i conds.length).map Int.ofNat
  | _, _, _, _, List.Forall₂.nil => by simp [specMatchers, specOwners]
  | c :: conds, ds :: recs, i, hp, List.Forall₂.cons h t => by
    have ih := specMatchers_primitive env geo conds recs (i + 1)
      (fun x hx => hp x (List.mem_cons_of_mem _ hx)) t
    obtain ⟨h1, h2⟩ := expand_primitive env geo c (hp c (List.mem_cons_self _ _)) ds h
    unfold specMatchers at ih ⊢
    simp only [List.map_cons, List.flatten_cons, h1, ih.1, specOwners, h2,
      List.length_cons, List.range'_succ, List.replicate_one,
      List.singleton_append, List.cons.injEq, true_and]
    refine ⟨rfl, ?_⟩
    have := ih.2
    rw [Nat.cast_add, Nat.cast_one] at this
    exact this

theorem specHit_primitive (c : Condition) (d : Str) (hc : IsPrimitive c) :
    specHit (specRuleMatcher c) d = if specRuleHolds c d = true then some [c] else none := by
  obtain ⟨k, payload, rfl, hk | hk | hk⟩ := hc <;> subst hk
  · have hm : specRuleMatcher (Condition.mk "keyword".toList payload []) =
        Matcher.ofKeyword payload := rfl
    have hh : specRuleHolds (Condition.mk "keyword".toList payload []) d =
        decide (payload <:+: d) := by
      simp [specRuleHolds, Condition.pfx, Condition.payload]
    rw [hm, hh]
    unfold specHit
    rw [Matcher.Match]
    unfold KeywordMatcher.Match
    simp only []
    by_cases h : Contains d payload = true
    · have h' := (contains_iff_occurs d payload).mp h
      simp [h, h', newCondition]
    · have h' : ¬ payload <:+: d := fun e => h ((contains_iff_occurs d payload).mpr e)
      simp [h, h']
  · have hm : specRuleMatcher (Condition.mk "full".toList payload []) =
        Matcher.ofFull payload := rfl
    have hh : specRuleHolds (Condition.mk "full".toList payload []) d =
        decide (payload = d) := by
      simp [specRuleHolds, Condition.pfx, Condition.payload]
    rw [hm, hh]
    unfold specHit
    rw [Matcher.Match]
    unfold FullMatcher.Match
    simp only []
    by_cases h : payload = d
    · simp [h, newCondition]
    · simp [h]
  · have hm : specRuleMatcher (Condition.mk "domain".toList payload []) =
        Matcher.ofSubDomain payload := rfl
    have hh : specRuleHolds (Condition.mk "domain".toList payload []) d =
        (decide (d = payload) || decide (('.' :: payload) <:+ d)) := by
      simp [specRuleHolds, Condition.pfx, Condition.payload]
    rw [hm, hh]
    unfold specHit
    rw [Matcher.Match]
    have hiff := (subDomain_fires_iff payload d).trans (labelBoundary_iff_dotSuffix payload d)
    by_cases h : SubDomainMatcher.Match payload d = []
    · have h' : ¬ (d = payload ∨ ('.' :: payload) <:+ d) := fun e => hiff.mpr e h
      rw [h]
      simp only [not_or] at h'
      simp [h'.1, h'.2]
    · have h' := hiff.mp h
      rw [SubDomainMatcher.match_eq_of_nonempty payload d h]
      have : (decide (d = payload) || decide (('.' :: payload) <:+ d)) = true := by
        simpa using h'
      rw [this]
      simp [newCondition]

theorem specEmit_primitive (pre cs : List Condition) (c : Condition) (d : Str)
    (hc : IsPrimitive c) :
    specEmit (pre ++ c :: cs) d (specRuleMatcher c, Int.ofNat pre.length) =
      if specRuleHolds c d = true then some (Int.ofNat pre.length, c) else none := by
  have hat : condAt (pre ++ c :: cs) (Int.ofNat pre.length) = some c := by
    unfold condAt
    rw [if_neg (by simp)]
    have : (Int.ofNat pre.length).toNat = pre.length := rfl
    rw [this, List.getElem?_append_right (le_refl _)]
    simp
  have hent : ∀ sub, specEntry c sub = c := by
    intro sub
    obtain ⟨k, payload, rfl, hk | hk | hk⟩ := hc <;> subst hk <;>
      simp [specEntry, Condition.pfx]
  by_cases h : specRuleHolds c d = true
  · rw [if_pos h]
    have hh := specHit_primitive c d hc
    rw [if_pos h] at hh
    rw [specEmit_of_hit _ d _ [c] c hh hat, hent]
  · rw [if_neg h]
    have hh := specHit_primitive c d hc
    rw [if_neg h] at hh
    exact specEmit_of_miss _ d _ hh

theorem filterMap_primitive (d : Str) :
    ∀ (cs pre : List Condition), (∀ c ∈ cs, IsPrimitive c) →
      (((cs.map specRuleMatcher).zip
          ((List.range' pre.length cs.length).map Int.ofNat)).filterMap
        (specEmit (pre ++ cs) d)).map Prod.snd = cs.filter (fun c => specRuleHolds c d)
  | [], _, _ => by simp
  | c :: cs, pre, hp => by
    have ih := filterMap_primitive d cs (pre ++ [c])
      (fun x hx => hp x (List.mem_cons_of_mem _ hx))
    have hlen : (pre ++ [c]).length = pre.length + 1 := by simp
    rw [hlen, List.append_assoc, List.singleton_append] at ih
    rw [List.map_cons, List.length_cons, List.range'_succ, List.map_cons, List.zip_cons_cons,
      List.filterMap_cons, specEmit_primitive pre cs c d (hp c (List.mem_cons_self _ _))]
    by_cases h : specRuleHolds c d = true
    · rw [if_pos h]
      simp only [List.map_cons]
      rw [ih]
      simp [List.filter_cons, h]
    · rw [if_neg h]
      simp only []
      rw [ih]
      simp [List.filter_cons, h]

/-- C14: in a `DomainMatcher` built from rule strings that are all of kind
keyword, full or domain, the templates are the parsed rules (kind, payload, no
children), each rule contributes exactly one matcher, the variant of its kind
holding its payload, owned by the rule's position; and `Match(d)` returns, in
rule order, exactly the parsed rules whose predicate holds on `d` with one
trailing dot removed. -/
theorem DomainMatcherBuilder.build_primitive (env : Env) (b : DomainMatcherBuilder)
    (m : DomainMatcher)
    (hkinds : ∀ s ∈ b.conditions, ∃ payload, s = "keyword:".toList ++ payload ∨
      s = "full:".toList ++ payload ∨ s = "domain:".toList ++ payload)
    (h : b.Build env = .ok m) :
    List.Forall₂ (fun s c => ∃ k payload, s = k ++ ':' :: payload ∧
        c = Condition.mk k payload [] ∧
        (k = "keyword".toList ∨ k = "full".toList ∨ k = "domain".toList))
      b.conditions m.conditions ∧
    m.matchers = m.conditions.map specRuleMatcher ∧
    m.matcherCondIdx = (List.range m.conditions.length).map Int.ofNat ∧
    ∀ d, m.Match d =
      some (m.conditions.filter fun c => specRuleHolds c (specNormalize d)) := by
  obtain ⟨geo, recs, hparse, hexp, hm⟩ := build_ok_shape env b m h
  have hprim : ∀ c ∈ m.conditions, IsPrimitive c := by
    intro c hc
    obtain ⟨s, hs, hp⟩ := forall₂_mem_right _ _ _ hparse c hc
    exact isPrimitive_of_parse s c (hkinds s hs) hp
  obtain ⟨h1, h2⟩ := specMatchers_primitive env geo m.conditions recs 0 hprim hexp
  have hmat : m.matchers = m.conditions.map specRuleMatcher := by
    rw [← h1]
    conv_lhs => rw [hm]
    rfl
  have hidx : m.matcherCondIdx = (List.range m.conditions.length).map Int.ofNat := by
    rw [List.range_eq_range', ← h2]
    conv_lhs => rw [hm]
    rfl
  refine ⟨?_, hmat, hidx, fun d => ?_⟩
  · have hall : ∀ s ∈ b.conditions, ∀ c, parseCondition s validConditionPrefix = some c →
        ∃ k payload, s = k ++ ':' :: payload ∧ c = Condition.mk k payload [] ∧
          (k = "keyword".toList ∨ k = "full".toList ∨ k = "domain".toList) := by
      intro s hs c hp
      obtain ⟨k, payload, rfl, hk⟩ := isPrimitive_of_parse s c (hkinds s hs) hp
      obtain ⟨p, -, payload', rfl, hc⟩ := (parseCondition_iff s _).mp hp
      cases hc
      exact ⟨_, _, rfl, rfl, hk⟩
    revert hall
    generalize b.conditions = rules at hparse
    generalize m.conditions = conds at hparse
    intro hall
    induction hparse with
    | nil => exact List.Forall₂.nil
    | cons hp _ ih =>
      exact List.Forall₂.cons (hall _ (List.mem_cons_self _ _) _ hp)
        (ih (fun s hs c hc => hall s (List.mem_cons_of_mem _ hs) c hc))
  · have hspec := domainMatcher_match_spec m d (by rw [hmat, hidx]; simp)
      (by
        intro j hj
        rw [hidx] at hj
        obtain ⟨n, hn, rfl⟩ := List.mem_map.mp hj
        have := List.mem_range.mp hn
        simp only [Int.ofNat_eq_coe]
        omega)
      (by
        intro mt hmt
        rw [hmat] at hmt
        obtain ⟨c, hc, rfl⟩ := List.mem_map.mp hmt
        have hh := specHit_primitive c (specNormalize d) (hprim c hc)
        unfold specHit at hh
        cases hr : (specRuleMatcher c).Match (specNormalize d) with
        | some r => rfl
        | none =>
          obtain ⟨k, payload, rfl, hk | hk | hk⟩ := hprim c hc <;> subst hk <;>
            simp [specRuleMatcher, Condition.pfx, Matcher.Match] at hr)
    rw [hspec]
    unfold specMatch specMatchIdx specRecords
    rw [hmat, hidx, List.range_eq_range']
    have := filterMap_primitive (specNormalize d) m.conditions [] hprim
    simp only [List.length_nil, List.nil_append] at this
    rw [this]

/-- Witness of C14: the rules `keyword:video`, `domain:baidu.com` and
`full:www.baidu.com`, and the query `www.baidu.com.`. -/
theorem DomainMatcherBuilder.build_primitive_witness :
    (DomainMatcherBuilder.mk [] ["keyword:video".toList, "domain:baidu.com".toList,
        "full:www.baidu.com".toList]).Build sampleEnv =
      .ok (DomainMatcher.mk
        [Matcher.ofKeyword "video".toList, Matcher.ofSubDomain "baidu.com".toList,
          Matcher.ofFull "www.baidu.com".toList]
        [0, 1, 2]
        [newCondition "keyword".toList "video".toList,
          newCondition "domain".toList "baidu.com".toList,
          newCondition "full".toList "www.baidu.com".toList]) ∧
    (DomainMatcher.mk
        [Matcher.ofKeyword "video".toList, Matcher.ofSubDomain "baidu.com".toList,
          Matcher.ofFull "www.baidu.com".toList]
        [0, 1, 2]
        [newCondition "keyword".toList "video".toList,
          newCondition "domain".toList "baidu.com".toList,
          newCondition "full".toList "www.baidu.com".toList]).Match "www.baidu.com.".toList =
      some ([newCondition "keyword".toList "video".toList,
          newCondition "domain".toList "baidu.com".toList,
          newCondition "full".toList "www.baidu.com".toList].filter
        fun c => specRuleHolds c (specNormalize "www.baidu.com.".toList)) ∧
    ([newCondition "keyword".toList "video".toList,
          newCondition "domain".toList "baidu.com".toList,
          newCondition "full".toList "www.baidu.com".toList].filter
        fun c => specRuleHolds c (specNormalize "www.baidu.com.".toList)) =
      [newCondition "domain".toList "baidu.com".toList,
        newCondition "full".toList "www.baidu.com".toList] :=
  ⟨rfl,
    (DomainMatcherBuilder.build_primitive sampleEnv
      ⟨[], ["keyword:video".toList, "domain:baidu.com".toList, "full:www.baidu.com".toList]⟩
      _
      (by
        intro s hs
        simp only [List.mem_cons, List.mem_singleton, List.not_mem_nil, or_false] at hs
        rcases hs with rfl | rfl | rfl
        · exact ⟨"video".toList, Or.inl rfl⟩
        · exact ⟨"baidu.com".toList, Or.inr (Or.inr rfl)⟩
        · exact ⟨"www.baidu.com".toList, Or.inr (Or.inl rfl)⟩)
      rfl).2.2.2 "www.baidu.com.".toList,
    rfl⟩

/-! ### The parallel lists of a built matcher -/

/-- C13, at the failing input: over a dataset whose group `X` holds a record of
type number `4` before a record of type `Domain`, the rules `geosite:x`,
`full:b` build a matcher with two matchers and three owning indices; the
matcher of the rule `full:b` is then owned by index `0`, and the query `b` is
explained as `geosite:x/full:b`. -/
theorem build_open_enum_lengths :
    (DomainMatcherBuilder.mk [] ["geosite:x".toList, "full:b".toList]).Build openEnumEnv =
      .ok (DomainMatcher.mk
        [Matcher.ofSubDomain "a.com".toList, Matcher.ofFull "b".toList]
        [0, 0, 1]
        [newCondition "geosite".toList "x".toList, newCondition "full".toList "b".toList]) ∧
    (DomainMatcher.mk
        [Matcher.ofSubDomain "a.com".toList, Matcher.ofFull "b".toList]
        [0, 0, 1]
        [newCondition "geosite".toList "x".toList,
          newCondition "full".toList "b".toList]).matchers.length = 2 ∧
    (DomainMatcher.mk
        [Matcher.ofSubDomain "a.com".toList, Matcher.ofFull "b".toList]
        [0, 0, 1]
        [newCondition "geosite".toList "x".toList,
          newCondition "full".toList "b".toList]).matcherCondIdx.length = 3 ∧
    (DomainMatcher.mk
        [Matcher.ofSubDomain "a.com".toList, Matcher.ofFull "b".toList]
        [0, 0, 1]
        [newCondition "geosite".toList "x".toList,
          newCondition "full".toList "b".toList]).Match "b".toList =
      some [Condition.mk "geosite".toList "x".toList [newCondition "full".toList "b".toList]] :=
  ⟨rfl, rfl, rfl, rfl⟩

/-! ### The children of templates and of result entries -/

theorem match_spec_of_shape (env : Env) (geo : GeoSiteList) (conds : List Condition)
    (recs : List (List Domain))
    (hexp : List.Forall₂ (fun c ds => expandCondition env geo c = .ok ds) conds recs)
    (d : Str) :
    (DomainMatcher.mk (specMatchers env recs) (specOwners 0 recs) conds).Match d =
      some (specMatch (DomainMatcher.mk (specMatchers env recs) (specOwners 0 recs) conds) d) := by
  have hlen : conds.length = recs.length := forall₂_length_eq _ _ _ hexp
  apply domainMatcher_match_spec
  · exact specOwners_length env recs 0
  · intro j hj
    have := specOwners_bounds recs 0 j hj
    simp only [DomainMatcher.conditions]
    omega
  · exact specMatchers_match_isSome env _ recs

theorem leaf_result (env : Env) (dom : Domain) (mt : Matcher) (d : Str)
    (sub : List Condition) (h : specMatcherOf env dom = some mt)
    (hm : mt.Match d = some sub) :
    sub = [] ∨ ∃ k, sub = [Condition.mk k dom.Value []] ∧
      k ∈ ["keyword".toList, "full".toList, "domain".toList, "regexp".toList] := by
  unfold specMatcherOf at h
  split at h
  · cases h
    rw [Matcher.Match] at hm
    cases hm
    unfold KeywordMatcher.Match
    simp only []
    split
    · exact Or.inr ⟨_, rfl, by simp⟩
    · exact Or.inl rfl
  · split at h
    · cases h
      rw [Matcher.Match] at hm
      cases hm
      unfold FullMatcher.Match
      simp only []
      split
      · exact Or.inr ⟨_, rfl, by simp⟩
      · exact Or.inl rfl
    · split at h
      · cases h
        rw [Matcher.Match] at hm
        cases hm
        by_cases he : SubDomainMatcher.Match dom.Value d = []
        · exact Or.inl he
        · rw [SubDomainMatcher.match_eq_of_nonempty _ _ he]
          exact Or.inr ⟨_, rfl, by simp⟩
      · split at h
        · cases hc : env.Compile dom.Value with
          | none => rw [hc] at h; cases h
          | some f =>
            rw [hc] at h
            cases h
            rw [Matcher.Match] at hm
            cases hm
            unfold RegexMatcher.Match
            split
            · exact Or.inr ⟨_, rfl, by simp⟩
            · exact Or.inl rfl
        · cases h

theorem mem_specMatchers (env : Env) (recs : List (List Domain)) (mt : Matcher)
    (h : mt ∈ specMatchers env recs) :
    ∃ dom ∈ recs.flatten, specMatcherOf env dom = some mt := by
  unfold specMatchers at h
  obtain ⟨l, hl, hm⟩ := List.mem_flatten.mp h
  obtain ⟨ds, hds, rfl⟩ := List.mem_map.mp hl
  obtain ⟨dom, hdom, hs⟩ := List.mem_filterMap.mp hm
  exact ⟨dom, List.mem_flatten.mpr ⟨ds, hds, hdom⟩, hs⟩

theorem condAt_mem (conds : List Condition) (j : Int) (t : Condition)
    (h : condAt conds j = some t) : t ∈ conds := by
  unfold condAt at h
  split at h
  · cases h
  · exact List.getElem?_mem h

theorem mem_specMatch (m : DomainMatcher) (d : Str) (e : Condition)
    (h : e ∈ specMatch m d) :
    ∃ mt ∈ m.matchers, ∃ sub t, specHit mt (specNormalize d) = some sub ∧
      t ∈ m.conditions ∧ e = specEntry t sub := by
  unfold specMatch specMatchIdx at h
  obtain ⟨p, hp, rfl⟩ := List.mem_map.mp h
  obtain ⟨r, hr, he⟩ := List.mem_filterMap.mp hp
  unfold specEmit at he
  cases hh : specHit r.1 (specNormalize d) with
  | none => rw [hh] at he; cases he
  | some sub =>
    cases hc : condAt m.conditions r.2 with
    | none => rw [hh, hc] at he; cases he
    | some t =>
      rw [hh, hc] at he
      cases he
      exact ⟨r.1, (List.of_mem_zip hr).1, sub, t, hh, condAt_mem _ _ _ hc, rfl⟩

theorem specHit_some (mt : Matcher) (d : Str) (sub : List Condition)
    (h : specHit mt d = some sub) : mt.Match d = some sub ∧ sub ≠ [] := by
  unfold specHit at h
  split at h
  · cases h
    rename_i hm
    exact ⟨hm, by simp⟩
  · cases h

/-- C19: in a `DomainMatcher` produced by a successful `Build`, every template
has no children; and for every query, every result entry whose prefix is not
`geosite` has no children, while every result entry with prefix `geosite` has
exactly one child, a childless condition of kind keyword, full, domain or
regexp whose payload is the value of the expanded record whose matcher fired. -/
theorem DomainMatcherBuilder.build_children (env : Env) (b : DomainMatcherBuilder)
    (m : DomainMatcher) (h : b.Build env = .ok m) :
    ∃ (geo : GeoSiteList) (recs : List (List Domain)),
      List.Forall₂ (fun c ds => expandCondition env geo c = .ok ds) m.conditions recs ∧
      (∀ t ∈ m.conditions, t.children = []) ∧
      ∀ d, ∃ r, m.Match d = some r ∧ ∀ e ∈ r,
        (e.pfx ≠ "geosite".toList → e.children = []) ∧
        (e.pfx = "geosite".toList →
          ∃ child dom mt, e.children = [child] ∧ child.children = [] ∧
            child.pfx ∈ ["keyword".toList, "full".toList, "domain".toList,
              "regexp".toList] ∧
            dom ∈ recs.flatten ∧ specMatcherOf env dom = some mt ∧ mt ∈ m.matchers ∧
            mt.Match (specNormalize d) = some [child] ∧ child.payload = dom.Value) := by
  obtain ⟨geo, recs, hparse, hexp, hm⟩ := build_ok_shape env b m h
  have htmpl : ∀ t ∈ m.conditions, t.children = [] := by
    intro t ht
    obtain ⟨s, -, hp⟩ := forall₂_mem_right _ _ _ hparse t ht
    obtain ⟨p, -, payload, -, rfl⟩ := (parseCondition_iff s t).mp hp
    rfl
  refine ⟨geo, recs, hexp, htmpl, fun d => ?_⟩
  have hmatch : m.Match d = some (specMatch m d) := by
    rw [hm]
    exact match_spec_of_shape env geo _ recs hexp d
  have hms : m.matchers = specMatchers env recs := by
    conv_lhs => rw [hm]
    rfl
  refine ⟨_, hmatch, fun e he => ?_⟩
  obtain ⟨mt, hmt, sub, t, hhit, ht, rfl⟩ := mem_specMatch m d e he
  have hch := htmpl t ht
  obtain ⟨hmm, hne⟩ := specHit_some mt _ sub hhit
  rw [hms] at hmt
  obtain ⟨dom, hdom, hspec⟩ := mem_specMatchers env recs mt hmt
  rcases leaf_result env dom mt _ sub hspec hmm with hnil | ⟨k, hk, hkind⟩
  · exact absurd hnil hne
  · subst hk
    by_cases hg : t.pfx = "geosite".toList
    · have hent : specEntry t [Condition.mk k dom.Value []] =
          Condition.mk t.pfx t.payload [Condition.mk k dom.Value []] := by
        unfold specEntry
        rw [if_pos hg, hch, List.nil_append]
      rw [hent]
      refine ⟨fun hn => absurd hg hn, fun _ => ?_⟩
      exact ⟨_, dom, mt, rfl, rfl, hkind, hdom, hspec, by rw [hms]; exact hmt, hmm, rfl⟩
    · have hent : specEntry t [Condition.mk k dom.Value []] = t := by
        unfold specEntry
        rw [if_neg hg]
      rw [hent]
      exact ⟨fun _ => hch, fun hn => absurd hn hg⟩

/-- Witness of C19: the rules `geosite:google` and `full:x` over the sample
dataset, and the entries of the query `www.google.com`. -/
theorem DomainMatcherBuilder.build_children_witness :
    (DomainMatcherBuilder.mk [] ["geosite:google".toList, "full:x".toList]).Build sampleEnv =
        .ok sampleMatcher ∧
      sampleMatcher.Match "www.google.com".toList =
        some [Condition.mk "geosite".toList "google".toList
            [newCondition "domain".toList "google.com".toList],
          Condition.mk "geosite".toList "google".toList
            [newCondition "full".toList "www.google.com".toList],
          Condition.mk "geosite".toList "google".toList
            [newCondition "keyword".toList "goog".toList]] ∧
      ∃ (geo : GeoSiteList) (recs : List (List Domain)),
        List.Forall₂ (fun c ds => expandCondition sampleEnv geo c = .ok ds)
          sampleMatcher.conditions recs ∧
        (∀ t ∈ sampleMatcher.conditions, t.children = []) ∧
        ∀ d, ∃ r, sampleMatcher.Match d = some r ∧ ∀ e ∈ r,
          (e.pfx ≠ "geosite".toList → e.children = []) ∧
          (e.pfx = "geosite".toList →
            ∃ child dom mt, e.children = [child] ∧ child.children = [] ∧
              child.pfx ∈ ["keyword".toList, "full".toList, "domain".toList,
                "regexp".toList] ∧
              dom ∈ recs.flatten ∧ specMatcherOf sampleEnv dom = some mt ∧
              mt ∈ sampleMatcher.matchers ∧
              mt.Match (specNormalize d) = some [child] ∧ child.payload = dom.Value) :=
  ⟨rfl, rfl,
    DomainMatcherBuilder.build_children sampleEnv
      ⟨[], ["geosite:google".toList, "full:x".toList]⟩ sampleMatcher rfl⟩

/-! ### The memory model: slices and `append` -/

theorem cells_of_len_zero (h : Mem) (s : CondSlice) (hs : s.len = 0) : h.cells s = [] := by
  unfold Mem.cells
  rw [hs, List.take_zero]

theorem array_of_extends (h h' : Mem) (a : Nat) (hp : h <+: h') (ha : a < h.length) :
    h'[a]? = h[a]? := by
  obtain ⟨t, rfl⟩ := hp
  exact List.getElem?_append_left ha

theorem cells_of_extends (h h' : Mem) (s : CondSlice) (hp : h <+: h') (hs : h.Holds s) :
    h'.cells s = h.cells s := by
  rcases hs with hz | ⟨a, ha, hlt⟩
  · rw [cells_of_len_zero h' s hz, cells_of_len_zero h s hz]
  · unfold Mem.cells Mem.array
    rw [ha]
    simp only []
    rw [array_of_extends h h' a hp hlt]

theorem holds_of_extends (h h' : Mem) (s : CondSlice) (hp : h <+: h') (hs : h.Holds s) :
    h'.Holds s := by
  rcases hs with hz | ⟨a, ha, hlt⟩
  · exact Or.inl hz
  · exact Or.inr ⟨a, ha, lt_of_lt_of_le hlt hp.length_le⟩

theorem read_childless (h : Mem) (c : CondCell) (hc : c.children.len = 0) :
    ∀ n, Mem.read n h c = Condition.mk c.pfx c.payload []
  | 0 => rfl
  | n + 1 => by
    rw [Mem.read, cells_of_len_zero h _ hc]
    rfl

theorem read_succ_eq_one (h : Mem) (e : CondCell)
    (hc : ∀ c ∈ h.cells e.children, c.children.len = 0) (n : Nat) :
    Mem.read (n + 1) h e = Mem.read 1 h e := by
  rw [Mem.read, Mem.read]
  congr 1
  apply List.map_congr_left
  intro c hcm
  rw [read_childless h c (hc c hcm) n, read_childless h c (hc c hcm) 0]

theorem read_one_of_extends (h h' : Mem) (e : CondCell) (hp : h <+: h')
    (hs : h.Holds e.children) : Mem.read 1 h' e = Mem.read 1 h e := by
  rw [Mem.read, Mem.read, cells_of_extends h h' _ hp hs]
  rfl

theorem goAppend_alloc (grow : Nat → Nat → Nat) (h : Mem) (s : CondSlice)
    (xs : List CondCell) (hlt : s.cap < s.len + xs.length) :
    goAppend grow h s xs =
      (⟨some h.length, s.len + xs.length,
          s.len + xs.length + grow s.cap (s.len + xs.length)⟩,
        h ++ [h.cells s ++ xs ++
          List.replicate (grow s.cap (s.len + xs.length)) zeroCell]) := by
  unfold goAppend
  rw [if_neg (by omega)]

theorem goAppend_inplace (grow : Nat → Nat → Nat) (h : Mem) (s : CondSlice)
    (xs : List CondCell) (a : Nat) (ha : s.arr = some a)
    (hle : s.len + xs.length ≤ s.cap) :
    goAppend grow h s xs =
      (⟨some a, s.len + xs.length, s.cap⟩,
        h.set a ((h.array s).take s.len ++ xs ++ (h.array s).drop (s.len + xs.length))) := by
  unfold goAppend
  rw [if_pos hle, ha]

theorem cells_new_array (h : Mem) (arr : List CondCell) (n cap : Nat) :
    (h ++ [arr]).cells ⟨some h.length, n, cap⟩ = arr.take n := by
  unfold Mem.cells Mem.array
  simp

theorem allocResult_nil (grow : Nat → Nat → Nat) (h : Mem) :
    allocResult grow h [] = (nilSlice, h) := by
  unfold allocResult goAppend
  simp [nilSlice]

theorem allocResult_one (grow : Nat → Nat → Nat) (h : Mem) (c : Condition) :
    ∃ cap arr, allocResult grow h [c] = (⟨some h.length, 1, cap⟩, h ++ [arr]) ∧
      (h ++ [arr]).cells ⟨some h.length, 1, cap⟩ = [leafCell c] := by
  unfold allocResult
  rw [goAppend_alloc grow h nilSlice _ (by simp [nilSlice])]
  refine ⟨_, _, rfl, ?_⟩
  rw [cells_new_array]
  simp [nilSlice, cells_of_len_zero]

theorem leaf_sim (grow : Nat → Nat → Nat) (mh : MatcherM) (mp : Matcher) (d : Str) (h : Mem)
    (hl : leafPure mh = some mp) :
    ∃ r, mp.Match d = some r ∧ mh.Match grow d h = some (allocResult grow h r) ∧
      (r = [] ∨ ∃ k v, r = [Condition.mk k v []]) := by
  cases mh with
  | ofDomain m => cases hl
  | ofFull m =>
    cases hl
    refine ⟨FullMatcher.Match m d, by rw [Matcher.Match], by rw [MatcherM.Match], ?_⟩
    unfold FullMatcher.Match
    simp only []
    split
    · exact Or.inr ⟨_, _, rfl⟩
    · exact Or.inl rfl
  | ofSubDomain m =>
    cases hl
    refine ⟨SubDomainMatcher.Match m d, by rw [Matcher.Match], by rw [MatcherM.Match], ?_⟩
    by_cases he : SubDomainMatcher.Match m d = []
    · exact Or.inl he
    · exact Or.inr ⟨_, _, SubDomainMatcher.match_eq_of_nonempty m d he⟩
  | ofRegex m =>
    cases hl
    refine ⟨RegexMatcher.Match m d, by rw [Matcher.Match], by rw [MatcherM.Match], ?_⟩
    unfold RegexMatcher.Match
    split
    · exact Or.inr ⟨_, _, rfl⟩
    · exact Or.inl rfl
  | ofKeyword m =>
    cases hl
    refine ⟨KeywordMatcher.Match m d, by rw [Matcher.Match], by rw [MatcherM.Match], ?_⟩
    unfold KeywordMatcher.Match
    simp only []
    split
    · exact Or.inr ⟨_, _, rfl⟩
    · exact Or.inl rfl

theorem cells_set_ne (h : Mem) (s : CondSlice) (A : Nat) (x : List CondCell)
    (hs : s.arr ≠ some A) : Mem.cells (h.set A x) s = h.cells s := by
  unfold Mem.cells Mem.array
  cases ha : s.arr with
  | none => rfl
  | some B =>
    have hne : A ≠ B := fun e => hs (by rw [ha, e])
    simp only []
    rw [List.getElem?_set_ne hne]

theorem cells_set_self (h : Mem) (A n cap : Nat) (x : List CondCell) (hA : A < h.length) :
    Mem.cells (h.set A x) ⟨some A, n, cap⟩ = x.take n := by
  unfold Mem.cells Mem.array
  simp only []
  rw [List.getElem?_set_self hA]
  rfl

theorem holds_of_accOk (h0 h : Mem) (acc : CondSlice) (hok : AccOk h0 h acc) :
    h.Holds acc := by
  obtain ⟨hlen, -, harr, -⟩ := hok
  cases ha : acc.arr with
  | none =>
    left
    unfold Mem.cells Mem.array at hlen
    rw [ha] at hlen
    simpa using hlen.symm
  | some A => exact Or.inr ⟨A, ha, (harr A ha).2⟩

theorem entry_holds (h : Mem) (acc : CondSlice) (e : CondCell)
    (he : e.children.len = 0 ∨
      ∃ B, e.children.arr = some B ∧ B < h.length ∧ acc.arr ≠ some B) :
    h.Holds e.children := by
  rcases he with hz | ⟨B, hB, hlt, -⟩
  · exact Or.inl hz
  · exact Or.inr ⟨B, hB, hlt⟩

theorem loopInv_mono (h0 h h2 : Mem) (acc : CondSlice) (accP : List Condition)
    (hinv : LoopInv h0 h acc accP) (hp : h <+: h2) : LoopInv h0 h2 acc accP := by
  obtain ⟨hpre, hok, hread⟩ := hinv
  have hacc := holds_of_accOk h0 h acc hok
  have hcells := cells_of_extends h h2 acc hp hacc
  obtain ⟨hlen, hnil, harr, hent⟩ := hok
  refine ⟨hpre.trans hp, ⟨?_, hnil, ?_, ?_⟩, ?_⟩
  · rw [hcells]; exact hlen
  · intro A hA
    exact ⟨(harr A hA).1, lt_of_lt_of_le (harr A hA).2 hp.length_le⟩
  · intro e he
    rw [hcells] at he
    obtain ⟨h1, h2'⟩ := hent e he
    have hh := entry_holds h acc e h1
    refine ⟨?_, ?_⟩
    · rcases h1 with hz | ⟨B, hB, hlt, hne⟩
      · exact Or.inl hz
      · exact Or.inr ⟨B, hB, lt_of_lt_of_le hlt hp.length_le, hne⟩
    · rw [cells_of_extends h h2 _ hp hh]
      exact h2'
  · rw [hcells, ← hread]
    apply List.map_congr_left
    intro e he
    exact read_one_of_extends h h2 e hp (entry_holds h acc e (hent e he).1)

theorem loopInv_append (grow : Nat → Nat → Nat) (h0 h : Mem) (acc : CondSlice)
    (accP : List Condition) (e : CondCell) (hinv : LoopInv h0 h acc accP)
    (he : e.children.len = 0 ∨
      ∃ B, e.children.arr = some B ∧ B < h.length ∧ acc.arr ≠ some B)
    (hc : ∀ c ∈ h.cells e.children, c.children.len = 0) :
    LoopInv h0 (goAppend grow h acc [e]).2 (goAppend grow h acc [e]).1
      (accP ++ [Mem.read 1 h e]) := by
  obtain ⟨hpre, hok, hread⟩ := hinv
  obtain ⟨hlen, hnil, harr, hent⟩ := hok
  have hall : ∀ x ∈ h.cells acc ++ [e],
      (x.children.len = 0 ∨
        ∃ B, x.children.arr = some B ∧ B < h.length ∧ acc.arr ≠ some B) ∧
      ∀ c ∈ h.cells x.children, c.children.len = 0 := by
    intro x hx
    rcases List.mem_append.mp hx with hx | hx
    · exact hent x hx
    · rw [List.mem_singleton] at hx
      subst hx
      exact ⟨he, hc⟩
  by_cases hcap : acc.len + [e].length ≤ acc.cap
  · -- the write is in place
    cases ha : acc.arr with
    | none =>
      have := hnil ha
      simp only [List.length_singleton] at hcap
      omega
    | some A =>
      obtain ⟨hA0, hA⟩ := harr A ha
      rw [goAppend_inplace grow h acc [e] A ha hcap]
      simp only []
      have harray : (h.array acc).take acc.len = h.cells acc := rfl
      rw [harray]
      have hnew : Mem.cells (h.set A (h.cells acc ++ [e] ++
            (h.array acc).drop (acc.len + [e].length)))
          ⟨some A, acc.len + [e].length, acc.cap⟩ = h.cells acc ++ [e] := by
        rw [cells_set_self h A _ _ _ hA]
        apply List.take_left'
        simp [hlen]
      have hother : ∀ x ∈ h.cells acc ++ [e],
          Mem.cells (h.set A (h.cells acc ++ [e] ++
            (h.array acc).drop (acc.len + [e].length))) x.children =
            h.cells x.children := by
        intro x hx
        rcases (hall x hx).1 with hz | ⟨B, hB, -, hne⟩
        · rw [cells_of_len_zero _ _ hz, cells_of_len_zero _ _ hz]
        · apply cells_set_ne
          rw [hB]
          intro e'
          exact hne (by rw [ha]; exact e'.symm)
      refine ⟨?_, ⟨?_, ?_, ?_, ?_⟩, ?_⟩
      · obtain ⟨t, rfl⟩ := hpre
        rw [List.set_append_right _ _ hA0]
        exact List.prefix_append _ _
      · rw [hnew]; simp [hlen]
      · intro hn; cases hn
      · intro A' hA'
        cases hA'
        exact ⟨hA0, by rw [List.length_set]; exact hA⟩
      · intro x hx
        rw [hnew] at hx
        refine ⟨?_, ?_⟩
        · rcases (hall x hx).1 with hz | ⟨B, hB, hlt, hne⟩
          · exact Or.inl hz
          · exact Or.inr ⟨B, hB, by rw [List.length_set]; exact hlt, by rw [← ha]; exact hne⟩
        · rw [hother x hx]
          exact (hall x hx).2
      · rw [hnew, List.map_append, List.map_singleton, ← hread]
        congr 1
        · apply List.map_congr_left
          intro x hx
          rw [Mem.read, Mem.read, hother x (List.mem_append_left _ hx)]
          rfl
        · rw [Mem.read, Mem.read, hother e (List.mem_append_right _ (List.mem_singleton_self _))]
          rfl
  · -- a new array is allocated
    rw [goAppend_alloc grow h acc [e] (by omega)]
    simp only []
    have hpx : h <+: h ++ [h.cells acc ++ [e] ++
        List.replicate (grow acc.cap (acc.len + [e].length)) zeroCell] :=
      List.prefix_append _ _
    have hnew : (h ++ [h.cells acc ++ [e] ++
          List.replicate (grow acc.cap (acc.len + [e].length)) zeroCell]).cells
        ⟨some h.length, acc.len + [e].length,
          acc.len + [e].length + grow acc.cap (acc.len + [e].length)⟩ =
        h.cells acc ++ [e] := by
      rw [cells_new_array]
      apply List.take_left'
      simp [hlen]
    have hother : ∀ x ∈ h.cells acc ++ [e],
        (h ++ [h.cells acc ++ [e] ++
          List.replicate (grow acc.cap (acc.len + [e].length)) zeroCell]).cells x.children =
          h.cells x.children := by
      intro x hx
      exact cells_of_extends h _ _ hpx (entry_holds h acc x (hall x hx).1)
    refine ⟨hpre.trans hpx, ⟨?_, ?_, ?_, ?_⟩, ?_⟩
    · rw [hnew]; simp [hlen]
    · intro hn; cases hn
    · intro A' hA'
      cases hA'
      exact ⟨hpre.length_le, by simp⟩
    · intro x hx
      rw [hnew] at hx
      refine ⟨?_, ?_⟩
      · rcases (hall x hx).1 with hz | ⟨B, hB, hlt, -⟩
        · exact Or.inl hz
        · refine Or.inr ⟨B, hB, by simp; omega, ?_⟩
          intro e'
          cases e'
          exact absurd hlt (lt_irrefl _)
      · rw [hother x hx]
        exact (hall x hx).2
    · rw [hnew, List.map_append, List.map_singleton, ← hread]
      congr 1
      · apply List.map_congr_left
        intro x hx
        rw [Mem.read, Mem.read, hother x (List.mem_append_left _ hx)]
        rfl
      · rw [Mem.read, Mem.read, hother e (List.mem_append_right _ (List.mem_singleton_self _))]
        rfl

theorem condAt_map_read (T : List CondCell) (h0 : Mem) (j : Int) :
    condAt (T.map (Mem.read 0 h0)) j =
      (if j < 0 then none else T[j.toNat]?).map (Mem.read 0 h0) := by
  unfold condAt
  by_cases hj : j < 0
  · rw [if_pos hj, if_pos hj]; rfl
  · rw [if_neg hj, if_neg hj, List.getElem?_map]

theorem matchLoopM_sim (grow : Nat → Nat → Nat) (h0 : Mem) (conds : CondSlice)
    (idx : List Int) (d : Str) (hvalid : h0.Holds conds)
    (htmpl : ∀ t ∈ h0.cells conds, t.children.len = 0 ∧ t.children.cap = 0) :
    ∀ (restM : List MatcherM) (restP : List Matcher),
      List.Forall₂ (fun mh mp => leafPure mh = some mp) restM restP →
      ∀ (i : Nat) (acc : CondSlice) (accP : List Condition) (h : Mem) (r : List Condition),
        LoopInv h0 h acc accP →
        DomainMatcher.matchLoop restP idx ((h0.cells conds).map (Mem.read 0 h0)) d i accP =
          some r →
        ∃ res h', DomainMatcherM.matchLoop grow restM idx conds d i acc h = some (res, h') ∧
          LoopInv h0 h' res r
  | _, _, List.Forall₂.nil, i, acc, accP, h, r, hinv, hp => by
    rw [DomainMatcher.matchLoop] at hp
    cases hp
    exact ⟨acc, h, by rw [DomainMatcherM.matchLoop], hinv⟩
  | mh :: restM, mp :: restP, List.Forall₂.cons hl hrest, i, acc, accP, h, r, hinv, hp => by
    obtain ⟨r0, hr0, hm0, hshape⟩ := leaf_sim grow mh mp d h hl
    rw [DomainMatcher.matchLoop, hr0] at hp
    rw [DomainMatcherM.matchLoop, hm0]
    simp only [] at hp ⊢
    rcases hshape with rfl | ⟨k, v, rfl⟩
    · -- the matcher does not fire
      rw [allocResult_nil]
      simp only [List.isEmpty_nil, not_true_eq_false, if_false] at hp
      simp only [nilSlice, Option.isSome_none, Bool.false_eq_true, if_false]
      exact matchLoopM_sim grow h0 conds idx d hvalid htmpl restM restP hrest (i + 1) acc accP
        h r hinv hp
    · -- the matcher fires
      obtain ⟨cap, arr, halloc, hcells⟩ := allocResult_one grow h (Condition.mk k v [])
      rw [halloc]
      simp only [List.isEmpty_cons, Bool.false_eq_true, not_false_eq_true, if_true] at hp
      simp only [Option.isSome_some, if_true]
      have hp1 : h <+: h ++ [arr] := List.prefix_append _ _
      have hp01 : h0 <+: h ++ [arr] := hinv.1.trans hp1
      have hT : (h ++ [arr]).cells conds = h0.cells conds :=
        cells_of_extends h0 _ conds hp01 hvalid
      cases hi : idx[i]? with
      | none => rw [hi] at hp; cases hp
      | some j =>
        rw [hi] at hp
        simp only [] at hp ⊢
        rw [condAt_map_read] at hp
        unfold cellAt
        rw [hT]
        cases ht : (if j < 0 then none else (h0.cells conds)[j.toNat]?) with
        | none => rw [ht] at hp; cases hp
        | some t =>
          rw [ht] at hp
          simp only [Option.map_some'] at hp
          have htm : t ∈ h0.cells conds := by
            split at ht
            · cases ht
            · exact List.getElem?_mem ht
          obtain ⟨htl, htc⟩ := htmpl t htm
          have hinv1 := loopInv_mono h0 h (h ++ [arr]) acc accP hinv hp1
          have haccA : ∀ A, acc.arr = some A → A < h.length := fun A hA =>
            (hinv.2.1.2.2.1 A hA).2
          by_cases hg : t.pfx = "geosite".toList
          · -- a group template: the children are appended to a copy of it
            have hgp : (Mem.read 0 h0 t).pfx = "geosite".toList := hg
            rw [if_pos hgp] at hp
            simp only [if_pos hg]
            rw [hcells]
            rw [goAppend_alloc grow (h ++ [arr]) t.children [leafCell (Condition.mk k v [])]
              (by rw [htl, htc]; simp)]
            simp only []
            rw [cells_of_len_zero _ _ htl, List.nil_append]
            simp only [htl, Nat.zero_add, List.length_singleton]
            generalize grow t.children.cap 1 = g
            have hp2 : h <+: h ++ [arr] ++
                [[leafCell (Condition.mk k v [])] ++ List.replicate g zeroCell] :=
              (List.prefix_append h [arr]).trans (List.prefix_append _ _)
            have hinv2 := loopInv_mono h0 h _ acc accP hinv hp2
            have hch : Mem.cells (h ++ [arr] ++
                [[leafCell (Condition.mk k v [])] ++ List.replicate g zeroCell])
                ⟨some (h ++ [arr]).length, 1, 1 + g⟩ = [leafCell (Condition.mk k v [])] := by
              rw [cells_new_array]
              rfl
            have happ := loopInv_append grow h0 _ acc accP
              ⟨t.pfx, t.payload, ⟨some (h ++ [arr]).length, 1, 1 + g⟩⟩ hinv2
              (Or.inr ⟨(h ++ [arr]).length, rfl, by simp, by
                intro hA
                have := haccA _ hA
                simp at this⟩)
              (by
                intro c hc
                simp only [hch, List.mem_singleton] at hc
                subst hc
                rfl)
            have hread : Mem.read 1 (h ++ [arr] ++
                [[leafCell (Condition.mk k v [])] ++ List.replicate g zeroCell])
                ⟨t.pfx, t.payload, ⟨some (h ++ [arr]).length, 1, 1 + g⟩⟩ =
                (Mem.read 0 h0 t).addChildren [Condition.mk k v []] := by
              rw [Mem.read]
              show Condition.mk t.pfx t.payload
                ((Mem.cells _ ⟨some (h ++ [arr]).length, 1, 1 + g⟩).map (Mem.read 0 _)) = _
              rw [hch]
              rfl
            rw [hread] at happ
            exact matchLoopM_sim grow h0 conds idx d hvalid htmpl restM restP hrest (i + 1) _ _
              _ r happ hp
          · -- any other template is used as it is
            have hgp : ¬ (Mem.read 0 h0 t).pfx = "geosite".toList := hg
            rw [if_neg hgp] at hp
            simp only [if_neg hg]
            have hinv2 := loopInv_append grow h0 (h ++ [arr]) acc accP t hinv1 (Or.inl htl)
              (by rw [cells_of_len_zero _ _ htl]; intro c hc; cases hc)
            have hread : Mem.read 1 (h ++ [arr]) t = Mem.read 0 h0 t := by
              rw [read_childless _ t htl 1, read_childless _ t htl 0]
            rw [hread] at hinv2
            exact matchLoopM_sim grow h0 conds idx d hvalid htmpl restM restP hrest (i + 1) _ _
              _ r hinv2 hp

theorem reads_of_loopInv (h0 h h2 : Mem) (res : CondSlice) (r : List Condition)
    (hinv : LoopInv h0 h res r) (hp : h <+: h2) (n : Nat) :
    (h2.cells res).map (Mem.read (n + 1) h2) = r := by
  obtain ⟨-, hok, hread⟩ := loopInv_mono h0 h h2 res r hinv hp
  rw [← hread]
  apply List.map_congr_left
  intro e he
  exact read_succ_eq_one h2 e (hok.2.2.2 e he).2 n

theorem loopInv_init (h : Mem) : LoopInv h h nilSlice [] := by
  refine ⟨List.prefix_refl h, ⟨?_, fun _ => rfl, ?_, ?_⟩, ?_⟩
  · simp [Mem.cells, nilSlice]
  · intro A hA; cases hA
  · intro e he
    simp [Mem.cells, nilSlice] at he
  · simp [Mem.cells, nilSlice]

theorem matchM_sim (grow : Nat → Nat → Nat) (ms : List MatcherM) (pms : List Matcher)
    (idx : List Int) (conds : CondSlice) (h : Mem) (d : Str) (r : List Condition)
    (hleaf : List.Forall₂ (fun mh mp => leafPure mh = some mp) ms pms)
    (hvalid : h.Holds conds)
    (htmpl : ∀ t ∈ h.cells conds, t.children.len = 0 ∧ t.children.cap = 0)
    (hp : (DomainMatcher.mk pms idx ((h.cells conds).map (Mem.read 0 h))).Match d = some r) :
    ∃ res h', (DomainMatcherM.mk ms idx conds).Match grow d h = some (res, h') ∧ h <+: h' ∧
      ∀ h2 : Mem, h' <+: h2 → ∀ n, (h2.cells res).map (Mem.read (n + 1) h2) = r := by
  rw [DomainMatcher.Match] at hp
  obtain ⟨res, h', hm, hinv⟩ := matchLoopM_sim grow h conds idx (stripDot d) hvalid htmpl ms pms
    hleaf 0 nilSlice [] h r (loopInv_init h) hp
  exact ⟨res, h', by rw [DomainMatcherM.Match]; exact hm, hinv.1,
    fun h2 hp2 n => reads_of_loopInv h h' h2 res r hinv hp2 n⟩

theorem templates_of_extends (h h' : Mem) (conds : CondSlice) (hp : h <+: h')
    (hvalid : h.Holds conds)
    (htmpl : ∀ t ∈ h.cells conds, t.children.len = 0 ∧ t.children.cap = 0) :
    h'.Holds conds ∧ h'.cells conds = h.cells conds ∧
      (∀ t ∈ h'.cells conds, t.children.len = 0 ∧ t.children.cap = 0) ∧
      (h'.cells conds).map (Mem.read 0 h') = (h.cells conds).map (Mem.read 0 h) := by
  have hc := cells_of_extends h h' conds hp hvalid
  refine ⟨holds_of_extends h h' conds hp hvalid, hc, ?_, ?_⟩
  · rw [hc]; exact htmpl
  · rw [hc]; rfl

theorem runQueries_sim (grow : Nat → Nat → Nat) (ms : List MatcherM) (pms : List Matcher)
    (idx : List Int) (conds : CondSlice)
    (hleaf : List.Forall₂ (fun mh mp => leafPure mh = some mp) ms pms) :
    ∀ (qs : List Str) (h : Mem), h.Holds conds →
      (∀ t ∈ h.cells conds, t.children.len = 0 ∧ t.children.cap = 0) →
      (∀ q ∈ qs,
        ((DomainMatcher.mk pms idx ((h.cells conds).map (Mem.read 0 h))).Match q).isSome) →
      ∃ h2, runQueries grow (DomainMatcherM.mk ms idx conds) qs h = some h2 ∧ h <+: h2
  | [], h, _, _, _ => ⟨h, rfl, List.prefix_refl h⟩
  | q :: qs, h, hvalid, htmpl, hret => by
    obtain ⟨r, hr⟩ := Option.isSome_iff_exists.mp (hret q (List.mem_cons_self _ _))
    obtain ⟨res, h1, hm, hp1, -⟩ := matchM_sim grow ms pms idx conds h q r hleaf hvalid htmpl hr
    obtain ⟨hv1, -, ht1, hP1⟩ := templates_of_extends h h1 conds hp1 hvalid htmpl
    obtain ⟨h2, hrun, hp2⟩ := runQueries_sim grow ms pms idx conds hleaf qs h1 hv1 ht1 (by
      intro q' hq'
      rw [hP1]
      exact hret q' (List.mem_cons_of_mem _ hq'))
    refine ⟨h2, ?_, hp1.trans hp2⟩
    rw [runQueries, hm]
    exact hrun

/-- C18: over the memory model, for a `DomainMatcher` whose matchers are
primitive and whose templates have nil children (as `Build` makes them), and
for queries on which `Match` does not panic: a call `Match(d)` returns, then
any run of further queries returns, then a second call `Match(d)` returns; the
memory before each call is a prefix of the memory after it, so every backing
array that existed (the templates and all that is reachable from them) is
unchanged and the templates still have no children; and both results, read
from the memory at the end, are the value `r` of `Match(d)`.  The slices
`matchers` and `matcherCondIdx` are values of the model and are not assigned. -/
theorem DomainMatcherM.match_frame (grow : Nat → Nat → Nat) (ms : List MatcherM)
    (pms : List Matcher) (idx : List Int) (conds : CondSlice) (h0 : Mem) (d : Str)
    (qs : List Str)
    (hleaf : List.Forall₂ (fun mh mp => leafPure mh = some mp) ms pms)
    (hvalid : h0.Holds conds)
    (htmpl : ∀ t ∈ h0.cells conds, t.children.len = 0 ∧ t.children.cap = 0)
    (hret : ∀ q ∈ d :: qs,
      ((DomainMatcher.mk pms idx ((h0.cells conds).map (Mem.read 0 h0))).Match q).isSome) :
    ∃ r res1 h1 h2 res2 h3,
      (DomainMatcher.mk pms idx ((h0.cells conds).map (Mem.read 0 h0))).Match d = some r ∧
      (DomainMatcherM.mk ms idx conds).Match grow d h0 = some (res1, h1) ∧
      runQueries grow (DomainMatcherM.mk ms idx conds) qs h1 = some h2 ∧
      (DomainMatcherM.mk ms idx conds).Match grow d h2 = some (res2, h3) ∧
      h0 <+: h1 ∧ h1 <+: h2 ∧ h2 <+: h3 ∧
      h3.cells conds = h0.cells conds ∧
      (∀ t ∈ h3.cells conds, h3.cells t.children = []) ∧
      (∀ n, (h1.cells res1).map (Mem.read (n + 1) h1) = r) ∧
      (∀ n, (h3.cells res1).map (Mem.read (n + 1) h3) = r) ∧
      (∀ n, (h3.cells res2).map (Mem.read (n + 1) h3) = r) := by
  obtain ⟨r, hr⟩ := Option.isSome_iff_exists.mp (hret d (List.mem_cons_self _ _))
  obtain ⟨res1, h1, hm1, hp1, hread1⟩ :=
    matchM_sim grow ms pms idx conds h0 d r hleaf hvalid htmpl hr
  obtain ⟨hv1, hc1, ht1, hP1⟩ := templates_of_extends h0 h1 conds hp1 hvalid htmpl
  obtain ⟨h2, hrun, hp2⟩ := runQueries_sim grow ms pms idx conds hleaf qs h1 hv1 ht1 (by
    intro q hq
    rw [hP1]
    exact hret q (List.mem_cons_of_mem _ hq))
  obtain ⟨hv2, hc2, ht2, hP2⟩ := templates_of_extends h1 h2 conds hp2 hv1 ht1
  obtain ⟨res2, h3, hm2, hp3, hread2⟩ :=
    matchM_sim grow ms pms idx conds h2 d r hleaf hv2 ht2 (by rw [hP2, hP1]; exact hr)
  obtain ⟨-, hc3, ht3, -⟩ := templates_of_extends h2 h3 conds hp3 hv2 ht2
  refine ⟨r, res1, h1, h2, res2, h3, hr, hm1, hrun, hm2, hp1, hp2, hp3, ?_, ?_,
    hread1 h1 (List.prefix_refl _), hread1 h3 (hp2.trans hp3), hread2 h3 (List.prefix_refl _)⟩
  · rw [hc3, hc2, hc1]
  · intro t ht
    exact cells_of_len_zero h3 _ (ht3 t ht).1

/-- Witness of C18: the sample matcher in a memory that holds its two
templates, the query `www.google.com`, and the query `x` in between. -/
theorem DomainMatcherM.match_frame_witness :
    sampleMem.Holds sampleConds ∧
      (∀ t ∈ sampleMem.cells sampleConds, t.children.len = 0 ∧ t.children.cap = 0) ∧
      (sampleMem.cells sampleConds).map (Mem.read 0 sampleMem) = sampleMatcher.conditions ∧
      ∃ r res1 h1 h2 res2 h3,
        (DomainMatcher.mk sampleMatcher.matchers [0, 0, 0, 1]
          ((sampleMem.cells sampleConds).map (Mem.read 0 sampleMem))).Match
            "www.google.com".toList = some r ∧
        (DomainMatcherM.mk sampleMatchersM [0, 0, 0, 1] sampleConds).Match sampleGrow
          "www.google.com".toList sampleMem = some (res1, h1) ∧
        runQueries sampleGrow (DomainMatcherM.mk sampleMatchersM [0, 0, 0, 1] sampleConds)
          ["x".toList] h1 = some h2 ∧
        (DomainMatcherM.mk sampleMatchersM [0, 0, 0, 1] sampleConds).Match sampleGrow
          "www.google.com".toList h2 = some (res2, h3) ∧
        sampleMem <+: h1 ∧ h1 <+: h2 ∧ h2 <+: h3 ∧
        h3.cells sampleConds = sampleMem.cells sampleConds ∧
        (∀ t ∈ h3.cells sampleConds, h3.cells t.children = []) ∧
        (∀ n, (h1.cells res1).map (Mem.read (n + 1) h1) = r) ∧
        (∀ n, (h3.cells res1).map (Mem.read (n + 1) h3) = r) ∧
        (∀ n, (h3.cells res2).map (Mem.read (n + 1) h3) = r) :=
  ⟨Or.inr ⟨0, rfl, by decide⟩, by decide, rfl,
    DomainMatcherM.match_frame sampleGrow sampleMatchersM sampleMatcher.matchers [0, 0, 0, 1]
      sampleConds sampleMem "www.google.com".toList ["x".toList]
      (List.Forall₂.cons rfl (List.Forall₂.cons rfl (List.Forall₂.cons rfl
        (List.Forall₂.cons rfl List.Forall₂.nil))))
      (Or.inr ⟨0, rfl, by decide⟩) (by decide) (by decide)⟩

/-! ### The evaluation loop over the memory model against the reference semantics -/

theorem leaves_match_isSome (ms : List MatcherM) (pms : List Matcher) (d : Str)
    (hleaf : List.Forall₂ (fun mh mp => leafPure mh = some mp) ms pms) :
    ∀ mt ∈ pms, (mt.Match d).isSome := by
  intro mt hmt
  obtain ⟨mh, -, hl⟩ := forall₂_mem_right _ _ _ hleaf mt hmt
  obtain ⟨r, hr, -, -⟩ := leaf_sim (fun _ n => n) mh mt d [] hl
  rw [hr]
  rfl

/-- The entries of a query when a template has spare capacity: over `spareMem`
the matchers `full:a` and `keyword:a` both fire on `a`, the second `append`
writes over the child of the first entry, and both entries read
`geosite:g/keyword:a`; the reference result is `geosite:g/full:a` followed by
`geosite:g/keyword:a`.  Hence the condition on the templates in the theorems
below. -/
theorem matchM_spare_capacity :
    ((DomainMatcherM.mk [MatcherM.ofFull "a".toList, MatcherM.ofKeyword "a".toList] [0, 0]
        ⟨some 0, 1, 1⟩).Match sampleGrow "a".toList spareMem).map
        (fun r => (r.2.cells r.1).map (Mem.read 1 r.2)) =
      some [Condition.mk "geosite".toList "g".toList [newCondition "keyword".toList "a".toList],
        Condition.mk "geosite".toList "g".toList
          [newCondition "keyword".toList "a".toList]] ∧
    specMatch (DomainMatcher.mk [Matcher.ofFull "a".toList, Matcher.ofKeyword "a".toList]
        [0, 0] ((spareMem.cells ⟨some 0, 1, 1⟩).map (Mem.read 0 spareMem))) "a".toList =
      [Condition.mk "geosite".toList "g".toList [newCondition "full".toList "a".toList],
        Condition.mk "geosite".toList "g".toList
          [newCondition "keyword".toList "a".toList]] :=
  ⟨rfl, rfl⟩

/-- C4: over the memory model, for a `DomainMatcher` whose matchers are
primitive, whose templates have nil children (as `Build` makes them) and whose
indices are valid positions of the template list, one index at least per
matcher: `Match(d)` returns, and its result reads as the reference result, in
which the matchers are walked in stored order on the dot-normalized `d` and
each one that fires contributes exactly one entry, its template unchanged or,
for the group kind (prefix `geosite`), a copy with the produced sub-conditions
as children.  For each rule the number of its entries is the number of its
matchers that fire, and the result is empty iff no matcher fires. -/
theorem DomainMatcherM.match_refines_spec (grow : Nat → Nat → Nat) (ms : List MatcherM)
    (pms : List Matcher) (idx : List Int) (conds : CondSlice) (h : Mem) (d : Str)
    (hleaf : List.Forall₂ (fun mh mp => leafPure mh = some mp) ms pms)
    (hvalid : h.Holds conds)
    (htmpl : ∀ t ∈ h.cells conds, t.children.len = 0 ∧ t.children.cap = 0)
    (hlen : pms.length ≤ idx.length)
    (hidx : ∀ j ∈ idx, 0 ≤ j ∧ j < ((h.cells conds).length : Int)) :
    ∃ res h',
      (DomainMatcherM.mk ms idx conds).Match grow d h = some (res, h') ∧
      (∀ n, (h'.cells res).map (Mem.read (n + 1) h') =
        specMatch (DomainMatcher.mk pms idx ((h.cells conds).map (Mem.read 0 h))) d) ∧
      (∀ j : Int,
        (specMatchIdx (DomainMatcher.mk pms idx ((h.cells conds).map (Mem.read 0 h))) d).countP
            (fun e => decide (e.1 = j)) =
          (specRecords (DomainMatcher.mk pms idx ((h.cells conds).map (Mem.read 0 h)))).countP
            (fun r => (specHit r.1 (specNormalize d)).isSome && decide (r.2 = j))) ∧
      (specMatch (DomainMatcher.mk pms idx ((h.cells conds).map (Mem.read 0 h))) d = [] ↔
        ∀ mt ∈ pms, specHit mt (specNormalize d) = none) := by
  have hidx' : ∀ j ∈ (DomainMatcher.mk pms idx
      ((h.cells conds).map (Mem.read 0 h))).matcherCondIdx,
      0 ≤ j ∧ j < ((DomainMatcher.mk pms idx
        ((h.cells conds).map (Mem.read 0 h))).conditions.length : Int) := by
    intro j hj
    simp only [DomainMatcher.conditions, List.length_map]
    exact hidx j hj
  have hpure := domainMatcher_match_spec
    (DomainMatcher.mk pms idx ((h.cells conds).map (Mem.read 0 h))) d hlen hidx'
    (leaves_match_isSome ms pms _ hleaf)
  obtain ⟨res, h', hm, -, hread⟩ :=
    matchM_sim grow ms pms idx conds h d _ hleaf hvalid htmpl hpure
  have hrec : ∀ r ∈ specRecords (DomainMatcher.mk pms idx
      ((h.cells conds).map (Mem.read 0 h))),
      0 ≤ r.2 ∧ r.2 < ((DomainMatcher.mk pms idx
        ((h.cells conds).map (Mem.read 0 h))).conditions.length : Int) := fun r hr =>
    hidx' r.2 (snd_mem_of_mem_zip _ _ r hr)
  refine ⟨res, h', hm, hread h' (List.prefix_refl _), fun j => ?_, ?_⟩
  · exact countP_filterMap_specEmit _ (specNormalize d) j _ hrec
  · unfold specMatch specMatchIdx
    rw [List.map_eq_nil_iff, filterMap_specEmit_eq_nil _ (specNormalize d) _ hrec]
    constructor
    · intro hall mt hmt
      have hfst : (specRecords (DomainMatcher.mk pms idx
          ((h.cells conds).map (Mem.read 0 h)))).map Prod.fst = pms :=
        List.map_fst_zip _ _ hlen
      rw [← hfst] at hmt
      obtain ⟨r, hr, rfl⟩ := List.mem_map.mp hmt
      exact hall r hr
    · intro hall r hr
      exact hall r.1 (List.of_mem_zip hr).1

/-- Witness of C4: the sample matcher in a memory that holds its two templates,
on the query `www.google.com.`; the three matchers of the group rule fire and
give three entries for that rule. -/
theorem DomainMatcherM.match_refines_spec_witness :
    sampleMem.Holds sampleConds ∧
      (∀ t ∈ sampleMem.cells sampleConds, t.children.len = 0 ∧ t.children.cap = 0) ∧
      sampleMatcher.matchers.length ≤ ([0, 0, 0, 1] : List Int).length ∧
      (∀ j ∈ ([0, 0, 0, 1] : List Int),
        0 ≤ j ∧ j < ((sampleMem.cells sampleConds).length : Int)) ∧
      specMatch (DomainMatcher.mk sampleMatcher.matchers [0, 0, 0, 1]
          ((sampleMem.cells sampleConds).map (Mem.read 0 sampleMem)))
          "www.google.com.".toList =
        [Condition.mk "geosite".toList "google".toList
            [newCondition "domain".toList "google.com".toList],
          Condition.mk "geosite".toList "google".toList
            [newCondition "full".toList "www.google.com".toList],
          Condition.mk "geosite".toList "google".toList
            [newCondition "keyword".toList "goog".toList]] ∧
      ∃ res h',
        (DomainMatcherM.mk sampleMatchersM [0, 0, 0, 1] sampleConds).Match sampleGrow
          "www.google.com.".toList sampleMem = some (res, h') ∧
        (∀ n, (h'.cells res).map (Mem.read (n + 1) h') =
          specMatch (DomainMatcher.mk sampleMatcher.matchers [0, 0, 0, 1]
            ((sampleMem.cells sampleConds).map (Mem.read 0 sampleMem)))
            "www.google.com.".toList) ∧
        (∀ j : Int,
          (specMatchIdx (DomainMatcher.mk sampleMatcher.matchers [0, 0, 0, 1]
              ((sampleMem.cells sampleConds).map (Mem.read 0 sampleMem)))
              "www.google.com.".toList).countP (fun e => decide (e.1 = j)) =
            (specRecords (DomainMatcher.mk sampleMatcher.matchers [0, 0, 0, 1]
              ((sampleMem.cells sampleConds).map (Mem.read 0 sampleMem)))).countP
              (fun r => (specHit r.1 (specNormalize "www.google.com.".toList)).isSome &&
                decide (r.2 = j))) ∧
        (specMatch (DomainMatcher.mk sampleMatcher.matchers [0, 0, 0, 1]
            ((sampleMem.cells sampleConds).map (Mem.read 0 sampleMem)))
            "www.google.com.".toList = [] ↔
          ∀ mt ∈ sampleMatcher.matchers,
            specHit mt (specNormalize "www.google.com.".toList) = none) :=
  ⟨Or.inr ⟨0, rfl, by decide⟩, by decide, by decide, by decide, rfl,
    DomainMatcherM.match_refines_spec sampleGrow sampleMatchersM sampleMatcher.matchers
      [0, 0, 0, 1] sampleConds sampleMem "www.google.com.".toList
      (List.Forall₂.cons rfl (List.Forall₂.cons rfl (List.Forall₂.cons rfl
        (List.Forall₂.cons rfl List.Forall₂.nil))))
      (Or.inr ⟨0, rfl, by decide⟩) (by decide) (by decide) (by decide)⟩

end Geomatch
